import Mathlib

/-!
# EightPuzzleSolver: a verification development

A shallow embedding of `State.h` / `State.cpp` (boards, move generator,
solvability test, heuristics), `Utility.h` (tables and comparators) and
`EightPuzzleSolver.cpp` (path reconstruction, Best-First and A* search),
followed by theorems about the embedded program.

Conventions of the embedding.

* A `State` is the list of the tiles `board[0] .. board[8]` (row-major).
* `size_t` arithmetic is arithmetic of `Nat` modulo `2 ^ 64` wherever a
  wrap-around can occur (`empty_pos + indent`, `i - board[i]`).
* `while` loops take a fuel argument and return `none` when it runs out.
-/

namespace EightPuzzle

/-! ## State.h / State.cpp -/

/-- The constant `BOARD_SIZE` of State.h. -/
def BOARD_SIZE : Nat := 9

/-- A board `u8 board[BOARD_SIZE]`, as the list of its tiles in row-major order. -/
abbrev State := List Nat

/-- The type `StateList = std::list<State>` of Utility.h. -/
abbrev StateList := List State

/-- The array read `board[i]`. -/
def tile (b : State) (i : Nat) : Nat := b.getD i 0

/-- The algorithm `std::is_sorted`: no element is smaller than the one before it. -/
def is_sorted : List Nat → Bool
  | [] => true
  | [_] => true
  | x :: y :: rest => if y < x then false else is_sorted (y :: rest)

/-- The method `State::is_goal`. -/
def is_goal (b : State) : Bool := is_sorted b

/-- The inner loop of `State::is_solvable`: `j` runs from `i + 1` to `BOARD_SIZE - 1`. -/
def inversions_from (b : State) (i : Nat) (inversions : Nat) : Nat :=
  (List.range' (i + 1) (BOARD_SIZE - (i + 1))).foldl
    (fun acc j => if tile b i ≠ 0 ∧ tile b j ≠ 0 ∧ tile b i > tile b j then acc + 1 else acc)
    inversions

/-- The value of the local `inversions` of `State::is_solvable` after both loops. -/
def count_inversions (b : State) : Nat :=
  (List.range BOARD_SIZE).foldl (fun acc i => inversions_from b i acc) 0

/-- The method `State::is_solvable`: `!(inversions % 2)`. -/
def is_solvable (b : State) : Bool := !(decide (count_inversions b % 2 ≠ 0))

/-- The expression `std::find(board, board + BOARD_SIZE, 0) - board`. -/
def empty_pos (b : State) : Nat := b.indexOf 0

/-- The call `std::swap(new_board[i], new_board[j])` on a copy of the board. -/
def swap_tiles (b : State) (i j : Nat) : State :=
  (b.set i (tile b j)).set j (tile b i)

/-- The index `empty_pos + indent`: the `int` is converted to `size_t` and the
sum is taken modulo `2 ^ 64`. -/
def target_pos (e : Nat) (indent : Int) : Nat :=
  (((e : Int) + indent) % (2 ^ 64 : Int)).toNat

/-- The method `State::move_tile`. -/
def move_tile (b : State) (indent : Int) : State :=
  swap_tiles b (empty_pos b) (target_pos (empty_pos b) indent)

/-- The method `State::move_up`. -/
def move_up (b : State) : State := move_tile b 3

/-- The method `State::move_down`. -/
def move_down (b : State) : State := move_tile b (-3)

/-- The method `State::move_left`. -/
def move_left (b : State) : State := move_tile b 1

/-- The method `State::move_right`. -/
def move_right (b : State) : State := move_tile b (-1)

/-- The method `State::generate_moves`. -/
def generate_moves (b : State) : StateList :=
  (if empty_pos b < 6 then [move_up b] else []) ++
  (if empty_pos b > 2 then [move_down b] else []) ++
  (if empty_pos b % 3 ≠ 0 then [move_right b] else []) ++
  (if empty_pos b % 3 ≠ 2 then [move_left b] else [])

/-- The conversion of a `size_t` value to `int` (32 bits, two's complement). -/
def int_of_size_t (x : Nat) : Int :=
  if x % 2 ^ 32 < 2 ^ 31 then ((x % 2 ^ 32 : Nat) : Int) else ((x % 2 ^ 32 : Nat) : Int) - 2 ^ 32

/-- The initialiser `int diff = i - board[i]`: the subtraction is done in
`size_t` (modulo `2 ^ 64`) and the result converted to `int`. -/
def tile_diff (i v : Nat) : Int :=
  int_of_size_t ((i + (2 ^ 64 - v % 2 ^ 64)) % 2 ^ 64)

/-- The method `State::manhattan_distance`. -/
def manhattan_distance (b : State) : Nat :=
  (List.range BOARD_SIZE).foldl
    (fun distance i =>
      if tile b i ≠ 0 then
        distance + ((tile_diff i (tile b i)).natAbs / 3 + (tile_diff i (tile b i)).natAbs % 3)
      else distance)
    0

/-- The method `State::not_in_place_count`. -/
def not_in_place_count (b : State) : Nat :=
  (List.range BOARD_SIZE).foldl
    (fun distance i => if tile b i ≠ i ∧ tile b i ≠ 0 then distance + 1 else distance)
    0

/-! ## Utility.h -/

/-- The type `StateSet = std::unordered_set<State>`: the boards it holds. -/
abbrev StateSet := List State

/-- The type `ParentTable = std::unordered_map<State, State>`, as an association list. -/
abbrev ParentTable := List (State × State)

/-- The type `CostTable = std::unordered_map<State, size_t>`, as an association list. -/
abbrev CostTable := List (State × Nat)

/-- The lookup `table.find(key)`: the value stored under `key`, `none` for `end()`. -/
def table_find {α : Type} : List (State × α) → State → Option α
  | [], _ => none
  | (k, v) :: rest, key => if k = key then some v else table_find rest key

/-- The assignment `table[key] = value`: replaces the entry of `key` or adds one. -/
def table_assign {α : Type} : List (State × α) → State → α → List (State × α)
  | [], key, value => [(key, value)]
  | (k, v) :: rest, key, value =>
    if k = key then (key, value) :: rest else (k, v) :: table_assign rest key value

/-- The test `visited.find(s) != visited.end()`. -/
def set_contains (visited : StateSet) (s : State) : Bool := decide (s ∈ visited)

/-- The call `visited.insert(s)`. -/
def set_insert (visited : StateSet) (s : State) : StateSet :=
  if s ∈ visited then visited else visited ++ [s]

/-- The read `(*table)[s]` of a cost: the stored value, and `0` (the value-initialised
`size_t`) for a board without entry. In the source the read of a missing key also adds
the entry `(s, 0)` to the table; the comparators are only ever applied to boards of the
frontier, and these have an entry (field `seen_queue` of the invariant `a_star_inv`). -/
def cost_of (table : CostTable) (s : State) : Nat := (table_find table s).getD 0

/-- A comparator type of Utility.h: constructed from the pointer `table`
(`none` for `nullptr`), it gives the function `operator()`. -/
abbrev Comparator := Option CostTable → State → State → Bool

/-- The struct `ManhattanDistanceComparator`, with its `operator()`. -/
def ManhattanDistanceComparator : Comparator := fun table first second =>
  let first_cost := manhattan_distance first +
    (match table with | some t => cost_of t first | none => 0)
  let second_cost := manhattan_distance second +
    (match table with | some t => cost_of t second | none => 0)
  decide (first_cost > second_cost)

/-- The struct `NotInPlaceCountComparator`, with its `operator()`. -/
def NotInPlaceCountComparator : Comparator := fun table first second =>
  let first_cost := not_in_place_count first +
    (match table with | some t => cost_of t first | none => 0)
  let second_cost := not_in_place_count second +
    (match table with | some t => cost_of t second | none => 0)
  decide (first_cost > second_cost)

/-- The container adaptor `StatePriorityQueue<Comparator>` (`std::priority_queue` over a
`std::vector<State>`). Its code is the standard library's, so it is a parameter of the
searches: the queue is the list of the boards of the underlying vector, `top()` is its
first element, `push` and `pop` rearrange it with the comparator they are given. The two laws
are what every implementation satisfies whatever the comparator answers: `push` adds
the board and `pop` removes the top. -/
structure PriorityQueueOps where
  /-- The call `queue.push(s)`. -/
  push : (State → State → Bool) → List State → State → List State
  /-- The call `queue.pop()`. -/
  pop : (State → State → Bool) → List State → List State
  /-- Pushing adds exactly the pushed board. -/
  push_perm : ∀ cmp queue s, (push cmp queue s).Perm (s :: queue)
  /-- Popping removes exactly the top. -/
  pop_perm : ∀ cmp s queue, (pop cmp (s :: queue)).Perm queue

/-- Insertion of a board in front of the first board that the comparator puts below it. -/
def ordered_insert (cmp : State → State → Bool) (s : State) : List State → List State
  | [] => [s]
  | t :: rest => if cmp t s then s :: t :: rest else t :: ordered_insert cmp s rest

/-- The tail of the queue. -/
def drop_top (queue : List State) : List State := queue.tail

/-- A priority queue kept as a list in priority order: a pushed board goes after the
boards that the comparator does not put below it, and the top is the first board. -/
def sorted_queue : PriorityQueueOps where
  push := fun cmp queue s => ordered_insert cmp s queue
  pop := fun _ queue => drop_top queue
  push_perm := by
    intro cmp queue s
    induction queue with
    | nil => simp [ordered_insert]
    | cons t rest ih =>
      unfold ordered_insert
      split_ifs
      · exact List.Perm.refl _
      · exact (List.Perm.cons t ih).trans (List.Perm.swap s t rest)
  pop_perm := by
    intro cmp s queue
    exact List.Perm.refl _

/-! ## EightPuzzleSolver.cpp -/

/-- The `while` loop of `generate_path`. A read `parent[current]` of a board without
entry default-constructs a `State`, which is a freshly shuffled board: `rnd n` is the
board that the `n`-th such construction yields. -/
def generate_path_loop (rnd : Nat → State) (initial : State) :
    Nat → Nat → State → StateList → ParentTable → Option StateList
  | 0, _, _, _, _ => none
  | fuel + 1, n, current, path, parent =>
    if current = initial then some path
    else
      match table_find parent current with
      | some p => generate_path_loop rnd initial fuel n p (p :: path) parent
      | none =>
        generate_path_loop rnd initial fuel (n + 1) (rnd n) (rnd n :: path)
          (table_assign parent current (rnd n))

/-- The function `generate_path`. -/
def generate_path (rnd : Nat → State) (fuel : Nat) (initial goal : State)
    (parent : ParentTable) : Option StateList :=
  generate_path_loop rnd initial fuel 0 goal [goal] parent

/-- The body of the `for` loop of `best_first_search` for one successor; the
variables are the triple `(queue, parent, visited)`. -/
def best_first_visit (Q : PriorityQueueOps) (cmp : State → State → Bool) (current : State)
    (vars : List State × ParentTable × StateSet) (succ : State) :
    List State × ParentTable × StateSet :=
  if set_contains vars.2.2 succ then vars
  else (Q.push cmp vars.1 succ, table_assign vars.2.1 succ current, set_insert vars.2.2 succ)

/-- The `while` loop of `best_first_search`; the comparator is default-constructed
(`table == nullptr`). -/
def best_first_loop (Q : PriorityQueueOps) (rnd : Nat → State) (C : Comparator)
    (initial : State) (path_fuel : Nat) :
    Nat → List State → ParentTable → StateSet → Option StateList
  | 0, _, _, _ => none
  | fuel + 1, queue, parent, visited =>
    match queue with
    | [] => some []
    | current :: rest =>
      if is_goal current then generate_path rnd path_fuel initial current parent
      else
        let vars := (generate_moves current).foldl (best_first_visit Q (C none) current)
          (Q.pop (C none) (current :: rest), parent, visited)
        best_first_loop Q rnd C initial path_fuel fuel vars.1 vars.2.1 vars.2.2

/-- The function template `best_first_search<Comparator>`. -/
def best_first_search (Q : PriorityQueueOps) (rnd : Nat → State) (C : Comparator)
    (fuel : Nat) (initial : State) : Option StateList :=
  best_first_loop Q rnd C initial fuel fuel (Q.push (C none) [] initial) []
    (set_insert [] initial)

/-- The body of the `for` loop of `a_star_search` for one successor; the variables
are the triple `(queue, parent, moves)`. The comparator of the queue points to `moves`,
so a push compares with the table as it is at the time of the push. -/
def a_star_visit (Q : PriorityQueueOps) (C : Comparator) (current : State) (succ_depth : Nat)
    (vars : List State × ParentTable × CostTable) (succ : State) :
    List State × ParentTable × CostTable :=
  match table_find vars.2.2 succ with
  | none =>
    (Q.push (C (some (table_assign vars.2.2 succ succ_depth))) vars.1 succ,
      table_assign vars.2.1 succ current,
      table_assign vars.2.2 succ succ_depth)
  | some cost =>
    if cost > succ_depth then
      (vars.1, table_assign vars.2.1 succ current, table_assign vars.2.2 succ succ_depth)
    else vars

/-- The table after the read `moves[current]`, which adds the entry `(current, 0)` when
`current` has none. -/
def cost_touch (moves : CostTable) (current : State) : CostTable :=
  match table_find moves current with
  | some _ => moves
  | none => table_assign moves current 0

/-- The `while` loop of `a_star_search`. -/
def a_star_loop (Q : PriorityQueueOps) (rnd : Nat → State) (C : Comparator)
    (initial : State) (path_fuel : Nat) :
    Nat → List State → ParentTable → CostTable → Option StateList
  | 0, _, _, _ => none
  | fuel + 1, queue, parent, moves =>
    match queue with
    | [] => some []
    | current :: rest =>
      if is_goal current then generate_path rnd path_fuel initial current parent
      else
        let succ_depth := cost_of moves current + 1
        let vars := (generate_moves current).foldl (a_star_visit Q C current succ_depth)
          (Q.pop (C (some moves)) (current :: rest), parent, cost_touch moves current)
        a_star_loop Q rnd C initial path_fuel fuel vars.1 vars.2.1 vars.2.2

/-- The function template `a_star_search<Comparator>`. -/
def a_star_search (Q : PriorityQueueOps) (rnd : Nat → State) (C : Comparator)
    (fuel : Nat) (initial : State) : Option StateList :=
  a_star_loop Q rnd C initial fuel fuel
    (Q.push (C (some (table_assign [] initial 0))) [] initial) [] (table_assign [] initial 0)

/-! ## Vocabulary of the specification -/

/-- The goal board of the specification. -/
def goal_board : State := [0, 1, 2, 3, 4, 5, 6, 7, 8]

/-- The index pairs `(i, j)` with `i < j`, `b[i] > b[j]` and `b[j] > 0`. -/
def inversion_pairs (b : State) : Finset (Nat × Nat) :=
  (Finset.range 9 ×ˢ Finset.range 9).filter
    (fun p => p.1 < p.2 ∧ tile b p.1 > tile b p.2 ∧ tile b p.2 > 0)

/-- The board `b` with the tiles at positions `i` and `j` exchanged, position by position. -/
def exchanged (b : State) (i j : Nat) : State :=
  (List.range 9).map (fun k => if k = i then tile b j else if k = j then tile b i else tile b k)

/-- The explicit row/column Manhattan distance: the sum over the non-zero tiles of
`|row_now - row_goal| + |col_now - col_goal|`, the goal position of tile `v` being `v`. -/
def manhattan_explicit (b : State) : Nat :=
  ((List.range 9).map (fun i =>
    if tile b i ≠ 0 then
      ((i / 3 : Int) - (tile b i / 3 : Int)).natAbs + ((i % 3 : Int) - (tile b i % 3 : Int)).natAbs
    else 0)).sum

/-- The cells `e` and `t` are orthogonal neighbours on the 3×3 board. -/
def adjacent (e t : Nat) : Prop :=
  t = e + 3 ∨ t + 3 = e ∨ (t + 1 = e ∧ e % 3 ≠ 0) ∨ (t = e + 1 ∧ e % 3 ≠ 2)

/-- The inversions of a list, counted element by element: for every element the number
of later elements that form an inversion with it (zeros are not counted). -/
def inversions_list : List Nat → Nat
  | [] => 0
  | x :: rest => rest.countP (fun y => decide (x ≠ 0 ∧ y ≠ 0 ∧ x > y)) + inversions_list rest

/-- A path of the puzzle: every board after the first is a successor of the one before it. -/
def is_move_chain (path : StateList) : Prop :=
  List.Chain' (fun s t => t ∈ generate_moves s) path

/-- The board `t` is reached from `s` by a chain of `generate_moves` steps. -/
def Reach (s t : State) : Prop :=
  Relation.ReflTransGen (fun a b => b ∈ generate_moves a) s t

/-- A result of a search that is a path: it starts at `initial`, its last board is a goal,
every board after the first is a successor of the one before it, and no board occurs twice. -/
def good_path (initial : State) (path : StateList) : Prop :=
  path.head? = some initial ∧ (∃ g, path.getLast? = some g ∧ is_goal g = true) ∧
    is_move_chain path ∧ path.Nodup

/-! ## A solver for the solvable boards

The definitions below are not part of the program: they describe, as checkable data, how
every board with an even number of inversions is brought to the goal. Tiles are put in
their cells one after the other; while a tile is routed, the tiles that play no role are
hidden behind the value 9. -/

/-- The value of a tile when only the empty cell and the tiles of `keep` are shown. -/
def hide (keep : List Nat) (v : Nat) : Nat := if v = 0 ∨ v ∈ keep then v else 9

/-- The value under a hidden tile when tile 4 is the only hidden one. -/
def unhide (v : Nat) : Nat := if v = 9 then 4 else v

/-- The board that shows the empty cell at `p0`, tile `n` at `pn` and the tiles of `placed`
in their own cells, every other tile being hidden. -/
def abs_board (placed : List Nat) (n p0 pn : Nat) : State :=
  (List.range 9).map
    (fun i => if i = p0 then 0 else if i = pn then n else if i ∈ placed then i else 9)

/-- The board reached by taking, step by step, the successor with the given index. -/
def follow : State → List Nat → Option State
  | a, [] => some a
  | a, k :: ks =>
    match (generate_moves a)[k]? with
    | some a' => follow a' ks
    | none => none

/-- Every tile of `tiles` is in its own cell. -/
def in_place (tiles : List Nat) (a : State) : Bool := tiles.all (fun v => tile a v == v)

/-- The routes of `table` bring tile `n` to its cell, the tiles of `placed` ending in
theirs, wherever the empty cell and tile `n` start outside the cells of `placed`. -/
def stage_check (placed : List Nat) (n : Nat) (table : List (List Nat)) : Bool :=
  (List.range 9).all fun p0 => (List.range 9).all fun pn =>
    decide (p0 = pn) || decide (p0 ∈ placed) || decide (pn ∈ placed) ||
      match follow (abs_board placed n p0 pn) (table.getD (9 * p0 + pn) []) with
      | some a => in_place (n :: placed) a
      | none => false

/-- The routes of `table` bring to the goal every solvable board that has the tiles
1, 2, 5, 6, 7, 8 in their cells. -/
def final_check (table : List (List Nat)) : Bool :=
  (List.range 9).all fun p0 => (List.range 9).all fun p3 =>
    decide (p0 = p3) || decide (p0 ∈ [1, 2, 5, 6, 7, 8]) || decide (p3 ∈ [1, 2, 5, 6, 7, 8]) ||
      !is_solvable ((abs_board [1, 2, 5, 6, 7, 8] 3 p0 p3).map unhide) ||
      follow ((abs_board [1, 2, 5, 6, 7, 8] 3 p0 p3).map unhide) (table.getD (9 * p0 + p3) [])
        == some goal_board

/-- The routes that bring tile 8 to its cell while the tiles [] end in theirs: the entry at `9 *
p0 + pn` is for the empty cell at `p0` and tile 8 at `pn`, and lists, step by step, the
index of the successor to take in `generate_moves`. -/
def route_8 : List (List Nat) :=
  [[], [0, 2, 1, 2, 0, 2, 0, 2, 0], [0, 2, 3, 1, 1, 0, 0, 2, 0], [1, 0, 2, 0, 1, 0, 3, 0, 1],
   [0, 0, 1, 0, 3, 0, 1], [0, 0, 1, 2, 0], [0, 2, 0, 1, 0, 2, 3, 0, 1], [0, 2, 3, 0, 1], [],
   [1, 0, 2, 1, 2, 0, 2, 0, 2, 0], [], [0, 3, 1, 1, 0, 0, 2, 0], [0, 2, 0, 1, 0, 3, 0, 1],
   [2, 0, 2, 0, 2, 0], [0, 0, 2, 0], [0, 0, 1, 0, 2, 3, 0, 1], [0, 3, 0, 1], [],
   [1, 1, 0, 2, 1, 2, 0, 2, 0, 2, 0], [0, 2, 1, 2, 0, 2, 0, 2, 0], [],
   [0, 2, 2, 0, 1, 0, 3, 0, 1], [0, 2, 0, 2, 0], [1, 0, 0, 2, 0], [0, 0, 1, 1, 0, 2, 3, 0, 1],
   [0, 0, 1], [], [1, 1, 0, 2, 0, 1, 0, 3, 0, 1], [2, 1, 2, 0, 2, 0, 2, 0],
   [2, 3, 1, 1, 0, 0, 2, 0], [], [0, 1, 0, 3, 0, 1], [0, 1, 2, 0], [2, 0, 1, 0, 2, 3, 0, 1],
   [2, 3, 0, 1], [], [1, 1, 0, 2, 1, 2, 0, 2, 0, 2, 0], [1, 2, 0, 2, 0, 2, 0],
   [3, 1, 1, 0, 0, 2, 0], [2, 0, 1, 0, 3, 0, 1], [], [0, 2, 0], [0, 1, 0, 2, 3, 0, 1], [3, 0, 1],
   [], [1, 1, 1, 0, 2, 1, 2, 0, 2, 0, 2, 0], [2, 1, 2, 0, 2, 0, 2, 0], [1, 1, 0, 0, 2, 0],
   [2, 2, 0, 1, 0, 3, 0, 1], [2, 0, 2, 0], [], [0, 1, 1, 0, 2, 3, 0, 1], [0, 1], [],
   [0, 1, 1, 0, 2, 0, 1, 0, 3, 0, 1], [0, 2, 1, 2, 0, 2, 0, 2, 0], [0, 2, 3, 1, 1, 0, 0, 2, 0],
   [0, 2, 0, 1, 0, 2, 3, 0, 1], [1, 0, 3, 0, 1], [1, 2, 0], [], [0, 2, 3, 0, 1], [],
   [0, 1, 1, 0, 2, 1, 2, 0, 2, 0, 2, 0], [0, 1, 2, 0, 2, 0, 2, 0], [0, 3, 1, 1, 0, 0, 2, 0],
   [0, 2, 0, 1, 0, 3, 0, 1], [0, 3, 0, 1], [2, 0], [1, 0, 2, 3, 0, 1], [], [],
   [0, 1, 1, 1, 0, 2, 1, 2, 0, 2, 0, 2, 0], [0, 2, 1, 2, 0, 2, 0, 2, 0], [0, 1, 1, 0, 0, 2, 0],
   [0, 2, 2, 0, 1, 0, 3, 0, 1], [0, 2, 0, 2, 0], [0], [1, 1, 0, 2, 3, 0, 1], [1], []]

/-- The routes that bring tile 7 to its cell while the tiles [8] end in theirs: the entry at `9
* p0 + pn` is for the empty cell at `p0` and tile 7 at `pn`, and lists, step by step, the
index of the successor to take in `generate_moves`. -/
def route_7 : List (List Nat) :=
  [[], [0, 2, 1, 1, 0, 0, 1, 0], [1, 2, 0, 2, 1, 1, 0, 0, 1, 0], [1, 0, 2, 0, 1, 0], [0, 0, 1, 0],
   [0, 2, 3, 1, 1, 1, 0, 0, 1, 0], [0, 2, 0, 1], [], [], [0, 2, 1, 1, 0, 2, 0, 1, 0], [],
   [2, 0, 2, 1, 1, 0, 0, 1, 0], [0, 2, 0, 1, 0], [1, 0, 0, 1, 0], [0, 3, 1, 1, 1, 0, 0, 1, 0],
   [0, 0, 1], [], [], [0, 2, 2, 1, 1, 0, 2, 0, 1, 0], [0, 2, 1, 1, 0, 0, 1, 0], [],
   [0, 2, 2, 0, 1, 0], [1, 1, 0, 0, 1, 0], [1, 0, 3, 1, 1, 1, 0, 0, 1, 0], [0, 2, 0, 1], [], [],
   [1, 1, 0, 2, 0, 1, 0], [2, 1, 1, 0, 0, 1, 0], [0, 1, 2, 0, 1, 1, 0, 3, 0, 1, 0], [], [0, 1, 0],
   [2, 3, 1, 1, 1, 0, 0, 1, 0], [2, 0, 1], [], [], [2, 1, 1, 0, 2, 0, 1, 0], [1, 1, 0, 0, 1, 0],
   [0, 2, 0, 1, 1, 0, 3, 0, 1, 0], [2, 0, 1, 0], [], [3, 1, 1, 1, 0, 0, 1, 0], [0, 1], [], [],
   [2, 2, 1, 1, 0, 2, 0, 1, 0], [2, 1, 1, 0, 0, 1, 0], [1, 1, 0, 3, 1, 1, 1, 0, 0, 1, 0],
   [2, 2, 0, 1, 0], [1, 1, 1, 0, 0, 1, 0], [], [2, 0, 1], [], [], [0, 1, 1, 0, 2, 0, 1, 0],
   [0, 2, 1, 1, 0, 0, 1, 0], [1, 2, 0, 1, 1, 0, 3, 0, 1, 0], [0, 2, 0, 1], [1, 0],
   [0, 2, 3, 1, 1, 1, 0, 0, 1, 0], [], [], [], [0, 2, 1, 1, 0, 2, 0, 1, 0], [0, 1, 1, 0, 0, 1, 0],
   [2, 0, 1, 1, 0, 3, 0, 1, 0], [0, 2, 0, 1, 0], [0], [0, 3, 1, 1, 1, 0, 0, 1, 0], [1], [], [],
   [], [], [], [], [], [], [], [], []]

/-- The routes that bring tile 6 to its cell while the tiles [7, 8] end in theirs: the entry at
`9 * p0 + pn` is for the empty cell at `p0` and tile 6 at `pn`, and lists, step by step, the
index of the successor to take in `generate_moves`. -/
def route_6 : List (List Nat) :=
  [[], [0, 0, 1, 0, 1, 1, 0, 2, 0, 1, 0], [0, 0, 1, 0, 1, 2, 0, 2, 1, 1, 0, 2, 0, 1, 0],
   [0, 0, 1, 0, 2, 1, 1, 0, 0, 1, 0], [0, 2, 3, 0, 1, 1, 0, 2, 0, 2, 0],
   [0, 2, 3, 0, 1, 0, 2, 0, 1, 2, 0], [], [], [], [0, 2, 0, 1, 0, 2, 1, 1, 0, 0, 1, 0], [],
   [0, 3, 1, 1, 0, 3, 0, 1, 0, 2, 0, 1, 2, 0], [0, 3, 0, 1, 1, 0, 2, 0, 2, 0],
   [2, 0, 0, 1, 0, 2, 0, 1, 2, 0], [0, 3, 0, 1, 0, 2, 0, 1, 2, 0], [], [], [],
   [0, 2, 2, 0, 1, 0, 2, 1, 1, 0, 0, 1, 0], [0, 2, 1, 2, 0, 0, 1, 0, 2, 0, 1, 2, 0], [],
   [0, 0, 1, 1, 0, 2, 0, 2, 0], [0, 0, 1, 0, 2, 0, 1, 2, 0], [1, 0, 3, 0, 1, 0, 2, 0, 1, 2, 0],
   [], [], [], [0, 1, 0, 2, 1, 1, 0, 0, 1, 0], [0, 1, 0, 1, 1, 0, 2, 0, 1, 0],
   [0, 1, 0, 1, 2, 0, 2, 1, 1, 0, 2, 0, 1, 0], [], [2, 3, 0, 1, 1, 0, 2, 0, 2, 0],
   [2, 3, 0, 1, 0, 2, 0, 1, 2, 0], [], [], [], [2, 0, 1, 0, 2, 1, 1, 0, 0, 1, 0],
   [1, 2, 0, 0, 1, 0, 2, 0, 1, 2, 0], [3, 1, 1, 0, 3, 0, 1, 0, 2, 0, 1, 2, 0],
   [3, 0, 1, 1, 0, 2, 0, 2, 0], [], [3, 0, 1, 0, 2, 0, 1, 2, 0], [], [], [],
   [2, 2, 0, 1, 0, 2, 1, 1, 0, 0, 1, 0], [2, 1, 2, 0, 0, 1, 0, 2, 0, 1, 2, 0],
   [1, 1, 0, 3, 0, 1, 0, 2, 0, 1, 2, 0], [0, 1, 1, 0, 2, 0, 2, 0], [0, 1, 0, 2, 0, 1, 2, 0], [],
   [], [], [], [1, 0, 2, 1, 1, 0, 0, 1, 0], [1, 0, 1, 1, 0, 2, 0, 1, 0],
   [1, 0, 1, 2, 0, 2, 1, 1, 0, 2, 0, 1, 0], [0], [0, 2, 3, 0, 1, 1, 0, 2, 0, 2, 0],
   [0, 2, 3, 0, 1, 0, 2, 0, 1, 2, 0], [], [], [], [], [], [], [], [], [], [], [], [], [], [], [],
   [], [], [], [], [], []]

/-- The routes that bring tile 5 to its cell while the tiles [6, 7, 8] end in theirs: the entry
at `9 * p0 + pn` is for the empty cell at `p0` and tile 5 at `pn`, and lists, step by step,
the index of the successor to take in `generate_moves`. -/
def route_5 : List (List Nat) :=
  [[], [0, 2, 1, 2, 0, 2], [0, 2, 3, 1], [1, 0, 2, 1, 1, 2, 0, 2], [1, 2, 0, 2], [], [], [], [],
   [1, 0, 2, 1, 2, 0, 2], [], [0, 3, 1], [0, 2, 1, 1, 2, 0, 2], [2, 0, 2], [], [], [], [],
   [1, 1, 0, 2, 1, 2, 0, 2], [1, 0, 3, 1], [], [0, 2, 2, 1, 1, 2, 0, 2], [0, 2], [], [], [], [],
   [1, 1, 0, 2, 1, 1, 2, 0, 2], [2, 1, 2, 0, 2], [2, 3, 1], [], [1, 1, 2, 0, 2], [], [], [], [],
   [1, 1, 0, 2, 1, 2, 0, 2], [1, 2, 0, 2], [3, 1], [2, 1, 1, 2, 0, 2], [], [], [], [], [],
   [1, 1, 1, 0, 2, 1, 2, 0, 2], [1, 1, 0, 3, 1], [1], [2, 2, 1, 1, 2, 0, 2], [2], [], [], [], [],
   [], [], [], [], [], [], [], [], [], [], [], [], [], [], [], [], [], [], [], [], [], [], [], [],
   [], [], []]

/-- The routes that bring tile 2 to its cell while the tiles [5, 6, 7, 8] end in theirs: the
entry at `9 * p0 + pn` is for the empty cell at `p0` and tile 2 at `pn`, and lists, step by
step, the index of the successor to take in `generate_moves`. -/
def route_2 : List (List Nat) :=
  [[], [1, 2, 0, 2, 1, 1, 0, 2, 3, 1, 1], [], [1, 2, 0, 2, 2, 1, 1, 0, 3, 1, 1],
   [0, 0, 1, 2, 0, 2, 1, 2, 0, 0, 1, 1, 0], [], [], [], [], [2, 0, 2, 1, 1, 0, 2, 3, 1, 1], [],
   [], [2, 0, 2, 2, 1, 1, 0, 3, 1, 1], [0, 2, 0, 1, 2, 0, 1, 1, 0, 3, 0, 1, 1, 0], [], [], [], [],
   [0, 2, 1, 1, 0, 2, 3, 1, 1], [1], [], [0, 2, 2, 1, 1, 0, 3, 1, 1],
   [0, 0, 1, 1, 0, 1, 1, 0, 2, 0, 1, 2, 0, 1, 1], [], [], [], [],
   [1, 1, 2, 0, 2, 2, 1, 1, 0, 3, 1, 1], [0, 1, 2, 0, 1, 1, 0, 3, 0, 1, 1, 0], [], [],
   [0, 1, 2, 0, 2, 1, 2, 0, 0, 1, 1, 0], [], [], [], [], [1, 2, 0, 2, 1, 1, 0, 2, 3, 1, 1],
   [2, 0, 1, 2, 0, 1, 1, 0, 3, 0, 1, 1, 0], [], [1, 2, 0, 2, 2, 1, 1, 0, 3, 1, 1], [], [], [], [],
   [], [], [], [], [], [], [], [], [], [], [], [], [], [], [], [], [], [], [], [], [], [], [], [],
   [], [], [], [], [], [], [], [], [], [], [], [], []]

/-- The routes that bring tile 1 to its cell while the tiles [2, 5, 6, 7, 8] end in theirs: the
entry at `9 * p0 + pn` is for the empty cell at `p0` and tile 1 at `pn`, and lists, step by
step, the index of the successor to take in `generate_moves`. -/
def route_1 : List (List Nat) :=
  [[], [], [], [0, 2, 1, 1], [1, 0], [], [], [], [], [1], [], [], [0, 2, 1, 1, 0], [0], [], [],
   [], [], [], [], [], [], [], [], [], [], [], [2, 1, 1], [], [], [], [1, 1, 0], [], [], [], [],
   [1, 1], [], [], [2, 1, 1, 0], [], [], [], [], [], [], [], [], [], [], [], [], [], [], [], [],
   [], [], [], [], [], [], [], [], [], [], [], [], [], [], [], [], [], [], [], [], [], [], [], [],
   []]

/-- The routes to the goal from the solvable boards that have the tiles [1, 2, 5, 6, 7, 8] in
their cells: the entry at `9 * p0 + p3` is for the empty cell at `p0` and tile 3 at `p3`. -/
def route_3 : List (List Nat) :=
  [[], [], [], [], [], [], [], [], [], [], [], [], [], [], [], [], [], [], [], [], [], [], [], [],
   [], [], [], [1], [], [], [], [], [], [], [], [], [2, 1], [], [], [], [], [], [], [], [], [],
   [], [], [], [], [], [], [], [], [], [], [], [], [], [], [], [], [], [], [], [], [], [], [], [],
   [], [], [], [], [], [], [], [], [], [], []]

/-! ## Invariants of the searches -/

/-- The 362880 permutations of `0..8`. -/
def all_boards : List State := (List.range 9).permutations

/-- The number of permutation boards that a search has not yet discovered. -/
def unseen (seen : State → Bool) : Nat := all_boards.countP (fun s => !seen s)

/-- The link of a child to its parent, used to follow the parent table: the child is a
successor of the parent and has the larger rank. -/
def parent_step (rank : State → Nat) (p s : State) : Prop :=
  s ∈ generate_moves p ∧ rank p < rank s

/-- Every discovered board other than `initial` has a discovered parent of smaller rank. -/
def parent_linked (initial : State) (parent : ParentTable) (seen : State → Bool)
    (rank : State → Nat) : Prop :=
  ∀ s, seen s = true → s ≠ initial →
    ∃ p, table_find parent s = some p ∧ seen p = true ∧ parent_step rank p s

/-- The invariant shared by the two searches. `seen` is the set of discovered boards
(the set `visited` of `best_first_search`, the keys of `moves` in `a_star_search`),
`rank` decreases along the parent table, and `pending` holds the board that is being
expanded while the `for` loop runs. -/
structure SearchInv (initial : State) (pending queue : List State) (parent : ParentTable)
    (seen : State → Bool) (rank : State → Nat) : Prop where
  /-- The initial board is discovered. -/
  seen_initial : seen initial = true
  /-- The board being expanded is discovered. -/
  seen_pending : ∀ s ∈ pending, seen s = true
  /-- The boards of the frontier are discovered. -/
  seen_queue : ∀ s ∈ queue, seen s = true
  /-- The parent table leads from every discovered board towards `initial`. -/
  linked : parent_linked initial parent seen rank
  /-- A discovered board that has left the frontier is not a goal and its successors are
  discovered. -/
  closed : ∀ s, seen s = true → s ∉ queue → s ∉ pending →
    is_goal s = false ∧ ∀ t ∈ generate_moves s, seen t = true
  /-- Discovered boards are permutations of `0..8`. -/
  perm : ∀ s, seen s = true → s.Perm (List.range 9)
  /-- Ranks are bounded by the number of discovered boards. -/
  rank_lt : ∀ s, seen s = true → rank s + unseen seen < all_boards.length

/-- The set of discovered boards of `best_first_search`. -/
def visited_seen (visited : StateSet) : State → Bool := fun s => set_contains visited s

/-- The set of discovered boards of `a_star_search`. -/
def cost_seen (moves : CostTable) : State → Bool := fun s => (table_find moves s).isSome

/-- The invariant of the `while` loop of `best_first_search`, on the variables
`(queue, parent, visited)`. -/
def best_first_inv (initial : State) (pending : List State)
    (vars : List State × ParentTable × StateSet) : Prop :=
  ∃ rank, SearchInv initial pending vars.1 vars.2.1 (visited_seen vars.2.2) rank

/-- The quantity that decreases with every iteration of the loop of `best_first_search`. -/
def best_first_measure (vars : List State × ParentTable × StateSet) : Nat :=
  unseen (visited_seen vars.2.2) + vars.1.length

/-- The invariant of the `while` loop of `a_star_search`, on the variables
`(queue, parent, moves)`: the rank of a board is its cost. -/
def a_star_inv (initial : State) (pending : List State)
    (vars : List State × ParentTable × CostTable) : Prop :=
  SearchInv initial pending vars.1 vars.2.1 (cost_seen vars.2.2) (cost_of vars.2.2)

/-- The quantity that decreases with every iteration of the loop of `a_star_search`. -/
def a_star_measure (vars : List State × ParentTable × CostTable) : Nat :=
  unseen (cost_seen vars.2.2) + vars.1.length

/-- What a terminated search has returned: the empty list, and then no board reachable
from `initial` is a goal, or a path from `initial` to a goal. -/
def search_outcome (initial : State) (result : StateList) : Prop :=
  (result = [] ∧ ∀ s, Reach initial s → is_goal s = false) ∨ good_path initial result

/-! ## Further vocabulary of the program and of the specification -/

/-- The constructor `State::State(u8 arr[BOARD_SIZE])`: it copies the `BOARD_SIZE` tiles
of `arr` into the board. -/
def State_from_array (arr : List Nat) : State := arr.take BOARD_SIZE

/-- The summand of `State::manhattan_distance` for the tile `v` at index `i`. -/
def manhattan_term (i v : Nat) : Nat :=
  if v ≠ 0 then (tile_diff i v).natAbs / 3 + (tile_diff i v).natAbs % 3 else 0

/-- The summand of `State::not_in_place_count` for the tile `v` at index `i`. -/
def misplaced_term (i v : Nat) : Nat := if v ≠ i ∧ v ≠ 0 then 1 else 0

/-! ## The loops, iteration by iteration -/

/-- The variables `(queue, parent, visited)` of `best_first_search`. -/
abbrev BestFirstVars := List State × ParentTable × StateSet

/-- The variables `(queue, parent, moves)` of `a_star_search`. -/
abbrev AStarVars := List State × ParentTable × CostTable

/-- The variables of `best_first_search` when the `while` loop is entered. -/
def best_first_start (Q : PriorityQueueOps) (C : Comparator) (initial : State) :
    BestFirstVars :=
  (Q.push (C none) [] initial, [], set_insert [] initial)

/-- One iteration of the `while` loop of `best_first_search` that does not leave the
loop: `none` when the queue is empty or the popped board is a goal. -/
def best_first_iter (Q : PriorityQueueOps) (C : Comparator) (vars : BestFirstVars) :
    Option BestFirstVars :=
  match vars.1 with
  | [] => none
  | current :: rest =>
    if is_goal current then none
    else some ((generate_moves current).foldl (best_first_visit Q (C none) current)
      (Q.pop (C none) (current :: rest), vars.2.1, vars.2.2))

/-- The variables of `best_first_search` after `n` iterations of the `while` loop, if
the loop runs that long. -/
def best_first_after (Q : PriorityQueueOps) (C : Comparator) (initial : State) :
    Nat → Option BestFirstVars
  | 0 => some (best_first_start Q C initial)
  | n + 1 => (best_first_after Q C initial n).bind (best_first_iter Q C)

/-- The board popped in iteration `n + 1` of the `while` loop of `best_first_search`: the
top of the queue after `n` iterations. -/
def best_first_popped (Q : PriorityQueueOps) (C : Comparator) (initial : State) (n : Nat) :
    Option State :=
  (best_first_after Q C initial n).bind (fun vars => vars.1.head?)

/-- The boards popped in the first `n` iterations of the `while` loop of
`best_first_search`, in the order of the pops. -/
def best_first_popped_before (Q : PriorityQueueOps) (C : Comparator) (initial : State)
    (n : Nat) : List State :=
  (List.range n).filterMap (best_first_popped Q C initial)

/-- The bookkeeping invariant of `best_first_search`, on the boards `popped` so far and
the variables `(queue, parent, visited)`: the boards pushed so far are the popped boards
and the boards of the queue. -/
structure PushedOnce (initial : State) (popped : List State) (vars : BestFirstVars) :
    Prop where
  /-- No board occurs twice among the popped boards and the boards of the queue. -/
  frontier_nodup : (popped ++ vars.1).Nodup
  /-- The popped boards and the boards of the queue are the boards of `visited`. -/
  frontier_visited : ∀ s, s ∈ popped ++ vars.1 ↔ s ∈ vars.2.2
  /-- The parent table has one entry for every board of `visited` but the first, in the
  order of their insertion. -/
  parent_keys : vars.2.1.map Prod.fst = vars.2.2.tail
  /-- The first board of `visited` is the initial board. -/
  visited_head : vars.2.2.head? = some initial
  /-- No board occurs twice in `visited`. -/
  visited_nodup : vars.2.2.Nodup
  /-- The parent of an entry is a popped board, and the key is one of its successors. -/
  parent_values : ∀ e ∈ vars.2.1, e.2 ∈ popped ∧ e.1 ∈ generate_moves e.2


/-- The variables of `a_star_search` when the `while` loop is entered. -/
def a_star_start (Q : PriorityQueueOps) (C : Comparator) (initial : State) : AStarVars :=
  (Q.push (C (some (table_assign [] initial 0))) [] initial, [], table_assign [] initial 0)

/-- The variables of `a_star_search` in the `for` loop of an iteration that pops
`current`, once the successors `succs` have been handled. -/
def a_star_midway (Q : PriorityQueueOps) (C : Comparator) (vars : AStarVars)
    (current : State) (rest succs : List State) : AStarVars :=
  succs.foldl (a_star_visit Q C current (cost_of vars.2.2 current + 1))
    (Q.pop (C (some vars.2.2)) (current :: rest), vars.2.1, cost_touch vars.2.2 current)

/-- One iteration of the `while` loop of `a_star_search` that does not leave the loop. -/
def a_star_iter (Q : PriorityQueueOps) (C : Comparator) (vars : AStarVars) :
    Option AStarVars :=
  match vars.1 with
  | [] => none
  | current :: rest =>
    if is_goal current then none
    else some (a_star_midway Q C vars current rest (generate_moves current))

/-- The variables of `a_star_search` after `n` iterations of the `while` loop, if the
loop runs that long. -/
def a_star_after (Q : PriorityQueueOps) (C : Comparator) (initial : State) :
    Nat → Option AStarVars
  | 0 => some (a_star_start Q C initial)
  | n + 1 => (a_star_after Q C initial n).bind (a_star_iter Q C)

/-- The boards with an entry in the parent table, and their parents, are discovered. -/
def parent_seen (parent : ParentTable) (seen : State → Bool) : Prop :=
  ∀ s p, table_find parent s = some p → seen s = true ∧ seen p = true

/-- The priority queue `Q` keeps a best board on top for the comparator `cmp`: its
vectors satisfy a representation invariant (the heap property) that `push` and `pop`
maintain and under which the comparator puts the top below no other board. -/
def keeps_best_on_top (Q : PriorityQueueOps) (cmp : State → State → Bool) : Prop :=
  ∃ valid : List State → Prop, valid [] ∧
    (∀ queue s, valid queue → valid (Q.push cmp queue s)) ∧
    (∀ s queue, valid (s :: queue) → valid (Q.pop cmp (s :: queue))) ∧
    (∀ s queue, valid (s :: queue) → ∀ t ∈ queue, cmp s t = false)

/-! ## Theorems -/

/-! ### Boards -/

theorem eq_nine_of_length {b : State} (h : b.length = 9) :
    ∃ a0 a1 a2 a3 a4 a5 a6 a7 a8, b = [a0, a1, a2, a3, a4, a5, a6, a7, a8] := by
  match b, h with
  | [a0, a1, a2, a3, a4, a5, a6, a7, a8], _ => exact ⟨a0, a1, a2, a3, a4, a5, a6, a7, a8, rfl⟩

theorem perm_length {b : State} (hb : b.Perm (List.range 9)) : b.length = 9 := by
  rw [hb.length_eq]; rfl

theorem swap_tiles_eq_exchanged (b : State) (hl : b.length = 9) (i j : Nat) (hi : i < 9)
    (hj : j < 9) : swap_tiles b i j = exchanged b i j := by
  obtain ⟨a0, a1, a2, a3, a4, a5, a6, a7, a8, rfl⟩ := eq_nine_of_length hl
  interval_cases i <;> interval_cases j <;> rfl

theorem empty_pos_lt {b : State} (hb : b.Perm (List.range 9)) : empty_pos b < 9 := by
  have h0 : (0 : Nat) ∈ b := hb.mem_iff.2 (by decide)
  have := List.indexOf_lt_length.2 h0
  rw [perm_length hb] at this
  exact this

theorem tile_empty_pos {b : State} (hb : b.Perm (List.range 9)) : tile b (empty_pos b) = 0 := by
  have h0 : (0 : Nat) ∈ b := hb.mem_iff.2 (by decide)
  have hlt := List.indexOf_lt_length.2 h0
  unfold tile empty_pos
  rw [List.getD_eq_getElem _ _ hlt]
  exact List.indexOf_get hlt

theorem target_pos_add (e : Nat) (k : Nat) (h : e + k < 2 ^ 64) :
    target_pos e (k : Int) = e + k := by
  unfold target_pos
  have h1 : ((e : Int) + (k : Int)) % (2 ^ 64 : Int) = ((e + k : Nat) : Int) := by
    rw [Int.emod_eq_of_lt] <;> omega
  rw [h1]; exact Int.toNat_natCast _

theorem target_pos_sub (e : Nat) (k : Nat) (h : k ≤ e) (he : e < 2 ^ 64) :
    target_pos e (-(k : Int)) = e - k := by
  unfold target_pos
  have h1 : ((e : Int) + -(k : Int)) % (2 ^ 64 : Int) = ((e - k : Nat) : Int) := by
    rw [Int.emod_eq_of_lt] <;> omega
  rw [h1]; exact Int.toNat_natCast _

/-- The successors of a permutation board, written with `exchanged`. -/
theorem generate_moves_eq {b : State} (hb : b.Perm (List.range 9)) :
    generate_moves b =
      (if empty_pos b < 6 then [exchanged b (empty_pos b) (empty_pos b + 3)] else []) ++
      (if empty_pos b > 2 then [exchanged b (empty_pos b) (empty_pos b - 3)] else []) ++
      (if empty_pos b % 3 ≠ 0 then [exchanged b (empty_pos b) (empty_pos b - 1)] else []) ++
      (if empty_pos b % 3 ≠ 2 then [exchanged b (empty_pos b) (empty_pos b + 1)] else []) := by
  have he := empty_pos_lt hb
  have hl := perm_length hb
  have h3 : target_pos (empty_pos b) 3 = empty_pos b + 3 :=
    target_pos_add (empty_pos b) 3 (by omega)
  have h1 : target_pos (empty_pos b) 1 = empty_pos b + 1 :=
    target_pos_add (empty_pos b) 1 (by omega)
  have hm3 : 3 ≤ empty_pos b → target_pos (empty_pos b) (-3) = empty_pos b - 3 :=
    fun h => target_pos_sub (empty_pos b) 3 h (by omega)
  have hm1 : 1 ≤ empty_pos b → target_pos (empty_pos b) (-1) = empty_pos b - 1 :=
    fun h => target_pos_sub (empty_pos b) 1 h (by omega)
  unfold generate_moves move_up move_down move_left move_right move_tile
  congr 1
  congr 1
  congr 1
  · split_ifs with h
    · rw [h3, swap_tiles_eq_exchanged b hl _ _ he (by omega)]
    · rfl
  · split_ifs with h
    · rw [hm3 (by omega), swap_tiles_eq_exchanged b hl _ _ he (by omega)]
    · rfl
  · split_ifs with h
    · rw [hm1 (by omega), swap_tiles_eq_exchanged b hl _ _ he (by omega)]
    · rfl
  · split_ifs with h
    · rw [h1, swap_tiles_eq_exchanged b hl _ _ he (by omega)]
    · rfl

theorem is_sorted_iff (l : List Nat) : is_sorted l = true ↔ l.Sorted (· ≤ ·) := by
  induction l with
  | nil => simp [is_sorted]
  | cons x t ih =>
    cases t with
    | nil => simp [is_sorted]
    | cons y r =>
      rw [is_sorted, List.sorted_cons]
      by_cases h : y < x
      · simp only [h, if_true, Bool.false_eq_true, false_iff, not_and]
        intro hx _
        have := hx y (List.mem_cons_self _ _)
        omega
      · simp only [h, if_false, ih]
        constructor
        · intro hs
          refine ⟨?_, hs⟩
          intro z hz
          rcases List.mem_cons.1 hz with rfl | hz
          · omega
          · have := (List.sorted_cons.1 hs).1 z hz
            omega
        · exact fun hs => hs.2

theorem is_goal_iff {b : State} (hb : b.Perm (List.range 9)) :
    is_goal b = true ↔ b = goal_board := by
  unfold is_goal
  rw [is_sorted_iff]
  constructor
  · intro hs
    have h9 : (List.range 9).Sorted (· ≤ ·) := by decide
    have := List.eq_of_perm_of_sorted hb hs h9
    rw [this]; rfl
  · rintro rfl
    decide

theorem foldl_count {α : Type} (p : α → Prop) [DecidablePred p] (l : List α) (a : Nat) :
    l.foldl (fun acc j => if p j then acc + 1 else acc) a =
      a + l.countP (fun j => decide (p j)) := by
  induction l generalizing a with
  | nil => simp
  | cons x t ih =>
    rw [List.foldl_cons, ih, List.countP_cons]
    by_cases h : p x
    · simp [h]; omega
    · simp [h]

theorem count_inversions_eq_card (b : State) :
    count_inversions b = (inversion_pairs b).card := by
  have h : ∀ x y : Nat, (x ≠ 0 ∧ y ≠ 0 ∧ x > y) ↔ (x > y ∧ y > 0) := by intros; omega
  unfold count_inversions inversions_from inversion_pairs
  simp only [h, foldl_count]
  rw [Finset.card_filter, Finset.sum_product]
  simp only [Finset.sum_range_succ, Finset.sum_range_zero]
  simp [BOARD_SIZE, List.range_succ, List.range', List.countP_cons]
  ring

/-! ### The move generator, the goal test and the solvability test -/

/-- C6: for a permutation board `b` with the empty cell at index `e`, `generate_moves`
returns exactly one board per satisfied condition among `e < 6` (offset +3), `e > 2`
(offset -3), `e % 3 != 0` (offset -1), `e % 3 != 2` (offset +1), in this order and no
other; each is `b` with the tiles at `e` and `e + offset` exchanged, and the index
`e + offset` that `move_tile` computes does not wrap around and lies in `0..8`. -/
theorem generate_moves_spec (b : State) (hb : b.Perm (List.range 9)) :
    empty_pos b < 9 ∧ tile b (empty_pos b) = 0 ∧
    generate_moves b =
      (if empty_pos b < 6 then [exchanged b (empty_pos b) (empty_pos b + 3)] else []) ++
      (if empty_pos b > 2 then [exchanged b (empty_pos b) (empty_pos b - 3)] else []) ++
      (if empty_pos b % 3 ≠ 0 then [exchanged b (empty_pos b) (empty_pos b - 1)] else []) ++
      (if empty_pos b % 3 ≠ 2 then [exchanged b (empty_pos b) (empty_pos b + 1)] else []) ∧
    (empty_pos b < 6 → target_pos (empty_pos b) 3 = empty_pos b + 3 ∧ empty_pos b + 3 ≤ 8) ∧
    (empty_pos b > 2 → target_pos (empty_pos b) (-3) = empty_pos b - 3 ∧ 3 ≤ empty_pos b) ∧
    (empty_pos b % 3 ≠ 0 → target_pos (empty_pos b) (-1) = empty_pos b - 1 ∧ 1 ≤ empty_pos b) ∧
    (empty_pos b % 3 ≠ 2 → target_pos (empty_pos b) 1 = empty_pos b + 1 ∧ empty_pos b + 1 ≤ 8) := by
  have he := empty_pos_lt hb
  refine ⟨he, tile_empty_pos hb, generate_moves_eq hb, ?_, ?_, ?_, ?_⟩
  · intro h; exact ⟨target_pos_add (empty_pos b) 3 (by omega), by omega⟩
  · intro h; exact ⟨target_pos_sub (empty_pos b) 3 (by omega) (by omega), by omega⟩
  · intro h; exact ⟨target_pos_sub (empty_pos b) 1 (by omega) (by omega), by omega⟩
  · intro h; exact ⟨target_pos_add (empty_pos b) 1 (by omega), by omega⟩

/-- Witness of C6: the board with the empty cell in the centre has the four successors. -/
theorem generate_moves_spec_witness :
    generate_moves [1, 2, 3, 4, 0, 5, 6, 7, 8] =
      [[1, 2, 3, 4, 7, 5, 6, 0, 8], [1, 0, 3, 4, 2, 5, 6, 7, 8],
       [1, 2, 3, 0, 4, 5, 6, 7, 8], [1, 2, 3, 4, 5, 0, 6, 7, 8]] := by
  have h := (generate_moves_spec [1, 2, 3, 4, 0, 5, 6, 7, 8] (by decide)).2.2.1
  rw [h]
  decide

/-- C8: for a permutation board, `is_goal` is true exactly for `[0,1,2,3,4,5,6,7,8]`. -/
theorem is_goal_iff_goal_board (b : State) (hb : b.Perm (List.range 9)) :
    is_goal b = true ↔ b = [0, 1, 2, 3, 4, 5, 6, 7, 8] :=
  is_goal_iff hb

/-- Witness of C8: a permutation board other than the goal is not a goal. -/
theorem is_goal_iff_goal_board_witness : is_goal [1, 0, 2, 3, 4, 5, 6, 7, 8] = false := by
  have h := is_goal_iff_goal_board [1, 0, 2, 3, 4, 5, 6, 7, 8] (by decide)
  have hne : ([1, 0, 2, 3, 4, 5, 6, 7, 8] : State) ≠ [0, 1, 2, 3, 4, 5, 6, 7, 8] := by decide
  cases hg : is_goal [1, 0, 2, 3, 4, 5, 6, 7, 8] with
  | false => rfl
  | true => exact absurd (h.1 hg) hne

/-- C9: for a board of 9 tiles, `is_solvable` is true exactly when the number of index
pairs `(i, j)` with `i < j`, `b[i] > b[j]` and `b[j] > 0` is even; it is false on
`[1,2,3,4,5,6,8,7,0]` (one such pair) and true on `[8,7,6,5,4,3,2,1,0]` (28 pairs). -/
theorem is_solvable_iff_even_inversions :
    (∀ b : State, b.length = 9 → (is_solvable b = true ↔ Even (inversion_pairs b).card)) ∧
    (is_solvable [1, 2, 3, 4, 5, 6, 8, 7, 0] = false ∧
      (inversion_pairs [1, 2, 3, 4, 5, 6, 8, 7, 0]).card = 1) ∧
    (is_solvable [8, 7, 6, 5, 4, 3, 2, 1, 0] = true ∧
      (inversion_pairs [8, 7, 6, 5, 4, 3, 2, 1, 0]).card = 28) := by
  refine ⟨?_, ⟨by decide, by decide⟩, ⟨by decide, by decide⟩⟩
  intro b _
  unfold is_solvable
  rw [← count_inversions_eq_card, Nat.even_iff]
  simp

/-- Witness of C9: the general statement applied to the board `[2,1,0,3,4,5,6,7,8]`. -/
theorem is_solvable_iff_even_inversions_witness :
    is_solvable [2, 1, 0, 3, 4, 5, 6, 7, 8] = true ↔
      Even (inversion_pairs [2, 1, 0, 3, 4, 5, 6, 7, 8]).card :=
  is_solvable_iff_even_inversions.1 [2, 1, 0, 3, 4, 5, 6, 7, 8] rfl

/-- C10: on the permutation board `[0,1,3,2,4,5,6,7,8]` the method `manhattan_distance`
returns 2, while the row/column Manhattan distance of that board is 6. -/
theorem manhattan_distance_not_explicit :
    ([0, 1, 3, 2, 4, 5, 6, 7, 8] : State).Perm (List.range 9) ∧
    manhattan_distance [0, 1, 3, 2, 4, 5, 6, 7, 8] = 2 ∧
    manhattan_explicit [0, 1, 3, 2, 4, 5, 6, 7, 8] = 6 := by
  refine ⟨by decide, by decide, by decide⟩


theorem map_tile_range {b : State} (hl : b.length = 9) : (List.range 9).map (tile b) = b := by
  obtain ⟨a0, a1, a2, a3, a4, a5, a6, a7, a8, rfl⟩ := eq_nine_of_length hl
  rfl

theorem length_exchanged (b : State) (i j : Nat) : (exchanged b i j).length = 9 := by
  simp [exchanged]

theorem tile_map_range (f : Nat → Nat) (k : Nat) (hk : k < 9) :
    tile ((List.range 9).map f) k = f k := by
  interval_cases k <;> rfl

theorem tile_exchanged (b : State) (i j k : Nat) (hk : k < 9) :
    tile (exchanged b i j) k =
      if k = i then tile b j else if k = j then tile b i else tile b k :=
  tile_map_range _ k hk

theorem exchanged_eq_map (b : State) (i j : Nat) :
    exchanged b i j =
      ((List.range 9).map (fun k => if k = i then j else if k = j then i else k)).map (tile b) := by
  unfold exchanged
  rw [List.map_map]
  apply List.map_congr_left
  intro k _
  simp only [Function.comp]
  split_ifs <;> rfl

theorem exchanged_perm_self {b : State} (hl : b.length = 9) (i j : Nat) (hi : i < 9)
    (hj : j < 9) : (exchanged b i j).Perm b := by
  rw [exchanged_eq_map]
  have h : ((List.range 9).map (fun k => if k = i then j else if k = j then i else k)).Perm
      (List.range 9) := by
    interval_cases i <;> interval_cases j <;> decide
  have h2 := h.map (tile b)
  rw [map_tile_range hl] at h2
  exact h2

theorem exchanged_perm {b : State} (hb : b.Perm (List.range 9)) (i j : Nat) (hi : i < 9)
    (hj : j < 9) : (exchanged b i j).Perm (List.range 9) :=
  (exchanged_perm_self (perm_length hb) i j hi hj).trans hb

theorem exchanged_exchanged {b : State} (hl : b.length = 9) (i j : Nat) (hi : i < 9)
    (hj : j < 9) : exchanged (exchanged b i j) j i = b := by
  obtain ⟨a0, a1, a2, a3, a4, a5, a6, a7, a8, rfl⟩ := eq_nine_of_length hl
  interval_cases i <;> interval_cases j <;> rfl

theorem empty_pos_eq_iff {b : State} {t : Nat} (ht : t < b.length) :
    empty_pos b = t ↔ tile b t = 0 ∧ ∀ k, k < t → tile b k ≠ 0 := by
  unfold empty_pos List.indexOf
  rw [List.findIdx_eq ht]
  constructor
  · rintro ⟨h1, h2⟩
    refine ⟨?_, ?_⟩
    · simpa [tile, List.getD_eq_getElem?_getD, ht] using h1
    · intro k hkt
      have := h2 k hkt
      simpa [tile, List.getD_eq_getElem?_getD, hkt.trans ht] using this
  · rintro ⟨h1, h2⟩
    refine ⟨?_, ?_⟩
    · simpa [tile, List.getD_eq_getElem?_getD, ht] using h1
    · intro k hkt
      have := h2 k hkt
      simpa [tile, List.getD_eq_getElem?_getD, hkt.trans ht] using this

theorem tile_injective {b : State} (hb : b.Perm (List.range 9)) {i j : Nat} (hi : i < 9)
    (hj : j < 9) (h : tile b i = tile b j) : i = j := by
  have hl := perm_length hb
  have hn : b.Nodup := hb.nodup_iff.2 (List.nodup_range 9)
  have hi' : i < b.length := by omega
  have hj' : j < b.length := by omega
  simp only [tile, List.getD_eq_getElem?_getD, List.getElem?_eq_getElem hi',
    List.getElem?_eq_getElem hj', Option.getD_some] at h
  exact (List.Nodup.getElem_inj_iff hn).1 h

theorem tile_eq_zero_iff {b : State} (hb : b.Perm (List.range 9)) {k : Nat} (hk : k < 9) :
    tile b k = 0 ↔ k = empty_pos b := by
  constructor
  · intro h
    exact tile_injective hb hk (empty_pos_lt hb) (h.trans (tile_empty_pos hb).symm)
  · rintro rfl
    exact tile_empty_pos hb

theorem empty_pos_exchanged {b : State} (hb : b.Perm (List.range 9)) {t : Nat} (ht : t < 9) :
    empty_pos (exchanged b (empty_pos b) t) = t := by
  have he := empty_pos_lt hb
  rw [empty_pos_eq_iff (by rw [length_exchanged]; exact ht)]
  refine ⟨?_, ?_⟩
  · rw [tile_exchanged _ _ _ _ ht]
    split_ifs with h1 h2
    · rw [h1]; exact tile_empty_pos hb
    · exact tile_empty_pos hb
    · exact absurd rfl h2
  · intro k hk
    rw [tile_exchanged _ _ _ _ (by omega)]
    split_ifs with h1 h2
    · rw [Ne, tile_eq_zero_iff hb ht]; omega
    · omega
    · rw [Ne, tile_eq_zero_iff hb (by omega)]; exact h1

/-! ### Reversibility of the moves -/

/-- C7: move reversibility: for a permutation board `b` and a board `s` of
`generate_moves b`, the board `b` is itself a member of `generate_moves s`. -/
theorem move_reversible (b : State) (hb : b.Perm (List.range 9)) (s : State)
    (hs : s ∈ generate_moves b) : b ∈ generate_moves s := by
  have he := empty_pos_lt hb
  have hl := perm_length hb
  have key : ∀ t, t < 9 →
      (t = empty_pos b + 3 ∨ t + 3 = empty_pos b ∨
        (t + 1 = empty_pos b ∧ empty_pos b % 3 ≠ 0) ∨
        (t = empty_pos b + 1 ∧ empty_pos b % 3 ≠ 2)) →
      b ∈ generate_moves (exchanged b (empty_pos b) t) := by
    intro t ht hadj
    have hp := exchanged_perm hb (empty_pos b) t he ht
    have het := empty_pos_exchanged hb ht
    rw [generate_moves_eq hp, het]
    simp only [List.mem_append]
    rcases hadj with h | h | ⟨h, h'⟩ | ⟨h, h'⟩
    · left; left; right
      rw [if_pos (by omega)]
      have : t - 3 = empty_pos b := by omega
      rw [this, exchanged_exchanged hl _ _ he ht]
      exact List.mem_singleton_self _
    · left; left; left
      rw [if_pos (by omega)]
      have : t + 3 = empty_pos b := by omega
      rw [this, exchanged_exchanged hl _ _ he ht]
      exact List.mem_singleton_self _
    · right
      rw [if_pos (by omega)]
      have : t + 1 = empty_pos b := by omega
      rw [this, exchanged_exchanged hl _ _ he ht]
      exact List.mem_singleton_self _
    · left; right
      rw [if_pos (by omega)]
      have : t - 1 = empty_pos b := by omega
      rw [this, exchanged_exchanged hl _ _ he ht]
      exact List.mem_singleton_self _
  rw [generate_moves_eq hb] at hs
  simp only [List.mem_append] at hs
  rcases hs with ((hs | hs) | hs) | hs
  · split_ifs at hs with h
    · rw [List.mem_singleton.1 hs]; exact key _ (by omega) (by omega)
    · cases hs
  · split_ifs at hs with h
    · rw [List.mem_singleton.1 hs]; exact key _ (by omega) (by omega)
    · cases hs
  · split_ifs at hs with h
    · rw [List.mem_singleton.1 hs]; exact key _ (by omega) (by omega)
    · cases hs
  · split_ifs at hs with h
    · rw [List.mem_singleton.1 hs]; exact key _ (by omega) (by omega)
    · cases hs

/-- Witness of C7: the goal is a successor of `[1,0,2,3,4,5,6,7,8]`, and conversely. -/
theorem move_reversible_witness :
    ([1, 0, 2, 3, 4, 5, 6, 7, 8] : State) ∈ generate_moves [0, 1, 2, 3, 4, 5, 6, 7, 8] :=
  move_reversible [1, 0, 2, 3, 4, 5, 6, 7, 8] (by decide) [0, 1, 2, 3, 4, 5, 6, 7, 8]
    (by decide)


/-! ### Tables and sets -/

theorem table_find_assign {α : Type} (t : List (State × α)) (k k' : State) (v : α) :
    table_find (table_assign t k v) k' = if k = k' then some v else table_find t k' := by
  induction t with
  | nil => simp [table_assign, table_find]
  | cons e rest ih =>
    obtain ⟨k0, v0⟩ := e
    unfold table_assign
    by_cases h : k0 = k
    · subst h
      simp only [if_true, table_find]
      by_cases h2 : k0 = k' <;> simp [h2]
    · simp only [h, if_false, table_find, ih]
      by_cases h2 : k0 = k'
      · subst h2
        simp [Ne.symm h]
      · simp [h2]

theorem mem_set_insert (visited : StateSet) (s x : State) :
    x ∈ set_insert visited s ↔ x = s ∨ x ∈ visited := by
  unfold set_insert
  split_ifs with h
  · constructor
    · exact Or.inr
    · rintro (rfl | h') <;> assumption
  · simp [List.mem_append, or_comm]

theorem visited_seen_iff (visited : StateSet) (s : State) :
    visited_seen visited s = true ↔ s ∈ visited := by
  simp [visited_seen, set_contains]

theorem cost_seen_assign (moves : CostTable) (k s : State) (c : Nat) :
    cost_seen (table_assign moves k c) s = (cost_seen moves s || decide (s = k)) := by
  unfold cost_seen
  rw [table_find_assign]
  by_cases h : k = s
  · subst h; simp
  · simp [h, Ne.symm h]

/-! ### Counting the undiscovered boards -/

theorem mem_all_boards (s : State) : s ∈ all_boards ↔ s.Perm (List.range 9) :=
  List.mem_permutations

theorem length_all_boards : all_boards.length = 362880 := by
  unfold all_boards
  rw [List.length_permutations]
  rfl

theorem countP_insert (U : List State) (hU : U.Nodup) (seen seen' : State → Bool) (x : State)
    (hx : x ∈ U) (hnot : seen x = false) (h' : ∀ s, seen' s = (seen s || decide (s = x))) :
    U.countP (fun s => !seen' s) + 1 = U.countP (fun s => !seen s) := by
  induction U with
  | nil => cases hx
  | cons u rest ih =>
    rw [List.nodup_cons] at hU
    rw [List.countP_cons, List.countP_cons]
    by_cases hux : u = x
    · subst hux
      have hrest : rest.countP (fun s => !seen' s) = rest.countP (fun s => !seen s) := by
        apply List.countP_congr
        intro s hs
        have : s ≠ u := fun h => hU.1 (h ▸ hs)
        simp [h', this]
      have e1 : seen' u = true := by simp [h']
      rw [e1, hnot, hrest]
      simp
    · have hx' : x ∈ rest := by
        rcases List.mem_cons.1 hx with h | h
        · exact absurd h.symm hux
        · exact h
      have := ih hU.2 hx'
      have hu : seen' u = seen u := by simp [h', hux]
      rw [hu]
      omega

theorem unseen_insert (seen seen' : State → Bool) (x : State) (hx : x.Perm (List.range 9))
    (hnot : seen x = false) (h' : ∀ s, seen' s = (seen s || decide (s = x))) :
    unseen seen' + 1 = unseen seen :=
  countP_insert all_boards (List.nodup_permutations _ (List.nodup_range 9)) seen seen' x
    ((mem_all_boards x).2 hx) hnot h'

theorem unseen_congr (seen seen' : State → Bool) (h : ∀ s, seen' s = seen s) :
    unseen seen' = unseen seen := by
  have : seen' = seen := funext h
  rw [this]

/-! ### Path reconstruction -/

theorem generate_path_loop_spec (rnd : Nat → State) (initial : State) (parent : ParentTable)
    (seen : State → Bool) (rank : State → Nat) (hl : parent_linked initial parent seen rank) :
    ∀ (fuel n : Nat) (s : State) (path r : StateList), seen s = true →
      generate_path_loop rnd initial fuel n s path parent = some r →
      ∃ pre, r = pre ++ path ∧ List.Chain' (parent_step rank) (pre ++ [s]) ∧
        (pre ++ [s]).head? = some initial := by
  intro fuel
  induction fuel with
  | zero => intro n s path r _ h; simp [generate_path_loop] at h
  | succ fuel ih =>
    intro n s path r hs h
    unfold generate_path_loop at h
    by_cases hsi : s = initial
    · rw [if_pos hsi] at h
      refine ⟨[], ?_, ?_, ?_⟩
      · simpa using (Option.some.inj h).symm
      · simp
      · simp [hsi]
    · rw [if_neg hsi] at h
      obtain ⟨p, hp, hps, hstep⟩ := hl s hs hsi
      rw [hp] at h
      obtain ⟨pre, hr, hc, hh⟩ := ih n p (p :: path) r hps h
      refine ⟨pre ++ [p], ?_, ?_, ?_⟩
      · rw [hr]; simp
      · rw [List.append_assoc]
        exact List.chain'_split.2 ⟨hc, by simpa using hstep⟩
      · rw [List.head?_append_of_ne_nil _ (by simp)]
        exact hh

theorem generate_path_loop_total (rnd : Nat → State) (initial : State) (parent : ParentTable)
    (seen : State → Bool) (rank : State → Nat) (hl : parent_linked initial parent seen rank) :
    ∀ (fuel n : Nat) (s : State) (path : StateList), seen s = true → rank s < fuel →
      ∃ r, generate_path_loop rnd initial fuel n s path parent = some r := by
  intro fuel
  induction fuel with
  | zero => intro n s path _ h; omega
  | succ fuel ih =>
    intro n s path hs hf
    unfold generate_path_loop
    by_cases hsi : s = initial
    · rw [if_pos hsi]; exact ⟨path, rfl⟩
    · rw [if_neg hsi]
      obtain ⟨p, hp, hps, hstep⟩ := hl s hs hsi
      rw [hp]
      exact ih n p (p :: path) hps (by have := hstep.2; omega)

theorem chain_parent_step_nodup (rank : State → Nat) (l : StateList)
    (h : List.Chain' (parent_step rank) l) : is_move_chain l ∧ l.Nodup := by
  refine ⟨h.imp (fun _ _ hab => hab.1), ?_⟩
  have h2 : List.Chain' (fun a b => rank a < rank b) l := h.imp (fun _ _ hab => hab.2)
  haveI : IsTrans State (fun a b => rank a < rank b) := ⟨fun _ _ _ => Nat.lt_trans⟩
  have h3 := List.chain'_iff_pairwise.1 h2
  exact h3.imp (fun hab heq => by rw [heq] at hab; exact Nat.lt_irrefl _ hab)

theorem generate_path_good (rnd : Nat → State) (initial : State) (parent : ParentTable)
    (seen : State → Bool) (rank : State → Nat) (hl : parent_linked initial parent seen rank)
    (fuel : Nat) (g : State) (r : StateList) (hg : seen g = true) (hgoal : is_goal g = true)
    (h : generate_path rnd fuel initial g parent = some r) : good_path initial r := by
  obtain ⟨pre, hr, hc, hh⟩ := generate_path_loop_spec rnd initial parent seen rank hl fuel 0 g
    [g] r hg h
  subst hr
  obtain ⟨h1, h2⟩ := chain_parent_step_nodup rank _ hc
  exact ⟨hh, ⟨g, by simp, hgoal⟩, h1, h2⟩

/-! ### Successors -/

theorem mem_generate_moves_iff {b : State} (hb : b.Perm (List.range 9)) (s : State) :
    s ∈ generate_moves b ↔
      ∃ t, t < 9 ∧ adjacent (empty_pos b) t ∧ s = exchanged b (empty_pos b) t := by
  have he := empty_pos_lt hb
  rw [generate_moves_eq hb]
  simp only [List.mem_append]
  unfold adjacent
  constructor
  · rintro (((hs | hs) | hs) | hs)
    · split_ifs at hs with h
      · exact ⟨_, by omega, by omega, List.mem_singleton.1 hs⟩
      · cases hs
    · split_ifs at hs with h
      · exact ⟨_, by omega, by omega, List.mem_singleton.1 hs⟩
      · cases hs
    · split_ifs at hs with h
      · exact ⟨_, by omega, by omega, List.mem_singleton.1 hs⟩
      · cases hs
    · split_ifs at hs with h
      · exact ⟨_, by omega, by omega, List.mem_singleton.1 hs⟩
      · cases hs
  · rintro ⟨t, ht, hadj, rfl⟩
    rcases hadj with h | h | ⟨h, h'⟩ | ⟨h, h'⟩
    · left; left; left
      rw [if_pos (by omega), h]; exact List.mem_singleton_self _
    · left; left; right
      have : empty_pos b - 3 = t := by omega
      rw [if_pos (by omega), this]; exact List.mem_singleton_self _
    · left; right
      have : empty_pos b - 1 = t := by omega
      rw [if_pos h', this]; exact List.mem_singleton_self _
    · right
      rw [if_pos h', h]; exact List.mem_singleton_self _

theorem generate_moves_perm {b : State} (hb : b.Perm (List.range 9)) {s : State}
    (hs : s ∈ generate_moves b) : s.Perm (List.range 9) := by
  obtain ⟨t, ht, _, rfl⟩ := (mem_generate_moves_iff hb s).1 hs
  exact exchanged_perm hb _ _ (empty_pos_lt hb) ht

/-! ### Best-First search -/

theorem best_first_visit_search_inv (Q : PriorityQueueOps) (cmp : State → State → Bool)
    (initial current succ : State) (queue : List State) (parent : ParentTable)
    (visited : StateSet) (rank : State → Nat)
    (hinv : SearchInv initial [current] queue parent (visited_seen visited) rank)
    (hsucc : succ ∈ generate_moves current) :
    ∃ rank', SearchInv initial [current]
        (best_first_visit Q cmp current (queue, parent, visited) succ).1
        (best_first_visit Q cmp current (queue, parent, visited) succ).2.1
        (visited_seen (best_first_visit Q cmp current (queue, parent, visited) succ).2.2) rank' ∧
      unseen (visited_seen (best_first_visit Q cmp current (queue, parent, visited) succ).2.2) +
          (best_first_visit Q cmp current (queue, parent, visited) succ).1.length ≤
        unseen (visited_seen visited) + queue.length ∧
      visited_seen (best_first_visit Q cmp current (queue, parent, visited) succ).2.2 succ = true ∧
      ∀ s, visited_seen visited s = true →
        visited_seen (best_first_visit Q cmp current (queue, parent, visited) succ).2.2 s = true := by
  by_cases hc : set_contains visited succ = true
  · have e : best_first_visit Q cmp current (queue, parent, visited) succ =
        (queue, parent, visited) := by
      simp [best_first_visit, hc]
    rw [e]
    exact ⟨rank, hinv, le_refl _, hc, fun s hs => hs⟩
  · have e : best_first_visit Q cmp current (queue, parent, visited) succ =
        (Q.push cmp queue succ, table_assign parent succ current, set_insert visited succ) := by
      simp [best_first_visit, hc]
    rw [e]
    dsimp only
    have hns : visited_seen visited succ = false := by
      simpa [visited_seen] using hc
    have hcur : visited_seen visited current = true :=
      hinv.seen_pending current (List.mem_singleton_self _)
    have hne : current ≠ succ := by
      intro h; rw [h, hns] at hcur; cases hcur
    have hseen' : ∀ s, visited_seen (set_insert visited succ) s =
        (visited_seen visited s || decide (s = succ)) := by
      intro s
      rw [Bool.eq_iff_iff]
      simp only [visited_seen_iff, mem_set_insert, Bool.or_eq_true, decide_eq_true_eq]
      tauto
    have hmono : ∀ s, visited_seen visited s = true →
        visited_seen (set_insert visited succ) s = true := by
      intro s hs; rw [hseen', hs]; rfl
    have hsp : succ.Perm (List.range 9) := generate_moves_perm (hinv.perm current hcur) hsucc
    have hun := unseen_insert (visited_seen visited) _ succ hsp hns hseen'
    have hold : ∀ s, visited_seen (set_insert visited succ) s = true → s ≠ succ →
        visited_seen visited s = true := by
      intro s hs hne'
      rw [hseen'] at hs
      simpa [hne'] using hs
    have hqmem : ∀ s, s ∈ Q.push cmp queue succ ↔ s = succ ∨ s ∈ queue := by
      intro s
      rw [(Q.push_perm cmp queue succ).mem_iff, List.mem_cons]
    refine ⟨fun s => if s = succ then rank current + 1 else rank s, ?_, ?_, ?_, hmono⟩
    · refine ⟨hmono _ hinv.seen_initial, ?_, ?_, ?_, ?_, ?_, ?_⟩
      · intro s hs; exact hmono _ (hinv.seen_pending s hs)
      · intro s hs
        rcases (hqmem s).1 hs with rfl | h
        · rw [hseen']; simp
        · exact hmono _ (hinv.seen_queue s h)
      · intro s hs hsi
        by_cases hss : s = succ
        · subst hss
          refine ⟨current, ?_, hmono _ hcur, hsucc, ?_⟩
          · rw [table_find_assign]; simp
          · simp [hne]
        · obtain ⟨p, hp, hps, hstep⟩ := hinv.linked s (hold s hs hss) hsi
          have hpne : p ≠ succ := by
            intro h; rw [h, hns] at hps; cases hps
          refine ⟨p, ?_, hmono _ hps, hstep.1, ?_⟩
          · rw [table_find_assign, if_neg (Ne.symm hss)]; exact hp
          · simp only [hss, hpne, if_false]; exact hstep.2
      · intro s hs hq hp
        have hss : s ≠ succ := fun h => hq ((hqmem s).2 (Or.inl h))
        have hq' : s ∉ queue := fun h => hq ((hqmem s).2 (Or.inr h))
        obtain ⟨h1, h2⟩ := hinv.closed s (hold s hs hss) hq' hp
        exact ⟨h1, fun t ht => hmono _ (h2 t ht)⟩
      · intro s hs
        by_cases hss : s = succ
        · rw [hss]; exact hsp
        · exact hinv.perm s (hold s hs hss)
      · intro s hs
        by_cases hss : s = succ
        · have := hinv.rank_lt current hcur
          simp only [hss, if_true]
          omega
        · have := hinv.rank_lt s (hold s hs hss)
          simp only [hss, if_false]
          omega
    · have := (Q.push_perm cmp queue succ).length_eq
      simp only [List.length_cons] at this
      omega
    · rw [hseen']; simp


theorem best_first_visit_inv (Q : PriorityQueueOps) (cmp : State → State → Bool)
    (initial current succ : State) (vars : List State × ParentTable × StateSet)
    (hinv : best_first_inv initial [current] vars) (hsucc : succ ∈ generate_moves current) :
    best_first_inv initial [current] (best_first_visit Q cmp current vars succ) ∧
      best_first_measure (best_first_visit Q cmp current vars succ) ≤ best_first_measure vars ∧
      visited_seen (best_first_visit Q cmp current vars succ).2.2 succ = true ∧
      ∀ s, visited_seen vars.2.2 s = true →
        visited_seen (best_first_visit Q cmp current vars succ).2.2 s = true := by
  obtain ⟨queue, parent, visited⟩ := vars
  obtain ⟨rank, hinv⟩ := hinv
  obtain ⟨rank', h1, h2, h3, h4⟩ :=
    best_first_visit_search_inv Q cmp initial current succ queue parent visited rank hinv hsucc
  exact ⟨⟨rank', h1⟩, h2, h3, h4⟩

theorem best_first_fold_inv (Q : PriorityQueueOps) (cmp : State → State → Bool)
    (initial current : State) :
    ∀ (succs : List State) (vars : List State × ParentTable × StateSet),
      (∀ t ∈ succs, t ∈ generate_moves current) → best_first_inv initial [current] vars →
      best_first_inv initial [current] (succs.foldl (best_first_visit Q cmp current) vars) ∧
      best_first_measure (succs.foldl (best_first_visit Q cmp current) vars) ≤
        best_first_measure vars ∧
      (∀ t ∈ succs,
        visited_seen (succs.foldl (best_first_visit Q cmp current) vars).2.2 t = true) ∧
      ∀ s, visited_seen vars.2.2 s = true →
        visited_seen (succs.foldl (best_first_visit Q cmp current) vars).2.2 s = true := by
  intro succs
  induction succs with
  | nil =>
    intro vars _ hinv
    exact ⟨hinv, le_refl _, fun t ht => absurd ht (List.not_mem_nil _), fun s hs => hs⟩
  | cons x rest ih =>
    intro vars hmem hinv
    obtain ⟨h1, h2, h3, h4⟩ :=
      best_first_visit_inv Q cmp initial current x vars hinv (hmem x (List.mem_cons_self _ _))
    obtain ⟨k1, k2, k3, k4⟩ := ih (best_first_visit Q cmp current vars x)
      (fun t ht => hmem t (List.mem_cons_of_mem _ ht)) h1
    rw [List.foldl_cons]
    refine ⟨k1, le_trans k2 h2, ?_, fun s hs => k4 s (h4 s hs)⟩
    intro t ht
    rcases List.mem_cons.1 ht with rfl | ht
    · exact k4 _ h3
    · exact k3 t ht

theorem best_first_step (Q : PriorityQueueOps) (cmp : State → State → Bool)
    (initial current : State) (rest : List State) (parent : ParentTable) (visited : StateSet)
    (hinv : best_first_inv initial [] (current :: rest, parent, visited))
    (hgoal : is_goal current = false) :
    best_first_inv initial [] ((generate_moves current).foldl (best_first_visit Q cmp current)
        (Q.pop cmp (current :: rest), parent, visited)) ∧
      best_first_measure ((generate_moves current).foldl (best_first_visit Q cmp current)
        (Q.pop cmp (current :: rest), parent, visited)) <
        best_first_measure (current :: rest, parent, visited) := by
  obtain ⟨rank, hinv⟩ := hinv
  have hpop := Q.pop_perm cmp current rest
  have hmid : best_first_inv initial [current] (Q.pop cmp (current :: rest), parent, visited) := by
    refine ⟨rank, hinv.seen_initial, ?_, ?_, hinv.linked, ?_, hinv.perm, hinv.rank_lt⟩
    · intro s hs
      rw [List.mem_singleton.1 hs]
      exact hinv.seen_queue current (List.mem_cons_self _ _)
    · intro s hs
      exact hinv.seen_queue s (List.mem_cons_of_mem _ (hpop.mem_iff.1 hs))
    · intro s hs hq hp
      refine hinv.closed s hs ?_ (List.not_mem_nil _)
      intro h
      rcases List.mem_cons.1 h with h | h
      · exact hp (List.mem_singleton.2 h)
      · exact hq (hpop.mem_iff.2 h)
  obtain ⟨k1, k2, k3, k4⟩ := best_first_fold_inv Q cmp initial current (generate_moves current)
    (Q.pop cmp (current :: rest), parent, visited) (fun t ht => ht) hmid
  refine ⟨?_, ?_⟩
  · obtain ⟨rank', hk⟩ := k1
    refine ⟨rank', hk.seen_initial, fun s hs => absurd hs (List.not_mem_nil _), hk.seen_queue, hk.linked, ?_,
      hk.perm, hk.rank_lt⟩
    intro s hs hq _
    by_cases hsc : s = current
    · rw [hsc]; exact ⟨hgoal, k3⟩
    · exact hk.closed s hs hq (fun h => hsc (List.mem_singleton.1 h))
  · have hlen := hpop.length_eq
    unfold best_first_measure at k2 ⊢
    simp only [List.length_cons] at k2 ⊢
    omega

theorem reach_closed (initial : State) (parent : ParentTable) (seen : State → Bool)
    (rank : State → Nat) (hinv : SearchInv initial [] [] parent seen rank) (s : State)
    (hs : Reach initial s) : seen s = true ∧ is_goal s = false := by
  have hseen : seen s = true := by
    induction hs with
    | refl => exact hinv.seen_initial
    | tail _ hbc ih =>
      exact (hinv.closed _ ih (List.not_mem_nil _) (List.not_mem_nil _)).2 _ hbc
  exact ⟨hseen, (hinv.closed s hseen (List.not_mem_nil _) (List.not_mem_nil _)).1⟩

theorem best_first_loop_outcome (Q : PriorityQueueOps) (rnd : Nat → State) (C : Comparator)
    (initial : State) (path_fuel : Nat) :
    ∀ (fuel : Nat) (queue : List State) (parent : ParentTable) (visited : StateSet)
      (r : StateList), best_first_inv initial [] (queue, parent, visited) →
      best_first_loop Q rnd C initial path_fuel fuel queue parent visited = some r →
      search_outcome initial r := by
  intro fuel
  induction fuel with
  | zero => intro queue parent visited r _ h; simp [best_first_loop] at h
  | succ fuel ih =>
    intro queue parent visited r hinv h
    cases queue with
    | nil =>
      simp only [best_first_loop] at h
      obtain ⟨rank, hinv⟩ := hinv
      left
      exact ⟨(Option.some.inj h).symm, fun s hs => (reach_closed initial parent _ rank hinv s hs).2⟩
    | cons current rest =>
      simp only [best_first_loop] at h
      by_cases hg : is_goal current = true
      · rw [if_pos hg] at h
        obtain ⟨rank, hinv⟩ := hinv
        right
        exact generate_path_good rnd initial parent _ rank hinv.linked path_fuel current r
          (hinv.seen_queue current (List.mem_cons_self _ _)) hg h
      · rw [if_neg hg] at h
        have hg' : is_goal current = false := by simpa using hg
        exact ih _ _ _ r (best_first_step Q (C none) initial current rest parent visited hinv hg').1 h

theorem best_first_loop_total (Q : PriorityQueueOps) (rnd : Nat → State) (C : Comparator)
    (initial : State) (path_fuel : Nat) (hpf : all_boards.length ≤ path_fuel) :
    ∀ (fuel : Nat) (queue : List State) (parent : ParentTable) (visited : StateSet),
      best_first_inv initial [] (queue, parent, visited) →
      best_first_measure (queue, parent, visited) < fuel →
      ∃ r, best_first_loop Q rnd C initial path_fuel fuel queue parent visited = some r := by
  intro fuel
  induction fuel with
  | zero => intro queue parent visited _ h; omega
  | succ fuel ih =>
    intro queue parent visited hinv hm
    cases queue with
    | nil => exact ⟨[], by simp [best_first_loop]⟩
    | cons current rest =>
      simp only [best_first_loop]
      by_cases hg : is_goal current = true
      · rw [if_pos hg]
        obtain ⟨rank, hinv⟩ := hinv
        have hs := hinv.seen_queue current (List.mem_cons_self _ _)
        have := hinv.rank_lt current hs
        exact generate_path_loop_total rnd initial parent _ rank hinv.linked path_fuel 0 current
          [current] hs (by omega)
      · rw [if_neg hg]
        have hg' : is_goal current = false := by simpa using hg
        obtain ⟨h1, h2⟩ := best_first_step Q (C none) initial current rest parent visited hinv hg'
        exact ih _ _ _ h1 (Nat.lt_of_lt_of_le h2 (Nat.le_of_lt_succ hm))

theorem unseen_none : unseen (fun _ => false) = all_boards.length := by
  unfold unseen
  rw [List.countP_eq_length]
  intro _ _
  rfl

theorem push_empty (Q : PriorityQueueOps) (cmp : State → State → Bool) (s : State) :
    Q.push cmp [] s = [s] :=
  List.perm_singleton.1 (Q.push_perm cmp [] s)

theorem best_first_init (Q : PriorityQueueOps) (cmp : State → State → Bool) (initial : State)
    (hb : initial.Perm (List.range 9)) :
    best_first_inv initial [] (Q.push cmp [] initial, [], set_insert [] initial) ∧
      best_first_measure (Q.push cmp [] initial, [], set_insert [] initial) =
        all_boards.length := by
  rw [push_empty]
  have hseen : ∀ s, visited_seen (set_insert [] initial) s = (false || decide (s = initial)) := by
    intro s
    rw [Bool.eq_iff_iff]
    simp [visited_seen_iff, mem_set_insert]
  have hun := unseen_insert (fun _ => false) _ initial hb rfl hseen
  rw [unseen_none] at hun
  have hi : visited_seen (set_insert [] initial) initial = true := by rw [hseen]; simp
  have hall : ∀ s, visited_seen (set_insert [] initial) s = true → s = initial := by
    intro s hs; rw [hseen] at hs; simpa using hs
  refine ⟨⟨fun _ => 0, hi, fun s hs => absurd hs (List.not_mem_nil _), ?_, ?_, ?_, ?_, ?_⟩, ?_⟩
  · intro s hs; rw [List.mem_singleton.1 hs]; exact hi
  · intro s hs hne; exact absurd (hall s hs) hne
  · intro s hs hq; exact absurd (List.mem_singleton.2 (hall s hs)) hq
  · intro s hs; rw [hall s hs]; exact hb
  · intro s _; dsimp only; omega
  · unfold best_first_measure
    simp only [List.length_singleton]
    exact hun


/-! ### A* search -/

theorem cost_of_assign (moves : CostTable) (k s : State) (c : Nat) :
    cost_of (table_assign moves k c) s = if k = s then c else cost_of moves s := by
  unfold cost_of
  rw [table_find_assign]
  split_ifs <;> rfl

theorem cost_seen_of_find {moves : CostTable} {s : State} {c : Nat}
    (h : table_find moves s = some c) : cost_seen moves s = true ∧ cost_of moves s = c := by
  simp [cost_seen, cost_of, h]

theorem cost_seen_false_of_find {moves : CostTable} {s : State}
    (h : table_find moves s = none) : cost_seen moves s = false := by
  simp [cost_seen, h]

theorem a_star_visit_inv (Q : PriorityQueueOps) (C : Comparator)
    (initial current succ : State) (succ_depth : Nat)
    (vars : List State × ParentTable × CostTable)
    (hinv : a_star_inv initial [current] vars) (hsucc : succ ∈ generate_moves current)
    (hd : succ_depth = cost_of vars.2.2 current + 1) :
    a_star_inv initial [current] (a_star_visit Q C current succ_depth vars succ) ∧
      a_star_measure (a_star_visit Q C current succ_depth vars succ) ≤ a_star_measure vars ∧
      cost_seen (a_star_visit Q C current succ_depth vars succ).2.2 succ = true ∧
      (∀ s, cost_seen vars.2.2 s = true →
        cost_seen (a_star_visit Q C current succ_depth vars succ).2.2 s = true) ∧
      succ_depth = cost_of (a_star_visit Q C current succ_depth vars succ).2.2 current + 1 := by
  obtain ⟨queue, parent, moves⟩ := vars
  unfold a_star_inv at hinv
  dsimp only at hinv hd
  have hcur : cost_seen moves current = true :=
    hinv.seen_pending current (List.mem_singleton_self _)
  cases hf : table_find moves succ with
  | none =>
    have e : a_star_visit Q C current succ_depth (queue, parent, moves) succ =
        (Q.push (C (some (table_assign moves succ succ_depth))) queue succ,
          table_assign parent succ current, table_assign moves succ succ_depth) := by
      simp [a_star_visit, hf]
    rw [e]
    unfold a_star_inv a_star_measure
    dsimp only
    have hns : cost_seen moves succ = false := cost_seen_false_of_find hf
    have hne : current ≠ succ := by
      intro h; rw [h, hns] at hcur; cases hcur
    have hseen' := cost_seen_assign moves succ
    have hmono : ∀ s, cost_seen moves s = true →
        cost_seen (table_assign moves succ succ_depth) s = true := by
      intro s hs; rw [hseen', hs]; rfl
    have hsp : succ.Perm (List.range 9) := generate_moves_perm (hinv.perm current hcur) hsucc
    have hun := unseen_insert (cost_seen moves) _ succ hsp hns (fun s => hseen' s succ_depth)
    have hold : ∀ s, cost_seen (table_assign moves succ succ_depth) s = true → s ≠ succ →
        cost_seen moves s = true := by
      intro s hs hne'
      rw [hseen'] at hs
      simpa [hne'] using hs
    have hqmem : ∀ s, s ∈ Q.push (C (some (table_assign moves succ succ_depth))) queue succ ↔
        s = succ ∨ s ∈ queue := by
      intro s
      rw [(Q.push_perm _ queue succ).mem_iff, List.mem_cons]
    have hrank : ∀ s, s ≠ succ → cost_of (table_assign moves succ succ_depth) s = cost_of moves s := by
      intro s hs
      rw [cost_of_assign, if_neg (Ne.symm hs)]
    have hrank' : cost_of (table_assign moves succ succ_depth) succ = succ_depth := by
      rw [cost_of_assign, if_pos rfl]
    refine ⟨?_, ?_, ?_, hmono, ?_⟩
    · refine ⟨hmono _ hinv.seen_initial, ?_, ?_, ?_, ?_, ?_, ?_⟩
      · intro s hs; exact hmono _ (hinv.seen_pending s hs)
      · intro s hs
        rcases (hqmem s).1 hs with rfl | h
        · rw [hseen']; simp
        · exact hmono _ (hinv.seen_queue s h)
      · intro s hs hsi
        by_cases hss : s = succ
        · subst hss
          refine ⟨current, ?_, hmono _ hcur, hsucc, ?_⟩
          · rw [table_find_assign]; simp
          · rw [hrank', hrank current hne]; omega
        · obtain ⟨p, hp, hps, hstep⟩ := hinv.linked s (hold s hs hss) hsi
          have hpne : p ≠ succ := by
            intro h; rw [h, hns] at hps; cases hps
          refine ⟨p, ?_, hmono _ hps, hstep.1, ?_⟩
          · rw [table_find_assign, if_neg (Ne.symm hss)]; exact hp
          · rw [hrank p hpne, hrank s hss]; exact hstep.2
      · intro s hs hq hp
        have hss : s ≠ succ := fun h => hq ((hqmem s).2 (Or.inl h))
        have hq' : s ∉ queue := fun h => hq ((hqmem s).2 (Or.inr h))
        obtain ⟨h1, h2⟩ := hinv.closed s (hold s hs hss) hq' hp
        exact ⟨h1, fun t ht => hmono _ (h2 t ht)⟩
      · intro s hs
        by_cases hss : s = succ
        · rw [hss]; exact hsp
        · exact hinv.perm s (hold s hs hss)
      · intro s hs
        by_cases hss : s = succ
        · have := hinv.rank_lt current hcur
          rw [hss, hrank']
          omega
        · have := hinv.rank_lt s (hold s hs hss)
          rw [hrank s hss]
          omega
    · have := (Q.push_perm (C (some (table_assign moves succ succ_depth))) queue succ).length_eq
      simp only [List.length_cons] at this
      omega
    · rw [hseen']; simp
    · rw [hrank current hne]; exact hd
  | some c =>
    have hsc := cost_seen_of_find hf
    by_cases hgt : c > succ_depth
    · have e : a_star_visit Q C current succ_depth (queue, parent, moves) succ =
          (queue, table_assign parent succ current, table_assign moves succ succ_depth) := by
        simp [a_star_visit, hf, hgt]
      rw [e]
      unfold a_star_inv a_star_measure
      dsimp only
      have hne : current ≠ succ := by
        intro h; rw [h, hsc.2] at hd; omega
      have hseen' : ∀ s, cost_seen (table_assign moves succ succ_depth) s = cost_seen moves s := by
        intro s
        rw [cost_seen_assign]
        by_cases hss : s = succ
        · rw [hss, hsc.1]; rfl
        · simp [hss]
      have hun := unseen_congr (cost_seen moves) _ hseen'
      have hrank : ∀ s, s ≠ succ →
          cost_of (table_assign moves succ succ_depth) s = cost_of moves s := by
        intro s hs
        rw [cost_of_assign, if_neg (Ne.symm hs)]
      have hrank' : cost_of (table_assign moves succ succ_depth) succ = succ_depth := by
        rw [cost_of_assign, if_pos rfl]
      have hle : ∀ s, cost_of (table_assign moves succ succ_depth) s ≤ cost_of moves s := by
        intro s
        by_cases hss : s = succ
        · rw [hss, hrank', hsc.2]; omega
        · rw [hrank s hss]
      refine ⟨?_, ?_, ?_, ?_, ?_⟩
      · refine ⟨?_, ?_, ?_, ?_, ?_, ?_, ?_⟩
        · rw [hseen']; exact hinv.seen_initial
        · intro s hs; rw [hseen']; exact hinv.seen_pending s hs
        · intro s hs; rw [hseen']; exact hinv.seen_queue s hs
        · intro s hs hsi
          rw [hseen'] at hs
          by_cases hss : s = succ
          · subst hss
            refine ⟨current, ?_, ?_, hsucc, ?_⟩
            · rw [table_find_assign]; simp
            · rw [hseen']; exact hcur
            · rw [hrank', hrank current hne]; omega
          · obtain ⟨p, hp, hps, hstep⟩ := hinv.linked s hs hsi
            refine ⟨p, ?_, ?_, hstep.1, ?_⟩
            · rw [table_find_assign, if_neg (Ne.symm hss)]; exact hp
            · rw [hseen']; exact hps
            · have := hle p
              have := hstep.2
              rw [hrank s hss]
              omega
        · intro s hs hq hp
          rw [hseen'] at hs
          obtain ⟨h1, h2⟩ := hinv.closed s hs hq hp
          exact ⟨h1, fun t ht => by rw [hseen']; exact h2 t ht⟩
        · intro s hs
          rw [hseen'] at hs
          exact hinv.perm s hs
        · intro s hs
          rw [hseen'] at hs
          have := hinv.rank_lt s hs
          have := hle s
          omega
      · omega
      · rw [hseen']; exact hsc.1
      · intro s hs; rw [hseen']; exact hs
      · rw [hrank current hne]; exact hd
    · have e : a_star_visit Q C current succ_depth (queue, parent, moves) succ =
          (queue, parent, moves) := by
        simp [a_star_visit, hf, hgt]
      rw [e]
      exact ⟨hinv, le_refl _, hsc.1, fun s hs => hs, hd⟩


theorem a_star_fold_inv (Q : PriorityQueueOps) (C : Comparator)
    (initial current : State) (succ_depth : Nat) :
    ∀ (succs : List State) (vars : List State × ParentTable × CostTable),
      (∀ t ∈ succs, t ∈ generate_moves current) → a_star_inv initial [current] vars →
      succ_depth = cost_of vars.2.2 current + 1 →
      a_star_inv initial [current] (succs.foldl (a_star_visit Q C current succ_depth) vars) ∧
      a_star_measure (succs.foldl (a_star_visit Q C current succ_depth) vars) ≤
        a_star_measure vars ∧
      (∀ t ∈ succs,
        cost_seen (succs.foldl (a_star_visit Q C current succ_depth) vars).2.2 t = true) ∧
      ∀ s, cost_seen vars.2.2 s = true →
        cost_seen (succs.foldl (a_star_visit Q C current succ_depth) vars).2.2 s = true := by
  intro succs
  induction succs with
  | nil =>
    intro vars _ hinv _
    exact ⟨hinv, le_refl _, fun t ht => absurd ht (List.not_mem_nil _), fun s hs => hs⟩
  | cons x rest ih =>
    intro vars hmem hinv hd
    obtain ⟨h1, h2, h3, h4, h5⟩ :=
      a_star_visit_inv Q C initial current x succ_depth vars hinv
        (hmem x (List.mem_cons_self _ _)) hd
    obtain ⟨k1, k2, k3, k4⟩ := ih (a_star_visit Q C current succ_depth vars x)
      (fun t ht => hmem t (List.mem_cons_of_mem _ ht)) h1 h5
    rw [List.foldl_cons]
    refine ⟨k1, le_trans k2 h2, ?_, fun s hs => k4 s (h4 s hs)⟩
    intro t ht
    rcases List.mem_cons.1 ht with rfl | ht
    · exact k4 _ h3
    · exact k3 t ht

theorem cost_touch_of_seen {moves : CostTable} {s : State} (h : cost_seen moves s = true) :
    cost_touch moves s = moves := by
  unfold cost_touch
  cases hf : table_find moves s with
  | none => rw [cost_seen_false_of_find hf] at h; cases h
  | some c => rfl

theorem a_star_step (Q : PriorityQueueOps) (C : Comparator)
    (initial current : State) (rest : List State) (parent : ParentTable) (moves : CostTable)
    (hinv : a_star_inv initial [] (current :: rest, parent, moves))
    (hgoal : is_goal current = false) :
    a_star_inv initial []
        ((generate_moves current).foldl (a_star_visit Q C current (cost_of moves current + 1))
          (Q.pop (C (some moves)) (current :: rest), parent, cost_touch moves current)) ∧
      a_star_measure
        ((generate_moves current).foldl (a_star_visit Q C current (cost_of moves current + 1))
          (Q.pop (C (some moves)) (current :: rest), parent, cost_touch moves current)) <
        a_star_measure (current :: rest, parent, moves) := by
  have hcur : cost_seen moves current = true := hinv.seen_queue current (List.mem_cons_self _ _)
  rw [cost_touch_of_seen hcur]
  have hpop := Q.pop_perm (C (some moves)) current rest
  have hmid : a_star_inv initial [current]
      (Q.pop (C (some moves)) (current :: rest), parent, moves) := by
    refine ⟨hinv.seen_initial, ?_, ?_, hinv.linked, ?_, hinv.perm, hinv.rank_lt⟩
    · intro s hs
      rw [List.mem_singleton.1 hs]
      exact hcur
    · intro s hs
      exact hinv.seen_queue s (List.mem_cons_of_mem _ (hpop.mem_iff.1 hs))
    · intro s hs hq hp
      refine hinv.closed s hs ?_ (List.not_mem_nil _)
      intro h
      rcases List.mem_cons.1 h with h | h
      · exact hp (List.mem_singleton.2 h)
      · exact hq (hpop.mem_iff.2 h)
  obtain ⟨k1, k2, k3, k4⟩ := a_star_fold_inv Q C initial current (cost_of moves current + 1)
    (generate_moves current) (Q.pop (C (some moves)) (current :: rest), parent, moves)
    (fun t ht => ht) hmid rfl
  refine ⟨?_, ?_⟩
  · refine ⟨k1.seen_initial, fun s hs => absurd hs (List.not_mem_nil _), k1.seen_queue,
      k1.linked, ?_, k1.perm, k1.rank_lt⟩
    intro s hs hq _
    by_cases hsc : s = current
    · rw [hsc]; exact ⟨hgoal, k3⟩
    · exact k1.closed s hs hq (fun h => hsc (List.mem_singleton.1 h))
  · have hlen := hpop.length_eq
    unfold a_star_measure at k2 ⊢
    simp only [List.length_cons] at k2 ⊢
    omega

theorem a_star_loop_outcome (Q : PriorityQueueOps) (rnd : Nat → State) (C : Comparator)
    (initial : State) (path_fuel : Nat) :
    ∀ (fuel : Nat) (queue : List State) (parent : ParentTable) (moves : CostTable)
      (r : StateList), a_star_inv initial [] (queue, parent, moves) →
      a_star_loop Q rnd C initial path_fuel fuel queue parent moves = some r →
      search_outcome initial r := by
  intro fuel
  induction fuel with
  | zero => intro queue parent moves r _ h; simp [a_star_loop] at h
  | succ fuel ih =>
    intro queue parent moves r hinv h
    cases queue with
    | nil =>
      simp only [a_star_loop] at h
      left
      exact ⟨(Option.some.inj h).symm, fun s hs => (reach_closed initial parent _ _ hinv s hs).2⟩
    | cons current rest =>
      simp only [a_star_loop] at h
      by_cases hg : is_goal current = true
      · rw [if_pos hg] at h
        right
        exact generate_path_good rnd initial parent _ _ hinv.linked path_fuel current r
          (hinv.seen_queue current (List.mem_cons_self _ _)) hg h
      · rw [if_neg hg] at h
        have hg' : is_goal current = false := by simpa using hg
        exact ih _ _ _ r (a_star_step Q C initial current rest parent moves hinv hg').1 h

theorem a_star_loop_total (Q : PriorityQueueOps) (rnd : Nat → State) (C : Comparator)
    (initial : State) (path_fuel : Nat) (hpf : all_boards.length ≤ path_fuel) :
    ∀ (fuel : Nat) (queue : List State) (parent : ParentTable) (moves : CostTable),
      a_star_inv initial [] (queue, parent, moves) →
      a_star_measure (queue, parent, moves) < fuel →
      ∃ r, a_star_loop Q rnd C initial path_fuel fuel queue parent moves = some r := by
  intro fuel
  induction fuel with
  | zero => intro queue parent moves _ h; omega
  | succ fuel ih =>
    intro queue parent moves hinv hm
    cases queue with
    | nil => exact ⟨[], by simp [a_star_loop]⟩
    | cons current rest =>
      simp only [a_star_loop]
      by_cases hg : is_goal current = true
      · rw [if_pos hg]
        have hinv' : SearchInv initial [] (current :: rest) parent (cost_seen moves)
            (cost_of moves) := hinv
        have hs := hinv'.seen_queue current (List.mem_cons_self _ _)
        have := hinv'.rank_lt current hs
        exact generate_path_loop_total rnd initial parent _ _ hinv'.linked path_fuel 0 current
          [current] hs (by omega)
      · rw [if_neg hg]
        have hg' : is_goal current = false := by simpa using hg
        obtain ⟨h1, h2⟩ := a_star_step Q C initial current rest parent moves hinv hg'
        exact ih _ _ _ h1 (Nat.lt_of_lt_of_le h2 (Nat.le_of_lt_succ hm))

theorem a_star_init (Q : PriorityQueueOps) (cmp : State → State → Bool) (initial : State)
    (hb : initial.Perm (List.range 9)) :
    a_star_inv initial [] (Q.push cmp [] initial, [], table_assign [] initial 0) ∧
      a_star_measure (Q.push cmp [] initial, [], table_assign [] initial 0) =
        all_boards.length := by
  rw [push_empty]
  have hseen : ∀ s, cost_seen (table_assign [] initial 0) s = (false || decide (s = initial)) := by
    intro s
    rw [cost_seen_assign]
    rfl
  have hun := unseen_insert (fun _ => false) _ initial hb rfl hseen
  rw [unseen_none] at hun
  have hi : cost_seen (table_assign [] initial 0) initial = true := by rw [hseen]; simp
  have hall : ∀ s, cost_seen (table_assign [] initial 0) s = true → s = initial := by
    intro s hs; rw [hseen] at hs; simpa using hs
  refine ⟨⟨hi, fun s hs => absurd hs (List.not_mem_nil _), ?_, ?_, ?_, ?_, ?_⟩, ?_⟩
  · intro s hs; rw [List.mem_singleton.1 hs]; exact hi
  · intro s hs hne; exact absurd (hall s hs) hne
  · intro s hs hq; exact absurd (List.mem_singleton.2 (hall s hs)) hq
  · intro s hs; rw [hall s hs]; exact hb
  · intro s hs
    dsimp only
    rw [hall s hs, cost_of_assign, if_pos rfl]
    omega
  · unfold a_star_measure
    simp only [List.length_singleton]
    exact hun

/-! ### The searches -/

theorem best_first_search_outcome (Q : PriorityQueueOps) (rnd : Nat → State) (C : Comparator)
    (fuel : Nat) (b : State) (hb : b.Perm (List.range 9)) (r : StateList)
    (h : best_first_search Q rnd C fuel b = some r) : search_outcome b r :=
  best_first_loop_outcome Q rnd C b fuel fuel _ _ _ r (best_first_init Q (C none) b hb).1 h

theorem a_star_search_outcome (Q : PriorityQueueOps) (rnd : Nat → State) (C : Comparator)
    (fuel : Nat) (b : State) (hb : b.Perm (List.range 9)) (r : StateList)
    (h : a_star_search Q rnd C fuel b = some r) : search_outcome b r :=
  a_star_loop_outcome Q rnd C b fuel fuel _ _ _ r (a_star_init Q _ b hb).1 h

theorem best_first_search_total (Q : PriorityQueueOps) (rnd : Nat → State) (C : Comparator)
    (fuel : Nat) (hf : 362880 < fuel) (b : State) (hb : b.Perm (List.range 9)) :
    ∃ r, best_first_search Q rnd C fuel b = some r := by
  obtain ⟨h1, h2⟩ := best_first_init Q (C none) b hb
  have hl := length_all_boards
  exact best_first_loop_total Q rnd C b fuel (by omega) fuel _ _ _ h1 (by omega)

theorem a_star_search_total (Q : PriorityQueueOps) (rnd : Nat → State) (C : Comparator)
    (fuel : Nat) (hf : 362880 < fuel) (b : State) (hb : b.Perm (List.range 9)) :
    ∃ r, a_star_search Q rnd C fuel b = some r := by
  obtain ⟨h1, h2⟩ := a_star_init Q (C (some (table_assign [] b 0))) b hb
  have hl := length_all_boards
  exact a_star_loop_total Q rnd C b fuel (by omega) fuel _ _ _ h1 (by omega)


theorem good_of_outcome {b : State} {path : StateList} (h : search_outcome b path)
    (hne : path ≠ []) : good_path b path := by
  rcases h with ⟨h, _⟩ | h
  · exact absurd h hne
  · exact h

/-- C1: for a permutation board `b` and either heuristic comparator, whenever
`best_first_search` returns a non-empty list, its first element is `b`, its last element
satisfies `is_goal`, and every element after the first is a member of `generate_moves` of
the element just before it. -/
theorem best_first_search_path (Q : PriorityQueueOps) (rnd : Nat → State) (C : Comparator)
    (_hC : C = ManhattanDistanceComparator ∨ C = NotInPlaceCountComparator)
    (b : State) (hb : b.Perm (List.range 9)) (fuel : Nat) (path : StateList)
    (hret : best_first_search Q rnd C fuel b = some path) (hne : path ≠ []) :
    path.head? = some b ∧ (∃ g, path.getLast? = some g ∧ is_goal g = true) ∧
      is_move_chain path := by
  obtain ⟨h1, h2, h3, _⟩ := good_of_outcome (best_first_search_outcome Q rnd C fuel b hb path hret) hne
  exact ⟨h1, h2, h3⟩

/-- Witness of C1: a run of `best_first_search` that returns a path of three boards. -/
theorem best_first_search_path_witness :
    best_first_search sorted_queue (fun _ => goal_board) ManhattanDistanceComparator 5
        [1, 2, 0, 3, 4, 5, 6, 7, 8] =
      some [[1, 2, 0, 3, 4, 5, 6, 7, 8], [1, 0, 2, 3, 4, 5, 6, 7, 8], [0, 1, 2, 3, 4, 5, 6, 7, 8]] ∧
    is_move_chain [[1, 2, 0, 3, 4, 5, 6, 7, 8], [1, 0, 2, 3, 4, 5, 6, 7, 8],
      [0, 1, 2, 3, 4, 5, 6, 7, 8]] :=
  ⟨by decide,
   (best_first_search_path sorted_queue (fun _ => goal_board) ManhattanDistanceComparator
    (Or.inl rfl) [1, 2, 0, 3, 4, 5, 6, 7, 8] (by decide) 5 _ (by decide) (by simp)).2.2⟩

/-- C2: for a permutation board `b` and either heuristic comparator, whenever
`a_star_search` returns a non-empty list, its first element is `b`, its last element
satisfies `is_goal`, every element after the first is a member of `generate_moves` of the
element just before it, and no board occurs twice in it (the parent chain from the goal
ends at `b` without a cycle, relaxation included). -/
theorem a_star_search_path (Q : PriorityQueueOps) (rnd : Nat → State) (C : Comparator)
    (_hC : C = ManhattanDistanceComparator ∨ C = NotInPlaceCountComparator)
    (b : State) (hb : b.Perm (List.range 9)) (fuel : Nat) (path : StateList)
    (hret : a_star_search Q rnd C fuel b = some path) (hne : path ≠ []) :
    path.head? = some b ∧ (∃ g, path.getLast? = some g ∧ is_goal g = true) ∧
      is_move_chain path ∧ path.Nodup :=
  good_of_outcome (a_star_search_outcome Q rnd C fuel b hb path hret) hne

/-- Witness of C2: a run of `a_star_search` that returns a path of three boards. -/
theorem a_star_search_path_witness :
    a_star_search sorted_queue (fun _ => goal_board) NotInPlaceCountComparator 5
        [1, 2, 0, 3, 4, 5, 6, 7, 8] =
      some [[1, 2, 0, 3, 4, 5, 6, 7, 8], [1, 0, 2, 3, 4, 5, 6, 7, 8], [0, 1, 2, 3, 4, 5, 6, 7, 8]] ∧
    is_move_chain [[1, 2, 0, 3, 4, 5, 6, 7, 8], [1, 0, 2, 3, 4, 5, 6, 7, 8],
      [0, 1, 2, 3, 4, 5, 6, 7, 8]] :=
  ⟨by decide,
   (a_star_search_path sorted_queue (fun _ => goal_board) NotInPlaceCountComparator
    (Or.inr rfl) [1, 2, 0, 3, 4, 5, 6, 7, 8] (by decide) 5 _ (by decide) (by simp)).2.2.1⟩

/-- C3: from the goal board `[0,1,2,3,4,5,6,7,8]`, `best_first_search` and
`a_star_search` with either heuristic comparator return the list whose only element is the
goal board (move count 0). -/
theorem search_from_goal (Q : PriorityQueueOps) (rnd : Nat → State) (C : Comparator)
    (_hC : C = ManhattanDistanceComparator ∨ C = NotInPlaceCountComparator) (fuel : Nat)
    (hf : 0 < fuel) :
    best_first_search Q rnd C fuel [0, 1, 2, 3, 4, 5, 6, 7, 8] =
      some [[0, 1, 2, 3, 4, 5, 6, 7, 8]] ∧
    a_star_search Q rnd C fuel [0, 1, 2, 3, 4, 5, 6, 7, 8] =
      some [[0, 1, 2, 3, 4, 5, 6, 7, 8]] := by
  obtain ⟨n, rfl⟩ : ∃ n, fuel = n + 1 := ⟨fuel - 1, by omega⟩
  have hg : is_goal [0, 1, 2, 3, 4, 5, 6, 7, 8] = true := by decide
  constructor
  · unfold best_first_search
    rw [push_empty]
    simp [best_first_loop, hg, generate_path, generate_path_loop]
  · unfold a_star_search
    rw [push_empty]
    simp [a_star_loop, hg, generate_path, generate_path_loop]

/-- Witness of C3: the run of `best_first_search` from the goal with one unit of fuel. -/
theorem search_from_goal_witness :
    best_first_search sorted_queue (fun _ => goal_board) ManhattanDistanceComparator 1
        [0, 1, 2, 3, 4, 5, 6, 7, 8] = some [[0, 1, 2, 3, 4, 5, 6, 7, 8]] :=
  (search_from_goal sorted_queue (fun _ => goal_board) ManhattanDistanceComparator
    (Or.inl rfl) 1 (by decide)).1


/-! ### Parity of the inversions -/

theorem count_inversions_eq_list {b : State} (hl : b.length = 9) :
    count_inversions b = inversions_list b := by
  obtain ⟨a0, a1, a2, a3, a4, a5, a6, a7, a8, rfl⟩ := eq_nine_of_length hl
  unfold count_inversions inversions_from
  simp only [foldl_count]
  simp [BOARD_SIZE, List.range_succ, List.range', List.countP_cons, inversions_list, tile]
  ring

theorem inversions_list_cons (x : Nat) (rest : List Nat) :
    inversions_list (x :: rest) =
      rest.countP (fun y => decide (x ≠ 0 ∧ y ≠ 0 ∧ x > y)) + inversions_list rest := rfl

theorem inversions_list_append_perm (pre l l' : List Nat) (hp : l.Perm l') :
    ∃ c, inversions_list (pre ++ l) = c + inversions_list l ∧
      inversions_list (pre ++ l') = c + inversions_list l' := by
  induction pre with
  | nil => exact ⟨0, by simp, by simp⟩
  | cons p rest ih =>
    obtain ⟨c, h1, h2⟩ := ih
    refine ⟨rest.countP (fun y => decide (p ≠ 0 ∧ y ≠ 0 ∧ p > y)) +
      l.countP (fun y => decide (p ≠ 0 ∧ y ≠ 0 ∧ p > y)) + c, ?_, ?_⟩
    · rw [List.cons_append, inversions_list_cons, List.countP_append, h1]; omega
    · rw [List.cons_append, inversions_list_cons, List.countP_append, h2, hp.countP_eq]; omega

theorem inversions_list_swap2 (pre post : List Nat) (u x : Nat) (h0 : u = 0 ∨ x = 0) :
    inversions_list (pre ++ u :: x :: post) = inversions_list (pre ++ x :: u :: post) := by
  obtain ⟨c, h1, h2⟩ := inversions_list_append_perm pre (u :: x :: post) (x :: u :: post)
    (List.Perm.swap x u post)
  rw [h1, h2]
  simp only [inversions_list_cons, List.countP_cons]
  rcases h0 with rfl | rfl
  · simp
  · simp

theorem inversions_list_swap4 (pre post : List Nat) (u y z x : Nat) (h0 : u = 0 ∨ x = 0)
    (huy : u ≠ y) (huz : u ≠ z) (hxy : x ≠ y) (hxz : x ≠ z) :
    inversions_list (pre ++ u :: y :: z :: x :: post) % 2 =
      inversions_list (pre ++ x :: y :: z :: u :: post) % 2 := by
  have hp : (u :: y :: z :: x :: post).Perm (x :: y :: z :: u :: post) := by
    rw [List.perm_iff_count]
    intro a
    simp only [List.count_cons]
    omega
  obtain ⟨c, h1, h2⟩ := inversions_list_append_perm pre _ _ hp
  rw [h1, h2]
  simp only [inversions_list_cons, List.countP_cons]
  rcases h0 with rfl | rfl
  · simp
    split_ifs <;> omega
  · simp
    split_ifs <;> omega


theorem board_decomp4 {b : State} (hl : b.length = 9) (e : Nat) (he : e + 3 < 9) :
    b = b.take e ++
      tile b e :: tile b (e + 1) :: tile b (e + 2) :: tile b (e + 3) :: b.drop (e + 4) := by
  obtain ⟨a0, a1, a2, a3, a4, a5, a6, a7, a8, rfl⟩ := eq_nine_of_length hl
  have he' : e < 6 := by omega
  interval_cases e <;> rfl

theorem exchanged_decomp4 {b : State} (hl : b.length = 9) (e : Nat) (he : e + 3 < 9) :
    exchanged b e (e + 3) = b.take e ++
      tile b (e + 3) :: tile b (e + 1) :: tile b (e + 2) :: tile b e :: b.drop (e + 4) := by
  obtain ⟨a0, a1, a2, a3, a4, a5, a6, a7, a8, rfl⟩ := eq_nine_of_length hl
  have he' : e < 6 := by omega
  interval_cases e <;> rfl

theorem board_decomp2 {b : State} (hl : b.length = 9) (e : Nat) (he : e + 1 < 9) :
    b = b.take e ++ tile b e :: tile b (e + 1) :: b.drop (e + 2) := by
  obtain ⟨a0, a1, a2, a3, a4, a5, a6, a7, a8, rfl⟩ := eq_nine_of_length hl
  have he' : e < 8 := by omega
  interval_cases e <;> rfl

theorem exchanged_decomp2 {b : State} (hl : b.length = 9) (e : Nat) (he : e + 1 < 9) :
    exchanged b e (e + 1) = b.take e ++ tile b (e + 1) :: tile b e :: b.drop (e + 2) := by
  obtain ⟨a0, a1, a2, a3, a4, a5, a6, a7, a8, rfl⟩ := eq_nine_of_length hl
  have he' : e < 8 := by omega
  interval_cases e <;> rfl

theorem exchanged_comm (b : State) (i j : Nat) : exchanged b i j = exchanged b j i := by
  unfold exchanged
  apply List.map_congr_left
  intro k _
  dsimp only
  split_ifs with h1 h2
  · rw [← h1, h2]
  · rfl
  · rfl
  · rfl

theorem inversions_exchanged4 {b : State} (hb : b.Perm (List.range 9)) (e : Nat)
    (he : e + 3 < 9) (h0 : tile b e = 0 ∨ tile b (e + 3) = 0) :
    inversions_list (exchanged b e (e + 3)) % 2 = inversions_list b % 2 := by
  have hl := perm_length hb
  have hne : ∀ i j, i < 9 → j < 9 → i ≠ j → tile b i ≠ tile b j :=
    fun i j hi hj hij h => hij (tile_injective hb hi hj h)
  rw [exchanged_decomp4 hl e he]
  conv_rhs => rw [board_decomp4 hl e he]
  exact (inversions_list_swap4 _ _ _ _ _ _ h0 (hne _ _ (by omega) (by omega) (by omega))
    (hne _ _ (by omega) (by omega) (by omega)) (hne _ _ (by omega) (by omega) (by omega))
    (hne _ _ (by omega) (by omega) (by omega))).symm

theorem inversions_exchanged2 {b : State} (hb : b.Perm (List.range 9)) (e : Nat)
    (he : e + 1 < 9) (h0 : tile b e = 0 ∨ tile b (e + 1) = 0) :
    inversions_list (exchanged b e (e + 1)) = inversions_list b := by
  have hl := perm_length hb
  rw [exchanged_decomp2 hl e he]
  conv_rhs => rw [board_decomp2 hl e he]
  exact (inversions_list_swap2 _ _ _ _ h0).symm

theorem is_solvable_exchanged {b : State} (hb : b.Perm (List.range 9)) (t : Nat) (ht : t < 9)
    (hadj : adjacent (empty_pos b) t) :
    is_solvable (exchanged b (empty_pos b) t) = is_solvable b := by
  have hl := perm_length hb
  have he := empty_pos_lt hb
  have h0 := tile_empty_pos hb
  have key : inversions_list (exchanged b (empty_pos b) t) % 2 = inversions_list b % 2 := by
    rcases hadj with h | h | ⟨h, _⟩ | ⟨h, _⟩
    · subst h
      exact inversions_exchanged4 hb _ ht (Or.inl h0)
    · rw [exchanged_comm]
      have h' : empty_pos b = t + 3 := h.symm
      rw [h'] at h0 ⊢
      exact inversions_exchanged4 hb t (by omega) (Or.inr h0)
    · rw [exchanged_comm]
      have h' : empty_pos b = t + 1 := h.symm
      rw [h'] at h0 ⊢
      rw [inversions_exchanged2 hb t (by omega) (Or.inr h0)]
    · subst h
      rw [inversions_exchanged2 hb _ ht (Or.inl h0)]
  unfold is_solvable
  rw [count_inversions_eq_list (length_exchanged _ _ _), count_inversions_eq_list hl, key]

theorem is_solvable_move {b : State} (hb : b.Perm (List.range 9)) {s : State}
    (hs : s ∈ generate_moves b) : is_solvable s = is_solvable b := by
  obtain ⟨t, ht, hadj, rfl⟩ := (mem_generate_moves_iff hb s).1 hs
  exact is_solvable_exchanged hb t ht hadj

theorem reach_perm_solvable {b s : State} (hb : b.Perm (List.range 9)) (h : Reach b s) :
    s.Perm (List.range 9) ∧ is_solvable s = is_solvable b := by
  induction h with
  | refl => exact ⟨hb, rfl⟩
  | tail _ hbc ih => exact ⟨generate_moves_perm ih.1 hbc, (is_solvable_move ih.1 hbc).trans ih.2⟩


/-! ### Termination and the result of the searches -/

theorem chain_reach : ∀ (l : StateList) (b g : State), l.head? = some b →
    l.getLast? = some g → is_move_chain l → Reach b g := by
  intro l
  induction l with
  | nil => intro b g h; simp at h
  | cons x rest ih =>
    intro b g hh hl hc
    simp only [List.head?_cons, Option.some.injEq] at hh
    subst hh
    cases rest with
    | nil =>
      simp only [List.getLast?_singleton, Option.some.injEq] at hl
      subst hl
      exact Relation.ReflTransGen.refl
    | cons y rest' =>
      have hc' : List.Chain' (fun s t => t ∈ generate_moves s) (x :: y :: rest') := hc
      rw [List.chain'_cons] at hc'
      have hl' : (y :: rest').getLast? = some g := by
        rw [List.getLast?_cons_cons] at hl; exact hl
      exact Relation.ReflTransGen.head hc'.1 (ih y g rfl hl' hc'.2)

theorem good_path_goal {b : State} (hb : b.Perm (List.range 9)) {r : StateList}
    (h : good_path b r) :
    r ≠ [] ∧ r.getLast? = some goal_board ∧ Reach b goal_board := by
  obtain ⟨hh, ⟨g, hl, hg⟩, hc, _⟩ := h
  have hr := chain_reach r b g hh hl hc
  have hgb : g = goal_board := (is_goal_iff (reach_perm_solvable hb hr).1).1 hg
  subst hgb
  refine ⟨?_, hl, hr⟩
  intro h; rw [h] at hh; simp at hh

theorem outcome_of_unsolvable {b : State} (hb : b.Perm (List.range 9))
    (hs : is_solvable b = false) {r : StateList} (h : search_outcome b r) : r = [] := by
  rcases h with ⟨h, _⟩ | h
  · exact h
  · have hr := (good_path_goal hb h).2.2
    have := (reach_perm_solvable hb hr).2
    rw [hs] at this
    have hgs : is_solvable goal_board = true := by decide
    rw [hgs] at this
    cases this

/-- C5: for a permutation board `b` with `is_solvable b` false and either heuristic
comparator, `best_first_search` and `a_star_search` terminate (fuel 362881 is enough) and
return the empty list. -/
theorem unsolvable_search_empty (Q : PriorityQueueOps) (rnd : Nat → State) (C : Comparator)
    (_hC : C = ManhattanDistanceComparator ∨ C = NotInPlaceCountComparator)
    (b : State) (hb : b.Perm (List.range 9)) (hs : is_solvable b = false)
    (fuel : Nat) (hf : 362880 < fuel) :
    best_first_search Q rnd C fuel b = some [] ∧ a_star_search Q rnd C fuel b = some [] := by
  constructor
  · obtain ⟨r, hr⟩ := best_first_search_total Q rnd C fuel hf b hb
    rw [hr, outcome_of_unsolvable hb hs (best_first_search_outcome Q rnd C fuel b hb r hr)]
  · obtain ⟨r, hr⟩ := a_star_search_total Q rnd C fuel hf b hb
    rw [hr, outcome_of_unsolvable hb hs (a_star_search_outcome Q rnd C fuel b hb r hr)]

/-- Witness of C5: the searches from `[1,2,3,4,5,6,8,7,0]` return the empty list. -/
theorem unsolvable_search_empty_witness :
    best_first_search sorted_queue (fun _ => goal_board) ManhattanDistanceComparator 362881
        [1, 2, 3, 4, 5, 6, 8, 7, 0] = some [] ∧
    a_star_search sorted_queue (fun _ => goal_board) ManhattanDistanceComparator 362881
        [1, 2, 3, 4, 5, 6, 8, 7, 0] = some [] :=
  unsolvable_search_empty sorted_queue (fun _ => goal_board) ManhattanDistanceComparator
    (Or.inl rfl) [1, 2, 3, 4, 5, 6, 8, 7, 0] (by decide) (by decide) 362881 (by decide)

/-! ### Boards with tiles hidden -/

theorem tile_map (f : Nat → Nat) (hf : f 0 = 0) (b : State) (i : Nat) :
    tile (b.map f) i = f (tile b i) := by
  unfold tile
  rw [List.getD_eq_getElem?_getD, List.getD_eq_getElem?_getD, List.getElem?_map]
  cases b[i]? <;> simp [hf]

theorem empty_pos_map (f : Nat → Nat) (hf : ∀ v, f v = 0 ↔ v = 0) (b : State) :
    empty_pos (b.map f) = empty_pos b := by
  unfold empty_pos
  induction b with
  | nil => rfl
  | cons x rest ih =>
    rw [List.map_cons, List.indexOf_cons, List.indexOf_cons, ih]
    by_cases hx : x = 0
    · subst hx
      rw [(hf 0).2 rfl]
    · have hfx : f x ≠ 0 := fun h => hx ((hf x).1 h)
      have e1 : (f x == 0) = false := beq_false_of_ne hfx
      have e2 : (x == 0) = false := beq_false_of_ne hx
      rw [e1, e2]

theorem swap_tiles_map (f : Nat → Nat) (hf : f 0 = 0) (b : State) (i j : Nat) :
    swap_tiles (b.map f) i j = (swap_tiles b i j).map f := by
  unfold swap_tiles
  rw [tile_map f hf, tile_map f hf, List.map_set, List.map_set]

theorem generate_moves_map (f : Nat → Nat) (hf : ∀ v, f v = 0 ↔ v = 0) (b : State) :
    generate_moves (b.map f) = (generate_moves b).map (List.map f) := by
  have h0 : f 0 = 0 := (hf 0).2 rfl
  unfold generate_moves move_up move_down move_left move_right move_tile
  rw [empty_pos_map f hf]
  simp only [swap_tiles_map f h0, List.map_append]
  congr 1
  congr 1
  congr 1
  all_goals split_ifs <;> rfl

theorem reach_lift (f : Nat → Nat) (hf : ∀ v, f v = 0 ↔ v = 0) (b : State) (a : State)
    (h : Reach (b.map f) a) : ∃ b', Reach b b' ∧ b'.map f = a := by
  induction h with
  | refl => exact ⟨b, Relation.ReflTransGen.refl, rfl⟩
  | tail _ hbc ih =>
    obtain ⟨b1, hr, rfl⟩ := ih
    rw [generate_moves_map f hf, List.mem_map] at hbc
    obtain ⟨b2, hb2, rfl⟩ := hbc
    exact ⟨b2, Relation.ReflTransGen.tail hr hb2, rfl⟩


/-! ### Every solvable board reaches the goal -/

theorem route_8_ok : stage_check [] 8 route_8 = true := by decide
theorem route_7_ok : stage_check [8] 7 route_7 = true := by decide
theorem route_6_ok : stage_check [7, 8] 6 route_6 = true := by decide
theorem route_5_ok : stage_check [6, 7, 8] 5 route_5 = true := by decide
theorem route_2_ok : stage_check [5, 6, 7, 8] 2 route_2 = true := by decide
theorem route_1_ok : stage_check [2, 5, 6, 7, 8] 1 route_1 = true := by decide
theorem route_3_ok : final_check route_3 = true := by decide


theorem follow_reach : ∀ (ks : List Nat) (a a' : State), follow a ks = some a' → Reach a a' := by
  intro ks
  induction ks with
  | nil =>
    intro a a' h
    simp only [follow, Option.some.injEq] at h
    rw [h]
    exact Relation.ReflTransGen.refl
  | cons k ks ih =>
    intro a a' h
    unfold follow at h
    cases hk : (generate_moves a)[k]? with
    | none => rw [hk] at h; cases h
    | some a1 =>
      rw [hk] at h
      exact Relation.ReflTransGen.head (List.getElem?_mem hk) (ih a1 a' h)

theorem in_place_iff (tiles : List Nat) (a : State) :
    in_place tiles a = true ↔ ∀ v ∈ tiles, tile a v = v := by
  simp [in_place, List.all_eq_true]

theorem hide_eq_zero (keep : List Nat) (v : Nat) : hide keep v = 0 ↔ v = 0 := by
  unfold hide
  split_ifs with h
  · exact Iff.rfl
  · constructor
    · intro h9; cases h9
    · intro h0; exact absurd (Or.inl h0) h

theorem hide_of_mem {keep : List Nat} {v : Nat} (h : v ∈ keep) : hide keep v = v := by
  unfold hide
  rw [if_pos (Or.inr h)]

theorem hide_eq {keep : List Nat} {v w : Nat} (hw : w ≠ 9) (h : hide keep v = w) : v = w := by
  unfold hide at h
  split_ifs at h
  · exact h
  · exact absurd h.symm hw

theorem list_eq_of_tile {l1 l2 : State} (h1 : l1.length = 9) (h2 : l2.length = 9)
    (h : ∀ i, i < 9 → tile l1 i = tile l2 i) : l1 = l2 := by
  rw [← map_tile_range h1, ← map_tile_range h2]
  apply List.map_congr_left
  intro i hi
  exact h i (List.mem_range.1 hi)

theorem tile_index_of {b : State} (hb : b.Perm (List.range 9)) {n : Nat} (hn : n < 9) :
    b.indexOf n < 9 ∧ tile b (b.indexOf n) = n := by
  have hmem : n ∈ b := hb.mem_iff.2 (List.mem_range.2 hn)
  have hlt := List.indexOf_lt_length.2 hmem
  refine ⟨by rw [perm_length hb] at hlt; exact hlt, ?_⟩
  unfold tile
  rw [List.getD_eq_getElem _ _ hlt]
  exact List.indexOf_get hlt

theorem map_hide_eq_abs (placed : List Nat) (n : Nat) (hn9 : n < 9)
    (hpl : ∀ v ∈ placed, v < 9) {b : State} (hb : b.Perm (List.range 9))
    (hP : ∀ v ∈ placed, tile b v = v) :
    b.map (hide (n :: placed)) = abs_board placed n (empty_pos b) (b.indexOf n) := by
  have hl := perm_length hb
  obtain ⟨hpn, htn⟩ := tile_index_of hb hn9
  apply list_eq_of_tile (by simp [hl]) (by simp [abs_board])
  intro i hi
  rw [tile_map _ ((hide_eq_zero _ 0).2 rfl)]
  unfold abs_board
  rw [tile_map_range _ i hi]
  by_cases h0 : i = empty_pos b
  · rw [if_pos h0, h0, tile_empty_pos hb]
    exact (hide_eq_zero _ 0).2 rfl
  · rw [if_neg h0]
    by_cases h1 : i = b.indexOf n
    · rw [if_pos h1, h1, htn]
      exact hide_of_mem (List.mem_cons_self _ _)
    · rw [if_neg h1]
      by_cases h2 : i ∈ placed
      · rw [if_pos h2, hP i h2]
        exact hide_of_mem (List.mem_cons_of_mem _ h2)
      · rw [if_neg h2]
        unfold hide
        rw [if_neg]
        rintro (hz | hm)
        · exact h0 ((tile_eq_zero_iff hb hi).1 hz)
        · rcases List.mem_cons.1 hm with hm | hm
          · exact h1 (tile_injective hb hi hpn (hm.trans htn.symm))
          · have := tile_injective hb hi (hpl _ hm) ((hP _ hm).symm ▸ rfl)
            rw [this] at h2
            exact h2 hm

theorem stage_step (placed : List Nat) (n : Nat) (table : List (List Nat))
    (hcheck : stage_check placed n table = true) (hn0 : n ≠ 0) (hn9 : n < 9)
    (hnp : n ∉ placed) (hpl : ∀ v ∈ placed, v ≠ 0 ∧ v < 9) {b : State}
    (hb : b.Perm (List.range 9)) (hP : in_place placed b = true) :
    ∃ b', Reach b b' ∧ in_place (n :: placed) b' = true := by
  rw [in_place_iff] at hP
  obtain ⟨hpn, htn⟩ := tile_index_of hb hn9
  have hp0 := empty_pos_lt hb
  have ht0 := tile_empty_pos hb
  have hne : empty_pos b ≠ b.indexOf n := by
    intro h; rw [h, htn] at ht0; exact hn0 ht0
  have h0p : empty_pos b ∉ placed := by
    intro h
    have := hP _ h
    rw [ht0] at this
    exact (hpl _ h).1 this.symm
  have hnp' : b.indexOf n ∉ placed := by
    intro h
    have := hP _ h
    rw [htn] at this
    rw [← this] at h
    exact hnp h
  have habs := map_hide_eq_abs placed n hn9 (fun v hv => (hpl v hv).2) hb hP
  unfold stage_check at hcheck
  rw [List.all_eq_true] at hcheck
  have hc := hcheck _ (List.mem_range.2 hp0)
  rw [List.all_eq_true] at hc
  have hc' := hc _ (List.mem_range.2 hpn)
  simp only [Bool.or_eq_true, decide_eq_true_eq, hne, h0p, hnp', false_or]
    at hc'
  cases hfol : follow (abs_board placed n (empty_pos b) (b.indexOf n))
      (table.getD (9 * empty_pos b + b.indexOf n) []) with
  | none => rw [hfol] at hc'; cases hc'
  | some a =>
    rw [hfol] at hc'
    have hreach := follow_reach _ _ _ hfol
    rw [← habs] at hreach
    obtain ⟨b', hr, hmap⟩ := reach_lift _ (hide_eq_zero _) b a hreach
    refine ⟨b', hr, ?_⟩
    rw [in_place_iff] at hc' ⊢
    intro v hv
    have hv9 : v ≠ 9 := by
      rcases List.mem_cons.1 hv with h | h
      · omega
      · have := (hpl v h).2; omega
    have := hc' v hv
    rw [← hmap, tile_map _ ((hide_eq_zero _ 0).2 rfl)] at this
    exact hide_eq hv9 this


theorem map_unhide_hide {b : State} (hb : b.Perm (List.range 9)) :
    (b.map (hide [3, 1, 2, 5, 6, 7, 8])).map unhide = b := by
  rw [List.map_map]
  conv_rhs => rw [← List.map_id b]
  apply List.map_congr_left
  intro v hv
  have hv9 : v < 9 := List.mem_range.1 (hb.mem_iff.1 hv)
  interval_cases v <;> decide

theorem final_step {b : State} (hb : b.Perm (List.range 9))
    (hP : in_place [1, 2, 5, 6, 7, 8] b = true) (hs : is_solvable b = true) :
    Reach b goal_board := by
  rw [in_place_iff] at hP
  obtain ⟨hpn, htn⟩ := tile_index_of hb (by decide : 3 < 9)
  have hp0 := empty_pos_lt hb
  have ht0 := tile_empty_pos hb
  have hne : empty_pos b ≠ b.indexOf 3 := by
    intro h; rw [h, htn] at ht0; cases ht0
  have h0p : empty_pos b ∉ [1, 2, 5, 6, 7, 8] := by
    intro h
    have := hP _ h
    rw [ht0] at this
    rw [← this] at h
    simp at h
  have hnp' : b.indexOf 3 ∉ [1, 2, 5, 6, 7, 8] := by
    intro h
    have := hP _ h
    rw [htn] at this
    rw [← this] at h
    simp at h
  have habs := map_hide_eq_abs [1, 2, 5, 6, 7, 8] 3 (by decide)
    (fun v hv => by simp at hv; omega) hb hP
  have hcheck := route_3_ok
  unfold final_check at hcheck
  rw [List.all_eq_true] at hcheck
  have hc := hcheck _ (List.mem_range.2 hp0)
  rw [List.all_eq_true] at hc
  have hc' := hc _ (List.mem_range.2 hpn)
  rw [← habs, map_unhide_hide hb] at hc'
  simp only [Bool.or_eq_true, decide_eq_true_eq, hne, h0p, hnp', false_or, hs, Bool.not_true,
    Bool.false_eq_true, beq_iff_eq] at hc'
  exact follow_reach _ _ _ hc'

/-- Every permutation board with an even number of inversions reaches the goal. -/
theorem solvable_reach_goal {b : State} (hb : b.Perm (List.range 9))
    (hs : is_solvable b = true) : Reach b goal_board := by
  obtain ⟨b1, r1, p1⟩ := stage_step [] 8 route_8 route_8_ok (by decide) (by decide) (by decide)
    (by decide) hb rfl
  have hb1 := (reach_perm_solvable hb r1).1
  obtain ⟨b2, r2, p2⟩ := stage_step [8] 7 route_7 route_7_ok (by decide) (by decide) (by decide)
    (by decide) hb1 p1
  have hb2 := (reach_perm_solvable hb1 r2).1
  obtain ⟨b3, r3, p3⟩ := stage_step [7, 8] 6 route_6 route_6_ok (by decide) (by decide)
    (by decide) (by decide) hb2 p2
  have hb3 := (reach_perm_solvable hb2 r3).1
  obtain ⟨b4, r4, p4⟩ := stage_step [6, 7, 8] 5 route_5 route_5_ok (by decide) (by decide)
    (by decide) (by decide) hb3 p3
  have hb4 := (reach_perm_solvable hb3 r4).1
  obtain ⟨b5, r5, p5⟩ := stage_step [5, 6, 7, 8] 2 route_2 route_2_ok (by decide) (by decide)
    (by decide) (by decide) hb4 p4
  have hb5 := (reach_perm_solvable hb4 r5).1
  obtain ⟨b6, r6, p6⟩ := stage_step [2, 5, 6, 7, 8] 1 route_1 route_1_ok (by decide) (by decide)
    (by decide) (by decide) hb5 p5
  have r : Reach b b6 := ((((r1.trans r2).trans r3).trans r4).trans r5).trans r6
  obtain ⟨hb6, hs6⟩ := reach_perm_solvable hb r
  exact r.trans (final_step hb6 p6 (hs6.trans hs))

theorem outcome_of_solvable {b : State} (hb : b.Perm (List.range 9))
    (hs : is_solvable b = true) {r : StateList} (h : search_outcome b r) :
    r ≠ [] ∧ r.getLast? = some goal_board := by
  rcases h with ⟨_, h⟩ | h
  · have := h goal_board (solvable_reach_goal hb hs)
    have hg : is_goal goal_board = true := by decide
    rw [hg] at this
    cases this
  · exact ⟨(good_path_goal hb h).1, (good_path_goal hb h).2.1⟩

/-- C4: for a permutation board `b` with `is_solvable b` true and each of the four
combinations of algorithm and heuristic comparator, the search terminates (fuel 362881
is enough) and returns a non-empty path whose last element is the goal board
`[0,1,2,3,4,5,6,7,8]`. -/
theorem solvable_search_reaches_goal (Q : PriorityQueueOps) (rnd : Nat → State)
    (C : Comparator) (_hC : C = ManhattanDistanceComparator ∨ C = NotInPlaceCountComparator)
    (b : State) (hb : b.Perm (List.range 9)) (hs : is_solvable b = true)
    (fuel : Nat) (hf : 362880 < fuel) :
    (∃ path, best_first_search Q rnd C fuel b = some path ∧ path ≠ [] ∧
      path.getLast? = some [0, 1, 2, 3, 4, 5, 6, 7, 8]) ∧
    (∃ path, a_star_search Q rnd C fuel b = some path ∧ path ≠ [] ∧
      path.getLast? = some [0, 1, 2, 3, 4, 5, 6, 7, 8]) := by
  constructor
  · obtain ⟨r, hr⟩ := best_first_search_total Q rnd C fuel hf b hb
    exact ⟨r, hr, outcome_of_solvable hb hs (best_first_search_outcome Q rnd C fuel b hb r hr)⟩
  · obtain ⟨r, hr⟩ := a_star_search_total Q rnd C fuel hf b hb
    exact ⟨r, hr, outcome_of_solvable hb hs (a_star_search_outcome Q rnd C fuel b hb r hr)⟩

/-- Witness of C4: the searches from `[8,7,6,5,4,3,2,1,0]` return a path that ends at the
goal. -/
theorem solvable_search_reaches_goal_witness :
    (∃ path, best_first_search sorted_queue (fun _ => goal_board) NotInPlaceCountComparator
        362881 [8, 7, 6, 5, 4, 3, 2, 1, 0] = some path ∧ path ≠ [] ∧
      path.getLast? = some [0, 1, 2, 3, 4, 5, 6, 7, 8]) ∧
    (∃ path, a_star_search sorted_queue (fun _ => goal_board) NotInPlaceCountComparator
        362881 [8, 7, 6, 5, 4, 3, 2, 1, 0] = some path ∧ path ≠ [] ∧
      path.getLast? = some [0, 1, 2, 3, 4, 5, 6, 7, 8]) :=
  solvable_search_reaches_goal sorted_queue (fun _ => goal_board) NotInPlaceCountComparator
    (Or.inr rfl) [8, 7, 6, 5, 4, 3, 2, 1, 0] (by decide) (by decide) 362881 (by decide)

/-! ### Scenario S4 -/

/-- C11, the claim fails: on `[1,2,3,4,0,5,6,7,8]` the method `manhattan_distance`
returns 4 and `not_in_place_count` returns 4, not 3 and 3. -/
theorem scenario_s4_not_three :
    manhattan_distance [1, 2, 3, 4, 0, 5, 6, 7, 8] = 4 ∧
    not_in_place_count [1, 2, 3, 4, 0, 5, 6, 7, 8] = 4 ∧
    ¬ (is_solvable [1, 2, 3, 4, 0, 5, 6, 7, 8] = true ∧
      manhattan_distance [1, 2, 3, 4, 0, 5, 6, 7, 8] = 3 ∧
      not_in_place_count [1, 2, 3, 4, 0, 5, 6, 7, 8] = 3) := by
  decide

/-- C11, amended: on `[1,2,3,4,0,5,6,7,8]`, `is_solvable` is true and `not_in_place_count`
returns 4 (the tiles 1, 2, 3, 4 are out of place); the row/column Manhattan distance of
the board is 6. -/
theorem scenario_s4 :
    is_solvable [1, 2, 3, 4, 0, 5, 6, 7, 8] = true ∧
    not_in_place_count [1, 2, 3, 4, 0, 5, 6, 7, 8] = 4 ∧
    manhattan_explicit [1, 2, 3, 4, 0, 5, 6, 7, 8] = 6 := by
  decide

/-! ### Path reconstruction without a link -/

theorem generate_path_loop_ends (rnd : Nat → State) (initial : State) :
    ∀ (fuel n : Nat) (s : State) (path r : StateList) (parent : ParentTable),
      generate_path_loop rnd initial fuel n s path parent = some r →
      ∃ pre, r = pre ++ path ∧ (pre ++ [s]).head? = some initial := by
  intro fuel
  induction fuel with
  | zero => intro n s path r parent h; simp [generate_path_loop] at h
  | succ fuel ih =>
    intro n s path r parent h
    unfold generate_path_loop at h
    by_cases hsi : s = initial
    · rw [if_pos hsi] at h
      exact ⟨[], by simpa using (Option.some.inj h).symm, by simp [hsi]⟩
    · rw [if_neg hsi] at h
      cases hf : table_find parent s with
      | some p =>
        rw [hf] at h
        obtain ⟨pre, hr, hh⟩ := ih n p (p :: path) r parent h
        refine ⟨pre ++ [p], by rw [hr]; simp, ?_⟩
        rw [List.head?_append_of_ne_nil _ (by simp)]
        exact hh
      | none =>
        rw [hf] at h
        obtain ⟨pre, hr, hh⟩ := ih (n + 1) (rnd n) (rnd n :: path) r _ h
        refine ⟨pre ++ [rnd n], by rw [hr]; simp, ?_⟩
        rw [List.head?_append_of_ne_nil _ (by simp)]
        exact hh

/-- C13, the claim fails: with an empty parent table and a goal different from the initial
board, `generate_path` does not return the empty path. When the default-constructed
board is the initial board it returns the two boards; when it is not (here it is the
goal itself), three units of fuel do not suffice. -/
theorem generate_path_unlinked_not_empty :
    generate_path (fun _ => [0, 1, 2, 3, 4, 5, 6, 7, 8]) 3 [0, 1, 2, 3, 4, 5, 6, 7, 8]
        [1, 0, 2, 3, 4, 5, 6, 7, 8] [] =
      some [[0, 1, 2, 3, 4, 5, 6, 7, 8], [1, 0, 2, 3, 4, 5, 6, 7, 8]] ∧
    generate_path (fun _ => [1, 0, 2, 3, 4, 5, 6, 7, 8]) 3 [0, 1, 2, 3, 4, 5, 6, 7, 8]
        [1, 0, 2, 3, 4, 5, 6, 7, 8] [] = none := by
  decide

theorem generate_path_loop_diverges (initial goal : State) (hne : goal ≠ initial) :
    ∀ (fuel n : Nat) (path : StateList) (parent : ParentTable),
      (table_find parent goal = none ∨ table_find parent goal = some goal) →
      generate_path_loop (fun _ => goal) initial fuel n goal path parent = none := by
  intro fuel
  induction fuel with
  | zero => intro n path parent _; rfl
  | succ fuel ih =>
    intro n path parent hp
    unfold generate_path_loop
    rw [if_neg hne]
    rcases hp with hp | hp
    · rw [hp]
      exact ih (n + 1) _ _ (Or.inr (by rw [table_find_assign, if_pos rfl]))
    · rw [hp]
      exact ih n _ _ (Or.inr hp)

/-- C13, amended: whatever the parent table, `generate_path` never returns the empty
path: whenever it returns, the path starts with the initial board and ends with the
goal. With an empty parent table and a goal different from the initial board it need
not return at all: when every default-constructed board is the goal itself, no amount of
fuel suffices. -/
theorem generate_path_never_empty :
    (∀ (rnd : Nat → State) (fuel : Nat) (initial goal : State) (parent : ParentTable)
      (r : StateList), generate_path rnd fuel initial goal parent = some r →
      r ≠ [] ∧ r.head? = some initial ∧ r.getLast? = some goal) ∧
    (∀ (fuel : Nat) (initial goal : State), goal ≠ initial →
      generate_path (fun _ => goal) fuel initial goal [] = none) := by
  constructor
  · intro rnd fuel initial goal parent r hret
    obtain ⟨pre, hr, hh⟩ := generate_path_loop_ends rnd initial fuel 0 goal [goal] r parent hret
    subst hr
    exact ⟨by simp, hh, by simp⟩
  · intro fuel initial goal hne
    exact generate_path_loop_diverges initial goal hne fuel 0 [goal] [] (Or.inl rfl)

/-- Witness of C13: the run with an empty parent table in which the default-constructed
board is the initial board. -/
theorem generate_path_never_empty_witness :
    ([[0, 1, 2, 3, 4, 5, 6, 7, 8], [1, 0, 2, 3, 4, 5, 6, 7, 8]] : StateList) ≠ [] ∧
    ([[0, 1, 2, 3, 4, 5, 6, 7, 8], [1, 0, 2, 3, 4, 5, 6, 7, 8]] : StateList).head? =
      some [0, 1, 2, 3, 4, 5, 6, 7, 8] ∧
    ([[0, 1, 2, 3, 4, 5, 6, 7, 8], [1, 0, 2, 3, 4, 5, 6, 7, 8]] : StateList).getLast? =
      some [1, 0, 2, 3, 4, 5, 6, 7, 8] :=
  generate_path_never_empty.1 (fun _ => [0, 1, 2, 3, 4, 5, 6, 7, 8]) 3
    [0, 1, 2, 3, 4, 5, 6, 7, 8] [1, 0, 2, 3, 4, 5, 6, 7, 8] [] _ (by decide)

/-! ### Construction of a board -/

/-- C14, the claim fails: the constructor builds a board from nine zeros, and from tiles
with a value greater than 8, although these are not permutations of `0..8`. -/
theorem constructor_accepts_invalid :
    State_from_array [0, 0, 0, 0, 0, 0, 0, 0, 0] = [0, 0, 0, 0, 0, 0, 0, 0, 0] ∧
    ¬ ([0, 0, 0, 0, 0, 0, 0, 0, 0] : List Nat).Perm (List.range 9) ∧
    State_from_array [9, 1, 2, 3, 4, 5, 6, 7, 8] = [9, 1, 2, 3, 4, 5, 6, 7, 8] ∧
    ¬ ([9, 1, 2, 3, 4, 5, 6, 7, 8] : List Nat).Perm (List.range 9) := by
  decide

/-- C14, amended: the constructor does not validate and cannot fail: from 9 given tiles
it builds the board with exactly these tiles, which is a permutation of `0..8` if and
only if the given tiles are. -/
theorem constructor_copies (arr : List Nat) (hlen : arr.length = 9) :
    State_from_array arr = arr ∧
    ((State_from_array arr).Perm (List.range 9) ↔ arr.Perm (List.range 9)) := by
  have h : State_from_array arr = arr := by
    unfold State_from_array BOARD_SIZE
    rw [← hlen]
    exact List.take_length arr
  rw [h]
  exact ⟨rfl, Iff.rfl⟩

/-- Witness of C14: the constructor applied to the tiles of the goal board. -/
theorem constructor_copies_witness :
    State_from_array [0, 1, 2, 3, 4, 5, 6, 7, 8] = [0, 1, 2, 3, 4, 5, 6, 7, 8] :=
  (constructor_copies [0, 1, 2, 3, 4, 5, 6, 7, 8] rfl).1

/-! ### Invariance of the solvability test and of the permutation property -/

/-- C18: `is_solvable` is invariant under legal moves: a successor of a permutation board
has the same value of `is_solvable`; consequently every board reached from the goal by
`generate_moves` steps has `is_solvable` true, and the goal is not reached from a
permutation board with `is_solvable` false. -/
theorem is_solvable_invariant :
    (∀ b : State, b.Perm (List.range 9) → ∀ s ∈ generate_moves b,
      is_solvable s = is_solvable b) ∧
    (∀ s : State, Reach [0, 1, 2, 3, 4, 5, 6, 7, 8] s → is_solvable s = true) ∧
    (∀ b : State, b.Perm (List.range 9) → is_solvable b = false →
      ¬ Reach b [0, 1, 2, 3, 4, 5, 6, 7, 8]) := by
  have hg : ([0, 1, 2, 3, 4, 5, 6, 7, 8] : State).Perm (List.range 9) := by decide
  have hgs : is_solvable [0, 1, 2, 3, 4, 5, 6, 7, 8] = true := by decide
  refine ⟨fun b hb s hs => is_solvable_move hb hs, ?_, ?_⟩
  · intro s hr
    rw [(reach_perm_solvable hg hr).2, hgs]
  · intro b hb hs hr
    have := (reach_perm_solvable hb hr).2
    rw [hgs, hs] at this
    cases this

/-- Witness of C18: a successor of the unsolvable board `[1,2,3,4,5,6,8,7,0]` is
unsolvable. -/
theorem is_solvable_invariant_witness :
    is_solvable [1, 2, 3, 4, 5, 6, 8, 0, 7] = is_solvable [1, 2, 3, 4, 5, 6, 8, 7, 0] :=
  is_solvable_invariant.1 [1, 2, 3, 4, 5, 6, 8, 7, 0] (by decide) [1, 2, 3, 4, 5, 6, 8, 0, 7]
    (by decide)

/-! ### Admissibility of the heuristics -/

theorem foldl_add_terms (f : Nat → Nat) (l : List Nat) (a : Nat) :
    l.foldl (fun acc i => acc + f i) a = a + (l.map f).sum := by
  induction l generalizing a with
  | nil => simp
  | cons x rest ih => rw [List.foldl_cons, ih, List.map_cons, List.sum_cons]; omega

theorem sum_range_nine (f : Nat → Nat) :
    ((List.range 9).map f).sum = ∑ i in Finset.range 9, f i := by
  simp [List.range_succ, Finset.sum_range_succ]
  ring

theorem manhattan_distance_eq_sum (b : State) :
    manhattan_distance b = ∑ i in Finset.range 9, manhattan_term i (tile b i) := by
  have hfun : (fun distance i =>
      if tile b i ≠ 0 then
        distance + ((tile_diff i (tile b i)).natAbs / 3 + (tile_diff i (tile b i)).natAbs % 3)
      else distance) = (fun distance i => distance + manhattan_term i (tile b i)) := by
    funext d i
    unfold manhattan_term
    split_ifs <;> rfl
  unfold manhattan_distance BOARD_SIZE
  rw [hfun, foldl_add_terms, sum_range_nine]
  omega

theorem not_in_place_count_eq_sum (b : State) :
    not_in_place_count b = ∑ i in Finset.range 9, misplaced_term i (tile b i) := by
  have hfun : (fun distance i =>
      if tile b i ≠ i ∧ tile b i ≠ 0 then distance + 1 else distance) =
      (fun distance i => distance + misplaced_term i (tile b i)) := by
    funext d i
    unfold misplaced_term
    split_ifs <;> rfl
  unfold not_in_place_count BOARD_SIZE
  rw [hfun, foldl_add_terms, sum_range_nine]
  omega

theorem sum_two_diff (f g : Nat → Nat) (e t : Nat) (he : e < 9) (ht : t < 9) (hne : e ≠ t)
    (h : ∀ i, i ≠ e → i ≠ t → f i = g i) :
    (∑ i in Finset.range 9, f i) + g e + g t = (∑ i in Finset.range 9, g i) + f e + f t := by
  have he' : e ∈ Finset.range 9 := Finset.mem_range.2 he
  have ht' : t ∈ (Finset.range 9).erase e := Finset.mem_erase.2 ⟨Ne.symm hne, Finset.mem_range.2 ht⟩
  have hrest : ∑ i in ((Finset.range 9).erase e).erase t, f i =
      ∑ i in ((Finset.range 9).erase e).erase t, g i := by
    apply Finset.sum_congr rfl
    intro i hi
    rw [Finset.mem_erase, Finset.mem_erase] at hi
    exact h i hi.2.1 hi.1
  have hf1 := Finset.add_sum_erase (Finset.range 9) f he'
  have hf2 := Finset.add_sum_erase ((Finset.range 9).erase e) f ht'
  have hg1 := Finset.add_sum_erase (Finset.range 9) g he'
  have hg2 := Finset.add_sum_erase ((Finset.range 9).erase e) g ht'
  omega

theorem manhattan_term_step :
    ∀ e < 9, ∀ t < 9, (t = e + 3 ∨ t + 3 = e ∨ t + 1 = e ∨ t = e + 1) →
      ∀ x < 9, manhattan_term t x ≤ manhattan_term e x + 1 := by
  decide

theorem misplaced_term_le (i v : Nat) : misplaced_term i v ≤ 1 := by
  unfold misplaced_term
  split_ifs <;> omega

theorem tile_lt {b : State} (hb : b.Perm (List.range 9)) {i : Nat} (hi : i < 9) :
    tile b i < 9 := by
  have hl := perm_length hb
  have hi' : i < b.length := by omega
  unfold tile
  rw [List.getD_eq_getElem _ _ hi']
  exact List.mem_range.1 (hb.mem_iff.1 (List.getElem_mem _))

/-- One move lowers neither heuristic by more than one. -/
theorem heuristic_step {b : State} (hb : b.Perm (List.range 9)) {s : State}
    (hs : s ∈ generate_moves b) :
    manhattan_distance b ≤ manhattan_distance s + 1 ∧
      not_in_place_count b ≤ not_in_place_count s + 1 := by
  obtain ⟨t, ht, hadj, rfl⟩ := (mem_generate_moves_iff hb s).1 hs
  have he := empty_pos_lt hb
  have h0 := tile_empty_pos hb
  have hne : empty_pos b ≠ t := by
    unfold adjacent at hadj; omega
  have hx := tile_lt hb ht
  have htile : ∀ i, i < 9 → tile (exchanged b (empty_pos b) t) i =
      if i = empty_pos b then tile b t else if i = t then tile b (empty_pos b) else tile b i :=
    fun i hi => tile_exchanged b _ _ i hi
  have hte : tile (exchanged b (empty_pos b) t) (empty_pos b) = tile b t := by
    rw [htile _ he, if_pos rfl]
  have htt : tile (exchanged b (empty_pos b) t) t = 0 := by
    rw [htile _ ht, if_neg (Ne.symm hne), if_pos rfl, h0]
  have hadj' : t = empty_pos b + 3 ∨ t + 3 = empty_pos b ∨ t + 1 = empty_pos b ∨
      t = empty_pos b + 1 := by
    unfold adjacent at hadj; tauto
  constructor
  · rw [manhattan_distance_eq_sum, manhattan_distance_eq_sum]
    have hsum := sum_two_diff (fun i => manhattan_term i (tile b i))
      (fun i => manhattan_term i (tile (exchanged b (empty_pos b) t) i)) (empty_pos b) t he ht hne
      (by
        intro i hie hit
        by_cases hi : i < 9
        · dsimp only; rw [htile i hi, if_neg hie, if_neg hit]
        · dsimp only
          have h1 : tile b i = 0 := by
            unfold tile
            rw [List.getD_eq_default]
            rw [perm_length hb]; omega
          have h2 : tile (exchanged b (empty_pos b) t) i = 0 := by
            unfold tile
            rw [List.getD_eq_default]
            rw [length_exchanged]; omega
          rw [h1, h2])
    dsimp only at hsum
    rw [hte, htt, h0] at hsum
    have hstep := manhattan_term_step (empty_pos b) he t ht hadj' (tile b t) hx
    have hz1 : manhattan_term t 0 = 0 := by simp [manhattan_term]
    have hz2 : manhattan_term (empty_pos b) 0 = 0 := by simp [manhattan_term]
    omega
  · rw [not_in_place_count_eq_sum, not_in_place_count_eq_sum]
    have hsum := sum_two_diff (fun i => misplaced_term i (tile b i))
      (fun i => misplaced_term i (tile (exchanged b (empty_pos b) t) i)) (empty_pos b) t he ht hne
      (by
        intro i hie hit
        by_cases hi : i < 9
        · dsimp only; rw [htile i hi, if_neg hie, if_neg hit]
        · dsimp only
          have h1 : tile b i = 0 := by
            unfold tile
            rw [List.getD_eq_default]
            rw [perm_length hb]; omega
          have h2 : tile (exchanged b (empty_pos b) t) i = 0 := by
            unfold tile
            rw [List.getD_eq_default]
            rw [length_exchanged]; omega
          rw [h1, h2])
    dsimp only at hsum
    rw [hte, htt, h0] at hsum
    have hstep := misplaced_term_le t (tile b t)
    have hz1 : misplaced_term t 0 = 0 := by simp [misplaced_term]
    have hz2 : misplaced_term (empty_pos b) 0 = 0 := by simp [misplaced_term]
    omega

theorem heuristic_chain : ∀ (l : StateList) (b g : State), b.Perm (List.range 9) →
    l.head? = some b → l.getLast? = some g → is_move_chain l →
    manhattan_distance b + 1 ≤ manhattan_distance g + l.length ∧
      not_in_place_count b + 1 ≤ not_in_place_count g + l.length := by
  intro l
  induction l with
  | nil => intro b g _ h; simp at h
  | cons x rest ih =>
    intro b g hb hh hl hc
    simp only [List.head?_cons, Option.some.injEq] at hh
    subst hh
    cases rest with
    | nil =>
      simp only [List.getLast?_singleton, Option.some.injEq] at hl
      subst hl
      simp
    | cons y rest' =>
      have hc' : List.Chain' (fun s t => t ∈ generate_moves s) (x :: y :: rest') := hc
      rw [List.chain'_cons] at hc'
      have hl' : (y :: rest').getLast? = some g := by
        rw [List.getLast?_cons_cons] at hl; exact hl
      have h1 := ih y g (generate_moves_perm hb hc'.1) rfl hl' hc'.2
      have h2 := heuristic_step hb hc'.1
      simp only [List.length_cons] at h1 ⊢
      omega

/-- C12: both heuristics are admissible: for a permutation board `b` and a chain of
`k + 1` boards from `b` to `[0,1,2,3,4,5,6,7,8]` in which every board after the first is
a member of `generate_moves` of the one before it, `manhattan_distance b <= k` and
`not_in_place_count b <= k`. -/
theorem heuristics_admissible (b : State) (hb : b.Perm (List.range 9)) (k : Nat)
    (chain : StateList) (hlen : chain.length = k + 1) (hfirst : chain.head? = some b)
    (hlast : chain.getLast? = some [0, 1, 2, 3, 4, 5, 6, 7, 8])
    (hmoves : is_move_chain chain) :
    manhattan_distance b ≤ k ∧ not_in_place_count b ≤ k := by
  have h := heuristic_chain chain b _ hb hfirst hlast hmoves
  have h1 : manhattan_distance [0, 1, 2, 3, 4, 5, 6, 7, 8] = 0 := by decide
  have h2 : not_in_place_count [0, 1, 2, 3, 4, 5, 6, 7, 8] = 0 := by decide
  rw [h1, h2, hlen] at h
  omega

/-- Witness of C12: the chain of two moves from `[1,2,0,3,4,5,6,7,8]` to the goal. -/
theorem heuristics_admissible_witness :
    manhattan_distance [1, 2, 0, 3, 4, 5, 6, 7, 8] ≤ 2 ∧
      not_in_place_count [1, 2, 0, 3, 4, 5, 6, 7, 8] ≤ 2 :=
  heuristics_admissible [1, 2, 0, 3, 4, 5, 6, 7, 8] (by decide) 2
    [[1, 2, 0, 3, 4, 5, 6, 7, 8], [1, 0, 2, 3, 4, 5, 6, 7, 8], [0, 1, 2, 3, 4, 5, 6, 7, 8]]
    rfl rfl rfl
    (by
      unfold is_move_chain
      simp only [List.chain'_cons, List.chain'_singleton, and_true]
      decide)

/-! ### Scenario S1 -/

theorem outcome_length_ge {b : State} (hb : b.Perm (List.range 9)) {r : StateList}
    (h : search_outcome b r) (hr : r ≠ []) :
    r.head? = some b ∧ r.getLast? = some goal_board ∧ is_move_chain r ∧
      not_in_place_count b + 1 ≤ r.length := by
  have hgood := good_of_outcome h hr
  have hlast := (good_path_goal hb hgood).2.1
  have hc := heuristic_chain r b goal_board hb hgood.1 hlast hgood.2.2.1
  have h2 : not_in_place_count goal_board = 0 := by decide
  rw [h2] at hc
  exact ⟨hgood.1, hlast, hgood.2.2.1, by omega⟩

/-- C15, the claim fails: the goal is not a successor of `[1,2,3,4,5,6,7,8,0]`, and
`a_star_search` with the Manhattan comparator does not return a path of 2 boards from
that board. -/
theorem scenario_s1_not_two_boards :
    generate_moves [1, 2, 3, 4, 5, 6, 7, 8, 0] =
      [[1, 2, 3, 4, 5, 0, 7, 8, 6], [1, 2, 3, 4, 5, 6, 7, 0, 8]] ∧
    ¬ ∃ path, a_star_search sorted_queue (fun _ => goal_board) ManhattanDistanceComparator
        362881 [1, 2, 3, 4, 5, 6, 7, 8, 0] = some path ∧ path.length = 2 := by
  refine ⟨by decide, ?_⟩
  rintro ⟨path, hret, hlen⟩
  have hb : ([1, 2, 3, 4, 5, 6, 7, 8, 0] : State).Perm (List.range 9) := by decide
  have hne : path ≠ [] := by
    intro h; rw [h] at hlen; cases hlen
  have h := (outcome_length_ge hb (a_star_search_outcome _ _ _ _ _ hb path hret) hne).2.2.2
  have h8 : not_in_place_count [1, 2, 3, 4, 5, 6, 7, 8, 0] = 8 := by decide
  omega

/-- C15, amended: on `[1,2,3,4,5,6,7,8,0]`, `is_solvable` is true and `a_star_search`
with the Manhattan comparator returns a path from that board whose last element is the
goal `[0,1,2,3,4,5,6,7,8]`; the path has at least 9 boards (at least 8 moves). -/
theorem scenario_s1 (Q : PriorityQueueOps) (rnd : Nat → State) (fuel : Nat)
    (hf : 362880 < fuel) :
    is_solvable [1, 2, 3, 4, 5, 6, 7, 8, 0] = true ∧
    ∃ path, a_star_search Q rnd ManhattanDistanceComparator fuel [1, 2, 3, 4, 5, 6, 7, 8, 0] =
        some path ∧
      path.head? = some [1, 2, 3, 4, 5, 6, 7, 8, 0] ∧
      path.getLast? = some [0, 1, 2, 3, 4, 5, 6, 7, 8] ∧ is_move_chain path ∧
      9 ≤ path.length := by
  have hb : ([1, 2, 3, 4, 5, 6, 7, 8, 0] : State).Perm (List.range 9) := by decide
  have hs : is_solvable [1, 2, 3, 4, 5, 6, 7, 8, 0] = true := by decide
  refine ⟨hs, ?_⟩
  obtain ⟨r, hr⟩ := a_star_search_total Q rnd ManhattanDistanceComparator fuel hf _ hb
  have ho := a_star_search_outcome Q rnd ManhattanDistanceComparator fuel _ hb r hr
  have hne := (outcome_of_solvable hb hs ho).1
  obtain ⟨h1, h2, h3, h4⟩ := outcome_length_ge hb ho hne
  have h8 : not_in_place_count [1, 2, 3, 4, 5, 6, 7, 8, 0] = 8 := by decide
  exact ⟨r, hr, h1, h2, h3, by omega⟩

/-- Witness of C15: the run of `a_star_search` with 362881 units of fuel. -/
theorem scenario_s1_witness :
    is_solvable [1, 2, 3, 4, 5, 6, 7, 8, 0] = true ∧
    ∃ path, a_star_search sorted_queue (fun _ => goal_board) ManhattanDistanceComparator 362881
        [1, 2, 3, 4, 5, 6, 7, 8, 0] = some path ∧
      path.head? = some [1, 2, 3, 4, 5, 6, 7, 8, 0] ∧
      path.getLast? = some [0, 1, 2, 3, 4, 5, 6, 7, 8] ∧ is_move_chain path ∧
      9 ≤ path.length :=
  scenario_s1 sorted_queue (fun _ => goal_board) 362881 (by decide)

/-! ### The loop of Best-First search, iteration by iteration -/

/-- The loop function is the iteration, repeated. -/
theorem best_first_loop_iter (Q : PriorityQueueOps) (rnd : Nat → State) (C : Comparator)
    (initial : State) (path_fuel fuel : Nat) (vars : BestFirstVars) :
    best_first_loop Q rnd C initial path_fuel (fuel + 1) vars.1 vars.2.1 vars.2.2 =
      match best_first_iter Q C vars with
      | some next => best_first_loop Q rnd C initial path_fuel fuel next.1 next.2.1 next.2.2
      | none =>
        match vars.1 with
        | [] => some []
        | current :: _ => generate_path rnd path_fuel initial current vars.2.1 := by
  obtain ⟨queue, parent, visited⟩ := vars
  cases queue with
  | nil => simp [best_first_loop, best_first_iter]
  | cons current rest =>
    by_cases hg : is_goal current = true
    · simp [best_first_loop, best_first_iter, hg]
    · simp [best_first_loop, best_first_iter, hg]

theorem table_find_eq_none_iff {α : Type} (t : List (State × α)) (k : State) :
    table_find t k = none ↔ k ∉ t.map Prod.fst := by
  induction t with
  | nil => simp [table_find]
  | cons e rest ih =>
    obtain ⟨k0, v0⟩ := e
    unfold table_find
    by_cases h : k0 = k
    · simp [h]
    · simp only [h, if_false, ih, List.map_cons, List.mem_cons, not_or]
      exact ⟨fun hr => ⟨Ne.symm h, hr⟩, fun hr => hr.2⟩

theorem table_assign_absent {α : Type} (t : List (State × α)) (k : State) (v : α)
    (h : k ∉ t.map Prod.fst) : table_assign t k v = t ++ [(k, v)] := by
  induction t with
  | nil => rfl
  | cons e rest ih =>
    obtain ⟨k0, v0⟩ := e
    simp only [List.map_cons, List.mem_cons, not_or] at h
    unfold table_assign
    rw [if_neg (Ne.symm h.1), ih h.2]
    rfl

theorem popped_before_succ (Q : PriorityQueueOps) (C : Comparator) (initial : State) (n : Nat)
    (current : State) (rest : List State) (parent : ParentTable) (visited : StateSet)
    (h : best_first_after Q C initial n = some (current :: rest, parent, visited)) :
    best_first_popped_before Q C initial (n + 1) =
      best_first_popped_before Q C initial n ++ [current] := by
  unfold best_first_popped_before
  rw [List.range_succ, List.filterMap_append]
  congr 1
  simp [best_first_popped, h]

/-- A visit leaves the variables alone or pushes a board that was never pushed and
appends its parent entry. -/
theorem pushed_once_visit (Q : PriorityQueueOps) (cmp : State → State → Bool)
    (initial current succ : State) (popped : List State) (vars : BestFirstVars)
    (h : PushedOnce initial popped vars) (hcur : current ∈ popped)
    (hsucc : succ ∈ generate_moves current) :
    PushedOnce initial popped (best_first_visit Q cmp current vars succ) ∧
      vars.2.1 <+: (best_first_visit Q cmp current vars succ).2.1 ∧
      vars.2.2 <+: (best_first_visit Q cmp current vars succ).2.2 := by
  obtain ⟨queue, parent, visited⟩ := vars
  obtain ⟨h1, h2, h3, h4, h5, h6⟩ := h
  dsimp only at h1 h2 h3 h4 h5 h6
  by_cases hc : set_contains visited succ = true
  · have e : best_first_visit Q cmp current (queue, parent, visited) succ =
        (queue, parent, visited) := by
      simp [best_first_visit, hc]
    rw [e]
    exact ⟨⟨h1, h2, h3, h4, h5, h6⟩, List.prefix_refl _, List.prefix_refl _⟩
  · have e : best_first_visit Q cmp current (queue, parent, visited) succ =
        (Q.push cmp queue succ, table_assign parent succ current, set_insert visited succ) := by
      simp [best_first_visit, hc]
    rw [e]
    dsimp only
    have hnv : succ ∉ visited := by simpa [set_contains] using hc
    have hvis : set_insert visited succ = visited ++ [succ] := by
      unfold set_insert
      rw [if_neg hnv]
    have hne : visited ≠ [] := by
      intro h; rw [h] at h4; cases h4
    have hkey : succ ∉ parent.map Prod.fst := by
      rw [h3]
      exact fun h => hnv (List.mem_of_mem_tail h)
    have hpar := table_assign_absent parent succ current hkey
    have hperm : (popped ++ Q.push cmp queue succ).Perm (succ :: (popped ++ queue)) :=
      ((Q.push_perm cmp queue succ).append_left popped).trans List.perm_middle
    have hnf : succ ∉ popped ++ queue := fun h => hnv ((h2 succ).1 h)
    rw [hvis, hpar]
    refine ⟨⟨?_, ?_, ?_, ?_, ?_, ?_⟩, List.prefix_append _ _, List.prefix_append _ _⟩
    · exact hperm.nodup_iff.2 (List.nodup_cons.2 ⟨hnf, h1⟩)
    · intro s
      rw [hperm.mem_iff, List.mem_cons, h2 s, List.mem_append, List.mem_singleton]
      tauto
    · show (parent ++ [(succ, current)]).map Prod.fst = (visited ++ [succ]).tail
      rw [List.map_append, h3, List.tail_append_of_ne_nil hne]
      rfl
    · rw [List.head?_append_of_ne_nil _ hne]
      exact h4
    · exact List.Nodup.append h5 (List.nodup_singleton _)
        (by simp only [List.disjoint_singleton]; exact hnv)
    · intro e he
      rcases List.mem_append.1 he with he | he
      · exact h6 e he
      · rw [List.mem_singleton.1 he]
        exact ⟨hcur, hsucc⟩

theorem pushed_once_fold (Q : PriorityQueueOps) (cmp : State → State → Bool)
    (initial current : State) (popped : List State) (hcur : current ∈ popped) :
    ∀ (succs : List State) (vars : BestFirstVars),
      (∀ t ∈ succs, t ∈ generate_moves current) → PushedOnce initial popped vars →
      PushedOnce initial popped (succs.foldl (best_first_visit Q cmp current) vars) ∧
        vars.2.1 <+: (succs.foldl (best_first_visit Q cmp current) vars).2.1 ∧
        vars.2.2 <+: (succs.foldl (best_first_visit Q cmp current) vars).2.2 := by
  intro succs
  induction succs with
  | nil => intro vars _ h; exact ⟨h, List.prefix_refl _, List.prefix_refl _⟩
  | cons x rest ih =>
    intro vars hmem h
    obtain ⟨k1, k2, k3⟩ := pushed_once_visit Q cmp initial current x popped vars h hcur
      (hmem x (List.mem_cons_self _ _))
    obtain ⟨j1, j2, j3⟩ := ih _ (fun t ht => hmem t (List.mem_cons_of_mem _ ht)) k1
    rw [List.foldl_cons]
    exact ⟨j1, k2.trans j2, k3.trans j3⟩

/-- One iteration keeps the bookkeeping invariant, with the popped board added to the
popped boards, and only appends to the parent table and to `visited`. -/
theorem pushed_once_iter (Q : PriorityQueueOps) (C : Comparator) (initial current : State)
    (rest popped : List State) (parent : ParentTable) (visited : StateSet)
    (h : PushedOnce initial popped (current :: rest, parent, visited)) :
    PushedOnce initial (popped ++ [current])
        ((generate_moves current).foldl (best_first_visit Q (C none) current)
          (Q.pop (C none) (current :: rest), parent, visited)) ∧
      parent <+: ((generate_moves current).foldl (best_first_visit Q (C none) current)
          (Q.pop (C none) (current :: rest), parent, visited)).2.1 ∧
      visited <+: ((generate_moves current).foldl (best_first_visit Q (C none) current)
          (Q.pop (C none) (current :: rest), parent, visited)).2.2 := by
  obtain ⟨h1, h2, h3, h4, h5, h6⟩ := h
  dsimp only at h1 h2 h3 h4 h5 h6
  have hperm : ((popped ++ [current]) ++ Q.pop (C none) (current :: rest)).Perm
      (popped ++ current :: rest) := by
    rw [List.append_assoc]
    exact ((Q.pop_perm (C none) current rest).cons current).append_left popped
  have hmid : PushedOnce initial (popped ++ [current])
      (Q.pop (C none) (current :: rest), parent, visited) := by
    refine ⟨hperm.nodup_iff.2 h1, fun s => by rw [hperm.mem_iff]; exact h2 s, h3, h4, h5, ?_⟩
    intro e he
    exact ⟨List.mem_append_left _ (h6 e he).1, (h6 e he).2⟩
  exact pushed_once_fold Q (C none) initial current (popped ++ [current]) (by simp)
    (generate_moves current) _ (fun t ht => ht) hmid

theorem pushed_once_after (Q : PriorityQueueOps) (C : Comparator) (initial : State) :
    ∀ (n : Nat) (vars : BestFirstVars), best_first_after Q C initial n = some vars →
      PushedOnce initial (best_first_popped_before Q C initial n) vars := by
  intro n
  induction n with
  | zero =>
    intro vars h
    simp only [best_first_after, Option.some.injEq] at h
    subst h
    unfold best_first_start
    rw [push_empty]
    refine ⟨?_, ?_, ?_, ?_, ?_, ?_⟩ <;>
      simp [best_first_popped_before, set_insert]
  | succ n ih =>
    intro vars h
    simp only [best_first_after] at h
    cases hprev : best_first_after Q C initial n with
    | none => rw [hprev] at h; cases h
    | some prev =>
      rw [hprev, Option.some_bind] at h
      have hinv := ih prev hprev
      obtain ⟨queue, parent, visited⟩ := prev
      cases queue with
      | nil => simp [best_first_iter] at h
      | cons current rest =>
        by_cases hg : is_goal current = true
        · simp [best_first_iter, hg] at h
        · simp only [best_first_iter, hg, Bool.false_eq_true, if_false,
            Option.some.injEq] at h
          rw [← h, popped_before_succ Q C initial n current rest parent visited hprev]
          exact (pushed_once_iter Q C initial current rest _ parent visited hinv).1

/-- The parent table and the visited set only grow by appending from one entry of the
loop to a later one. -/
theorem best_first_after_prefix (Q : PriorityQueueOps) (C : Comparator) (initial : State) :
    ∀ (n : Nat) (vars : BestFirstVars), best_first_after Q C initial n = some vars →
      ∀ (m : Nat) (early : BestFirstVars), m ≤ n →
        best_first_after Q C initial m = some early →
        early.2.1 <+: vars.2.1 ∧ early.2.2 <+: vars.2.2 := by
  intro n
  induction n with
  | zero =>
    intro vars h m early hm hearly
    have hm0 : m = 0 := by omega
    subst hm0
    rw [h] at hearly
    rw [Option.some.inj hearly]
    exact ⟨List.prefix_refl _, List.prefix_refl _⟩
  | succ n ih =>
    intro vars h m early hm hearly
    by_cases hmn : m = n + 1
    · subst hmn
      rw [h] at hearly
      rw [Option.some.inj hearly]
      exact ⟨List.prefix_refl _, List.prefix_refl _⟩
    · simp only [best_first_after] at h
      cases hprev : best_first_after Q C initial n with
      | none => rw [hprev] at h; cases h
      | some prev =>
        rw [hprev, Option.some_bind] at h
        obtain ⟨e1, e2⟩ := ih prev hprev m early (by omega) hearly
        have hinv := pushed_once_after Q C initial n prev hprev
        obtain ⟨queue, parent, visited⟩ := prev
        cases queue with
        | nil => simp [best_first_iter] at h
        | cons current rest =>
          by_cases hg : is_goal current = true
          · simp [best_first_iter, hg] at h
          · simp only [best_first_iter, hg, Bool.false_eq_true, if_false,
              Option.some.injEq] at h
            have hstep := pushed_once_iter Q C initial current rest _ parent visited hinv
            rw [← h]
            exact ⟨e1.trans hstep.2.1, e2.trans hstep.2.2⟩

/-- C16: in `best_first_search` from a permutation board, at every entry of the loop
the boards pushed so far, which are the boards popped so far and the boards of the
queue, are exactly the boards of the visited set and none of them occurs twice, so no
board has been pushed twice. The parent table has exactly one entry for every visited
board other than the initial board, in the order of discovery, and none for the initial
board; the parent of an entry is the popped board that discovered the key. The table
of an earlier entry of the loop is a prefix of the table of a later one, so an entry,
once written, is never written again. -/
theorem best_first_pushed_once (Q : PriorityQueueOps) (C : Comparator)
    (_hC : C = ManhattanDistanceComparator ∨ C = NotInPlaceCountComparator)
    (b : State) (_hb : b.Perm (List.range 9)) (n : Nat) (queue : List State)
    (parent : ParentTable) (visited : StateSet)
    (hrun : best_first_after Q C b n = some (queue, parent, visited)) :
    (best_first_popped_before Q C b n ++ queue).Nodup ∧
    (∀ s, s ∈ best_first_popped_before Q C b n ++ queue ↔ s ∈ visited) ∧
    visited.Nodup ∧ visited.head? = some b ∧
    parent.map Prod.fst = visited.tail ∧ table_find parent b = none ∧
    (∀ s p, (s, p) ∈ parent →
      p ∈ best_first_popped_before Q C b n ∧ s ∈ generate_moves p) ∧
    (∀ (m : Nat) (queue0 : List State) (parent0 : ParentTable) (visited0 : StateSet),
      m ≤ n → best_first_after Q C b m = some (queue0, parent0, visited0) →
      parent0 <+: parent ∧ visited0 <+: visited) := by
  have h := pushed_once_after Q C b n _ hrun
  obtain ⟨h1, h2, h3, h4, h5, h6⟩ := h
  dsimp only at h1 h2 h3 h4 h5 h6
  refine ⟨h1, h2, h5, h4, h3, ?_, fun s p hsp => h6 (s, p) hsp, ?_⟩
  · rw [table_find_eq_none_iff, h3]
    intro hmem
    cases visited with
    | nil => cases h4
    | cons v rest =>
      simp only [List.head?_cons, Option.some.injEq] at h4
      subst h4
      exact (List.nodup_cons.1 h5).1 hmem
  · intro m queue0 parent0 visited0 hm hearly
    exact best_first_after_prefix Q C b n _ hrun m _ hm hearly

/-- Witness of C16: the variables after one iteration from `[1,2,0,3,4,5,6,7,8]`: the
initial board was popped, two boards were pushed and their parent entries appended. -/
theorem best_first_pushed_once_witness :
    (best_first_popped_before sorted_queue ManhattanDistanceComparator
        [1, 2, 0, 3, 4, 5, 6, 7, 8] 1 ++
      [[1, 0, 2, 3, 4, 5, 6, 7, 8], [1, 2, 5, 3, 4, 0, 6, 7, 8]]).Nodup ∧
    ([([1, 2, 5, 3, 4, 0, 6, 7, 8], [1, 2, 0, 3, 4, 5, 6, 7, 8]),
      ([1, 0, 2, 3, 4, 5, 6, 7, 8], [1, 2, 0, 3, 4, 5, 6, 7, 8])] : ParentTable).map Prod.fst =
      ([[1, 2, 0, 3, 4, 5, 6, 7, 8], [1, 2, 5, 3, 4, 0, 6, 7, 8], [1, 0, 2, 3, 4, 5, 6, 7, 8]] :
        StateSet).tail :=
  have h := best_first_pushed_once sorted_queue ManhattanDistanceComparator (Or.inl rfl)
    [1, 2, 0, 3, 4, 5, 6, 7, 8] (by decide) 1
    [[1, 0, 2, 3, 4, 5, 6, 7, 8], [1, 2, 5, 3, 4, 0, 6, 7, 8]]
    [([1, 2, 5, 3, 4, 0, 6, 7, 8], [1, 2, 0, 3, 4, 5, 6, 7, 8]),
      ([1, 0, 2, 3, 4, 5, 6, 7, 8], [1, 2, 0, 3, 4, 5, 6, 7, 8])]
    [[1, 2, 0, 3, 4, 5, 6, 7, 8], [1, 2, 5, 3, 4, 0, 6, 7, 8], [1, 0, 2, 3, 4, 5, 6, 7, 8]]
    (by rfl)
  ⟨h.1, h.2.2.2.2.1⟩

/-- The search is the loop run from the start variables. -/
theorem best_first_search_eq_start (Q : PriorityQueueOps) (rnd : Nat → State) (C : Comparator)
    (fuel : Nat) (initial : State) :
    best_first_search Q rnd C fuel initial =
      best_first_loop Q rnd C initial fuel fuel (best_first_start Q C initial).1
        (best_first_start Q C initial).2.1 (best_first_start Q C initial).2.2 := rfl

/-! ### The order of the pops of Best-First search -/

theorem ordered_insert_sorted (key : State → Nat) (s : State) :
    ∀ queue : List State, queue.Pairwise (fun a b => key a ≤ key b) →
      (ordered_insert (fun a b => decide (key a > key b)) s queue).Pairwise
        (fun a b => key a ≤ key b) := by
  intro queue
  induction queue with
  | nil => intro _; simp [ordered_insert]
  | cons t rest ih =>
    intro h
    rw [List.pairwise_cons] at h
    unfold ordered_insert
    by_cases hts : key t > key s
    · simp only [hts, decide_True, if_true]
      rw [List.pairwise_cons]
      refine ⟨?_, List.pairwise_cons.2 h⟩
      intro x hx
      rcases List.mem_cons.1 hx with rfl | hx
      · omega
      · have := h.1 x hx; omega
    · simp only [hts, decide_False, Bool.false_eq_true, if_false]
      rw [List.pairwise_cons]
      refine ⟨?_, ih h.2⟩
      intro x hx
      have hx' := (sorted_queue.push_perm (fun a b => decide (key a > key b)) rest s).mem_iff.1 hx
      rcases List.mem_cons.1 hx' with rfl | hx'
      · omega
      · exact h.1 x hx'

/-- The queue `sorted_queue` keeps a board of least key on top. -/
theorem sorted_queue_keeps_best (key : State → Nat) :
    keeps_best_on_top sorted_queue (fun a b => decide (key a > key b)) := by
  refine ⟨fun queue => queue.Pairwise (fun a b => key a ≤ key b), List.Pairwise.nil, ?_, ?_, ?_⟩
  · intro queue s h
    exact ordered_insert_sorted key s queue h
  · intro s queue h
    exact (List.pairwise_cons.1 h).2
  · intro s queue h t ht
    have := (List.pairwise_cons.1 h).1 t ht
    simp only [decide_eq_false_iff_not]
    omega

theorem manhattan_comparator_none :
    ManhattanDistanceComparator none =
      fun a b => decide (manhattan_distance a > manhattan_distance b) := by
  funext a b
  simp [ManhattanDistanceComparator]

theorem not_in_place_comparator_none :
    NotInPlaceCountComparator none =
      fun a b => decide (not_in_place_count a > not_in_place_count b) := by
  funext a b
  simp [NotInPlaceCountComparator]

theorem best_first_fold_valid (Q : PriorityQueueOps) (cmp : State → State → Bool)
    (current : State) (valid : List State → Prop)
    (hpush : ∀ queue s, valid queue → valid (Q.push cmp queue s)) :
    ∀ (succs : List State) (vars : BestFirstVars), valid vars.1 →
      valid (succs.foldl (best_first_visit Q cmp current) vars).1 := by
  intro succs
  induction succs with
  | nil => intro vars h; exact h
  | cons x rest ih =>
    intro vars h
    rw [List.foldl_cons]
    apply ih
    unfold best_first_visit
    split_ifs
    · exact h
    · exact hpush _ _ h

theorem best_first_after_valid (Q : PriorityQueueOps) (C : Comparator) (initial : State)
    (valid : List State → Prop) (hnil : valid [])
    (hpush : ∀ queue s, valid queue → valid (Q.push (C none) queue s))
    (hpop : ∀ s queue, valid (s :: queue) → valid (Q.pop (C none) (s :: queue))) :
    ∀ (n : Nat) (vars : BestFirstVars), best_first_after Q C initial n = some vars →
      valid vars.1 := by
  intro n
  induction n with
  | zero =>
    intro vars h
    simp only [best_first_after, Option.some.injEq] at h
    subst h
    exact hpush _ _ hnil
  | succ n ih =>
    intro vars h
    simp only [best_first_after] at h
    cases hprev : best_first_after Q C initial n with
    | none => rw [hprev] at h; cases h
    | some prev =>
      rw [hprev, Option.some_bind] at h
      have hv := ih prev hprev
      obtain ⟨queue, parent, visited⟩ := prev
      cases queue with
      | nil => simp [best_first_iter] at h
      | cons current rest =>
        by_cases hg : is_goal current = true
        · simp [best_first_iter, hg] at h
        · simp only [best_first_iter, hg, Bool.false_eq_true, if_false,
            Option.some.injEq] at h
          rw [← h]
          exact best_first_fold_valid Q (C none) current valid hpush _ _ (hpop _ _ hv)

/-- C17, the claim fails: from `[1,2,0,3,4,5,6,7,8]` with the Manhattan comparator the
first board popped is the initial board, of heuristic value 2, and the second board
popped is `[1,0,2,3,4,5,6,7,8]`, of heuristic value 1. -/
theorem best_first_pops_decrease :
    best_first_popped sorted_queue ManhattanDistanceComparator [1, 2, 0, 3, 4, 5, 6, 7, 8] 0 =
      some [1, 2, 0, 3, 4, 5, 6, 7, 8] ∧
    best_first_popped sorted_queue ManhattanDistanceComparator [1, 2, 0, 3, 4, 5, 6, 7, 8] 1 =
      some [1, 0, 2, 3, 4, 5, 6, 7, 8] ∧
    manhattan_distance [1, 2, 0, 3, 4, 5, 6, 7, 8] = 2 ∧
    manhattan_distance [1, 0, 2, 3, 4, 5, 6, 7, 8] = 1 ∧
    ¬ (manhattan_distance [1, 2, 0, 3, 4, 5, 6, 7, 8] ≤
      manhattan_distance [1, 0, 2, 3, 4, 5, 6, 7, 8]) := by
  refine ⟨by rfl, by rfl, by decide, by decide, by decide⟩

/-- C17, amended: in `best_first_search` from a permutation board, with either
heuristic `h` and a priority queue that keeps a best board on top, every board popped
from the frontier has the least `h` value of the frontier at that time: `h(c) <= h(t)`
for the popped board `c` and every board `t` that stays in the frontier. -/
theorem best_first_pop_is_least (Q : PriorityQueueOps) (C : Comparator)
    (hQ : keeps_best_on_top Q (C none)) (b : State) (_hb : b.Perm (List.range 9)) (n : Nat)
    (current : State) (rest : List State) (parent : ParentTable) (visited : StateSet)
    (hrun : best_first_after Q C b n = some (current :: rest, parent, visited)) :
    (C = ManhattanDistanceComparator →
      ∀ t ∈ rest, manhattan_distance current ≤ manhattan_distance t) ∧
    (C = NotInPlaceCountComparator →
      ∀ t ∈ rest, not_in_place_count current ≤ not_in_place_count t) := by
  obtain ⟨valid, hnil, hpush, hpop, htop⟩ := hQ
  have hv := best_first_after_valid Q C b valid hnil hpush hpop n _ hrun
  constructor
  · intro hC t ht
    have := htop current rest hv t ht
    rw [hC, manhattan_comparator_none] at this
    simpa using this
  · intro hC t ht
    have := htop current rest hv t ht
    rw [hC, not_in_place_comparator_none] at this
    simpa using this

/-- Witness of C17: the frontier after one iteration from `[1,2,0,3,4,5,6,7,8]`. -/
theorem best_first_pop_is_least_witness :
    manhattan_distance [1, 0, 2, 3, 4, 5, 6, 7, 8] ≤
      manhattan_distance [1, 2, 5, 3, 4, 0, 6, 7, 8] :=
  (best_first_pop_is_least sorted_queue ManhattanDistanceComparator
    (by rw [manhattan_comparator_none]; exact sorted_queue_keeps_best manhattan_distance)
    [1, 2, 0, 3, 4, 5, 6, 7, 8] (by decide) 1 [1, 0, 2, 3, 4, 5, 6, 7, 8]
    [[1, 2, 5, 3, 4, 0, 6, 7, 8]]
    [([1, 2, 5, 3, 4, 0, 6, 7, 8], [1, 2, 0, 3, 4, 5, 6, 7, 8]),
      ([1, 0, 2, 3, 4, 5, 6, 7, 8], [1, 2, 0, 3, 4, 5, 6, 7, 8])]
    [[1, 2, 0, 3, 4, 5, 6, 7, 8], [1, 2, 5, 3, 4, 0, 6, 7, 8], [1, 0, 2, 3, 4, 5, 6, 7, 8]]
    (by rfl)).1 rfl [1, 2, 5, 3, 4, 0, 6, 7, 8] (List.mem_singleton_self _)

/-! ### The loop of A* search, iteration by iteration -/

/-- The loop function is the iteration, repeated. -/
theorem a_star_loop_iter (Q : PriorityQueueOps) (rnd : Nat → State) (C : Comparator)
    (initial : State) (path_fuel fuel : Nat) (vars : AStarVars) :
    a_star_loop Q rnd C initial path_fuel (fuel + 1) vars.1 vars.2.1 vars.2.2 =
      match a_star_iter Q C vars with
      | some next => a_star_loop Q rnd C initial path_fuel fuel next.1 next.2.1 next.2.2
      | none =>
        match vars.1 with
        | [] => some []
        | current :: _ => generate_path rnd path_fuel initial current vars.2.1 := by
  obtain ⟨queue, parent, moves⟩ := vars
  cases queue with
  | nil => simp [a_star_loop, a_star_iter]
  | cons current rest =>
    by_cases hg : is_goal current = true
    · simp [a_star_loop, a_star_iter, hg]
    · simp [a_star_loop, a_star_iter, a_star_midway, hg]

/-- The search is the loop run from the start variables. -/
theorem a_star_search_eq_start (Q : PriorityQueueOps) (rnd : Nat → State) (C : Comparator)
    (fuel : Nat) (initial : State) :
    a_star_search Q rnd C fuel initial =
      a_star_loop Q rnd C initial fuel fuel (a_star_start Q C initial).1
        (a_star_start Q C initial).2.1 (a_star_start Q C initial).2.2 := rfl

theorem a_star_mid (Q : PriorityQueueOps) (C : Comparator) (initial current : State)
    (rest : List State) (parent : ParentTable) (moves : CostTable)
    (hinv : a_star_inv initial [] (current :: rest, parent, moves)) :
    a_star_inv initial [current]
      (Q.pop (C (some moves)) (current :: rest), parent, cost_touch moves current) := by
  have hcur : cost_seen moves current = true := hinv.seen_queue current (List.mem_cons_self _ _)
  rw [cost_touch_of_seen hcur]
  have hpop := Q.pop_perm (C (some moves)) current rest
  refine ⟨hinv.seen_initial, ?_, ?_, hinv.linked, ?_, hinv.perm, hinv.rank_lt⟩
  · intro s hs
    rw [List.mem_singleton.1 hs]
    exact hcur
  · intro s hs
    exact hinv.seen_queue s (List.mem_cons_of_mem _ (hpop.mem_iff.1 hs))
  · intro s hs hq hp
    refine hinv.closed s hs ?_ (List.not_mem_nil _)
    intro h
    rcases List.mem_cons.1 h with h | h
    · exact hp (List.mem_singleton.2 h)
    · exact hq (hpop.mem_iff.2 h)

/-- The facts about the initial board and the parent table that a visit maintains. -/
theorem a_star_visit_extra (Q : PriorityQueueOps) (C : Comparator)
    (initial current succ : State) (succ_depth : Nat) (vars : AStarVars)
    (hd : 1 ≤ succ_depth) (hcur : cost_seen vars.2.2 current = true)
    (h0 : table_find vars.2.2 initial = some 0) (hp : table_find vars.2.1 initial = none)
    (hps : parent_seen vars.2.1 (cost_seen vars.2.2)) :
    cost_seen (a_star_visit Q C current succ_depth vars succ).2.2 current = true ∧
    table_find (a_star_visit Q C current succ_depth vars succ).2.2 initial = some 0 ∧
    table_find (a_star_visit Q C current succ_depth vars succ).2.1 initial = none ∧
    parent_seen (a_star_visit Q C current succ_depth vars succ).2.1
      (cost_seen (a_star_visit Q C current succ_depth vars succ).2.2) := by
  obtain ⟨queue, parent, moves⟩ := vars
  dsimp only at hcur h0 hp hps
  have key : ∀ c : Option Nat, table_find moves succ = c → succ ≠ initial →
      cost_seen (table_assign moves succ succ_depth) current = true ∧
      table_find (table_assign moves succ succ_depth) initial = some 0 ∧
      table_find (table_assign parent succ current) initial = none ∧
      parent_seen (table_assign parent succ current)
        (cost_seen (table_assign moves succ succ_depth)) := by
    intro c _ hne
    have hmono : ∀ s, cost_seen moves s = true →
        cost_seen (table_assign moves succ succ_depth) s = true := by
      intro s hs; rw [cost_seen_assign, hs]; rfl
    refine ⟨hmono _ hcur, ?_, ?_, ?_⟩
    · rw [table_find_assign, if_neg hne]; exact h0
    · rw [table_find_assign, if_neg hne]; exact hp
    · intro s p hsp
      rw [table_find_assign] at hsp
      by_cases hs : succ = s
      · rw [if_pos hs] at hsp
        rw [← Option.some.inj hsp, ← hs]
        exact ⟨by rw [cost_seen_assign]; simp, hmono _ hcur⟩
      · rw [if_neg hs] at hsp
        exact ⟨hmono _ (hps s p hsp).1, hmono _ (hps s p hsp).2⟩
  cases hf : table_find moves succ with
  | none =>
    have e : a_star_visit Q C current succ_depth (queue, parent, moves) succ =
        (Q.push (C (some (table_assign moves succ succ_depth))) queue succ,
          table_assign parent succ current, table_assign moves succ succ_depth) := by
      simp [a_star_visit, hf]
    rw [e]
    exact key none hf (by intro h; rw [h, h0] at hf; cases hf)
  | some c =>
    by_cases hgt : c > succ_depth
    · have e : a_star_visit Q C current succ_depth (queue, parent, moves) succ =
          (queue, table_assign parent succ current, table_assign moves succ succ_depth) := by
        simp [a_star_visit, hf, hgt]
      rw [e]
      exact key (some c) hf (by
        intro h
        rw [h, h0] at hf
        have := Option.some.inj hf
        omega)
    · have e : a_star_visit Q C current succ_depth (queue, parent, moves) succ =
          (queue, parent, moves) := by
        simp [a_star_visit, hf, hgt]
      rw [e]
      exact ⟨hcur, h0, hp, hps⟩

theorem a_star_fold_extra (Q : PriorityQueueOps) (C : Comparator)
    (initial current : State) (succ_depth : Nat) (hd : 1 ≤ succ_depth) :
    ∀ (succs : List State) (vars : AStarVars),
      cost_seen vars.2.2 current = true → table_find vars.2.2 initial = some 0 →
      table_find vars.2.1 initial = none → parent_seen vars.2.1 (cost_seen vars.2.2) →
      table_find (succs.foldl (a_star_visit Q C current succ_depth) vars).2.2 initial = some 0 ∧
      table_find (succs.foldl (a_star_visit Q C current succ_depth) vars).2.1 initial = none ∧
      parent_seen (succs.foldl (a_star_visit Q C current succ_depth) vars).2.1
        (cost_seen (succs.foldl (a_star_visit Q C current succ_depth) vars).2.2) := by
  intro succs
  induction succs with
  | nil => intro vars _ h0 hp hps; exact ⟨h0, hp, hps⟩
  | cons x rest ih =>
    intro vars hcur h0 hp hps
    obtain ⟨k1, k2, k3, k4⟩ :=
      a_star_visit_extra Q C initial current x succ_depth vars hd hcur h0 hp hps
    rw [List.foldl_cons]
    exact ih _ k1 k2 k3 k4

/-- The invariant of `a_star_search` at the entry of the loop, with the facts about the
initial board and the parent table. -/
theorem a_star_after_inv (Q : PriorityQueueOps) (C : Comparator) (initial : State)
    (hb : initial.Perm (List.range 9)) :
    ∀ (n : Nat) (vars : AStarVars), a_star_after Q C initial n = some vars →
      a_star_inv initial [] vars ∧ table_find vars.2.2 initial = some 0 ∧
      table_find vars.2.1 initial = none ∧ parent_seen vars.2.1 (cost_seen vars.2.2) := by
  intro n
  induction n with
  | zero =>
    intro vars h
    simp only [a_star_after, Option.some.injEq] at h
    subst h
    refine ⟨(a_star_init Q _ initial hb).1, ?_, rfl, ?_⟩
    · show table_find (table_assign [] initial 0) initial = some 0
      rw [table_find_assign, if_pos rfl]
    · intro s p hsp
      cases hsp
  | succ n ih =>
    intro vars h
    simp only [a_star_after] at h
    cases hprev : a_star_after Q C initial n with
    | none => rw [hprev] at h; cases h
    | some prev =>
      rw [hprev, Option.some_bind] at h
      obtain ⟨hinv, h0, hp, hps⟩ := ih prev hprev
      obtain ⟨queue, parent, moves⟩ := prev
      cases queue with
      | nil => simp [a_star_iter] at h
      | cons current rest =>
        by_cases hg : is_goal current = true
        · simp [a_star_iter, hg] at h
        · simp only [a_star_iter, hg, Bool.false_eq_true, if_false, Option.some.injEq] at h
          have hg' : is_goal current = false := by simpa using hg
          have hcur : cost_seen moves current = true :=
            hinv.seen_queue current (List.mem_cons_self _ _)
          have hstep := (a_star_step Q C initial current rest parent moves hinv hg').1
          have hextra := a_star_fold_extra Q C initial current (cost_of moves current + 1)
            (by omega) (generate_moves current)
            (Q.pop (C (some moves)) (current :: rest), parent, cost_touch moves current)
            (by rw [cost_touch_of_seen hcur]; exact hcur)
            (by rw [cost_touch_of_seen hcur]; exact h0) hp
            (by rw [cost_touch_of_seen hcur]; exact hps)
          rw [← h]
          exact ⟨hstep, hextra⟩

/-- C20: in `a_star_search` from a permutation board, at every entry of the loop every
board of the frontier has an entry in the cost table, the cost of the initial board is
0 and the initial board has no parent; the read `moves[current]` for the popped board
adds no entry; and in the `for` loop, after any number of successors, every board of
the frontier again has an entry in the cost table (so that the comparator, which is
applied to boards of the frontier at a push or a pop, reads existing entries only), the
cost of the initial board is 0 and the initial board has no parent. -/
theorem a_star_frontier_has_cost (Q : PriorityQueueOps) (C : Comparator)
    (_hC : C = ManhattanDistanceComparator ∨ C = NotInPlaceCountComparator)
    (b : State) (hb : b.Perm (List.range 9)) (n : Nat) (queue : List State)
    (parent : ParentTable) (moves : CostTable)
    (hrun : a_star_after Q C b n = some (queue, parent, moves)) :
    (∀ s ∈ queue, (table_find moves s).isSome = true) ∧
    table_find moves b = some 0 ∧ table_find parent b = none ∧
    ∀ current rest, queue = current :: rest →
      cost_touch moves current = moves ∧
      ∀ k : Nat,
        (∀ s ∈ (a_star_midway Q C (queue, parent, moves) current rest
            ((generate_moves current).take k)).1,
          (table_find (a_star_midway Q C (queue, parent, moves) current rest
            ((generate_moves current).take k)).2.2 s).isSome = true) ∧
        table_find (a_star_midway Q C (queue, parent, moves) current rest
          ((generate_moves current).take k)).2.2 b = some 0 ∧
        table_find (a_star_midway Q C (queue, parent, moves) current rest
          ((generate_moves current).take k)).2.1 b = none := by
  obtain ⟨hinv, h0, hp, hps⟩ := a_star_after_inv Q C b hb n _ hrun
  refine ⟨fun s hs => hinv.seen_queue s hs, h0, hp, ?_⟩
  intro current rest hq
  subst hq
  have hcur : cost_seen moves current = true :=
    hinv.seen_queue current (List.mem_cons_self _ _)
  refine ⟨cost_touch_of_seen hcur, ?_⟩
  intro k
  have hmid := a_star_mid Q C b current rest parent moves hinv
  have hfold := a_star_fold_inv Q C b current (cost_of moves current + 1)
    ((generate_moves current).take k)
    (Q.pop (C (some moves)) (current :: rest), parent, cost_touch moves current)
    (fun t ht => List.mem_of_mem_take ht) hmid
    (by rw [cost_touch_of_seen hcur])
  have hextra := a_star_fold_extra Q C b current (cost_of moves current + 1)
    (by omega) ((generate_moves current).take k)
    (Q.pop (C (some moves)) (current :: rest), parent, cost_touch moves current)
    (by rw [cost_touch_of_seen hcur]; exact hcur)
    (by rw [cost_touch_of_seen hcur]; exact h0) hp
    (by rw [cost_touch_of_seen hcur]; exact hps)
  exact ⟨fun s hs => hfold.1.seen_queue s hs, hextra.1, hextra.2.1⟩

/-- Witness of C20: the variables of `a_star_search` after one iteration from
`[1,2,0,3,4,5,6,7,8]`. -/
theorem a_star_frontier_has_cost_witness :
    table_find
      [([1, 2, 0, 3, 4, 5, 6, 7, 8], 0), ([1, 2, 5, 3, 4, 0, 6, 7, 8], 1),
        ([1, 0, 2, 3, 4, 5, 6, 7, 8], 1)] [1, 2, 0, 3, 4, 5, 6, 7, 8] = some 0 :=
  (a_star_frontier_has_cost sorted_queue ManhattanDistanceComparator (Or.inl rfl)
    [1, 2, 0, 3, 4, 5, 6, 7, 8] (by decide) 1
    [[1, 0, 2, 3, 4, 5, 6, 7, 8], [1, 2, 5, 3, 4, 0, 6, 7, 8]]
    [([1, 2, 5, 3, 4, 0, 6, 7, 8], [1, 2, 0, 3, 4, 5, 6, 7, 8]),
      ([1, 0, 2, 3, 4, 5, 6, 7, 8], [1, 2, 0, 3, 4, 5, 6, 7, 8])]
    [([1, 2, 0, 3, 4, 5, 6, 7, 8], 0), ([1, 2, 5, 3, 4, 0, 6, 7, 8], 1),
      ([1, 0, 2, 3, 4, 5, 6, 7, 8], 1)] (by rfl)).2.1

/-! ### Permutations throughout the searches -/

theorem best_first_visit_extra (Q : PriorityQueueOps) (cmp : State → State → Bool)
    (current succ : State) (vars : BestFirstVars)
    (hcur : visited_seen vars.2.2 current = true)
    (hps : parent_seen vars.2.1 (visited_seen vars.2.2)) :
    visited_seen (best_first_visit Q cmp current vars succ).2.2 current = true ∧
    parent_seen (best_first_visit Q cmp current vars succ).2.1
      (visited_seen (best_first_visit Q cmp current vars succ).2.2) := by
  obtain ⟨queue, parent, visited⟩ := vars
  dsimp only at hcur hps
  by_cases hc : set_contains visited succ = true
  · have e : best_first_visit Q cmp current (queue, parent, visited) succ =
        (queue, parent, visited) := by
      simp [best_first_visit, hc]
    rw [e]
    exact ⟨hcur, hps⟩
  · have e : best_first_visit Q cmp current (queue, parent, visited) succ =
        (Q.push cmp queue succ, table_assign parent succ current, set_insert visited succ) := by
      simp [best_first_visit, hc]
    rw [e]
    dsimp only
    have hmono : ∀ s, visited_seen visited s = true →
        visited_seen (set_insert visited succ) s = true := by
      intro s hs
      rw [visited_seen_iff] at hs ⊢
      rw [mem_set_insert]
      exact Or.inr hs
    refine ⟨hmono _ hcur, ?_⟩
    intro s p hsp
    rw [table_find_assign] at hsp
    by_cases hs : succ = s
    · rw [if_pos hs] at hsp
      rw [← Option.some.inj hsp, ← hs]
      refine ⟨?_, hmono _ hcur⟩
      rw [visited_seen_iff, mem_set_insert]
      exact Or.inl rfl
    · rw [if_neg hs] at hsp
      exact ⟨hmono _ (hps s p hsp).1, hmono _ (hps s p hsp).2⟩

theorem best_first_fold_extra (Q : PriorityQueueOps) (cmp : State → State → Bool)
    (current : State) :
    ∀ (succs : List State) (vars : BestFirstVars),
      visited_seen vars.2.2 current = true → parent_seen vars.2.1 (visited_seen vars.2.2) →
      parent_seen (succs.foldl (best_first_visit Q cmp current) vars).2.1
        (visited_seen (succs.foldl (best_first_visit Q cmp current) vars).2.2) := by
  intro succs
  induction succs with
  | nil => intro vars _ hps; exact hps
  | cons x rest ih =>
    intro vars hcur hps
    obtain ⟨k1, k2⟩ := best_first_visit_extra Q cmp current x vars hcur hps
    rw [List.foldl_cons]
    exact ih _ k1 k2

/-- The invariant of `best_first_search` at the entry of the loop, with the fact about
the parent table. -/
theorem best_first_after_inv (Q : PriorityQueueOps) (C : Comparator) (initial : State)
    (hb : initial.Perm (List.range 9)) :
    ∀ (n : Nat) (vars : BestFirstVars), best_first_after Q C initial n = some vars →
      best_first_inv initial [] vars ∧ parent_seen vars.2.1 (visited_seen vars.2.2) := by
  intro n
  induction n with
  | zero =>
    intro vars h
    simp only [best_first_after, Option.some.injEq] at h
    subst h
    exact ⟨(best_first_init Q _ initial hb).1, fun s p hsp => by cases hsp⟩
  | succ n ih =>
    intro vars h
    simp only [best_first_after] at h
    cases hprev : best_first_after Q C initial n with
    | none => rw [hprev] at h; cases h
    | some prev =>
      rw [hprev, Option.some_bind] at h
      obtain ⟨hinv, hps⟩ := ih prev hprev
      obtain ⟨queue, parent, visited⟩ := prev
      cases queue with
      | nil => simp [best_first_iter] at h
      | cons current rest =>
        by_cases hg : is_goal current = true
        · simp [best_first_iter, hg] at h
        · simp only [best_first_iter, hg, Bool.false_eq_true, if_false,
            Option.some.injEq] at h
          have hg' : is_goal current = false := by simpa using hg
          have hcur : visited_seen visited current = true := by
            obtain ⟨rank, hr⟩ := hinv
            exact hr.seen_queue current (List.mem_cons_self _ _)
          rw [← h]
          exact ⟨(best_first_step Q (C none) initial current rest parent visited hinv hg').1,
            best_first_fold_extra Q (C none) current _ _ hcur hps⟩

/-- C19: the move generator preserves the permutation invariant: every board of
`generate_moves b` is a permutation of `0..8` when `b` is one. Hence, in a search
started from a permutation, at every entry of the loop the boards of the frontier, of
the visited set or the cost table, and the boards and parents of the parent table are
permutations. -/
theorem permutation_preserved :
    (∀ b : State, b.Perm (List.range 9) → ∀ s ∈ generate_moves b, s.Perm (List.range 9)) ∧
    (∀ (Q : PriorityQueueOps) (C : Comparator) (b : State), b.Perm (List.range 9) →
      ∀ (n : Nat) (queue : List State) (parent : ParentTable) (visited : StateSet),
        best_first_after Q C b n = some (queue, parent, visited) →
        (∀ s ∈ queue, s.Perm (List.range 9)) ∧ (∀ s ∈ visited, s.Perm (List.range 9)) ∧
        ∀ s p, table_find parent s = some p →
          s.Perm (List.range 9) ∧ p.Perm (List.range 9)) ∧
    (∀ (Q : PriorityQueueOps) (C : Comparator) (b : State), b.Perm (List.range 9) →
      ∀ (n : Nat) (queue : List State) (parent : ParentTable) (moves : CostTable),
        a_star_after Q C b n = some (queue, parent, moves) →
        (∀ s ∈ queue, s.Perm (List.range 9)) ∧
        (∀ s c, table_find moves s = some c → s.Perm (List.range 9)) ∧
        ∀ s p, table_find parent s = some p →
          s.Perm (List.range 9) ∧ p.Perm (List.range 9)) := by
  refine ⟨fun b hb s hs => generate_moves_perm hb hs, ?_, ?_⟩
  · intro Q C b hb n queue parent visited hrun
    obtain ⟨⟨rank, hinv⟩, hps⟩ := best_first_after_inv Q C b hb n _ hrun
    refine ⟨fun s hs => hinv.perm s (hinv.seen_queue s hs),
      fun s hs => hinv.perm s ((visited_seen_iff _ _).2 hs), ?_⟩
    intro s p hsp
    exact ⟨hinv.perm s (hps s p hsp).1, hinv.perm p (hps s p hsp).2⟩
  · intro Q C b hb n queue parent moves hrun
    obtain ⟨hinv, _, _, hps⟩ := a_star_after_inv Q C b hb n _ hrun
    refine ⟨fun s hs => hinv.perm s (hinv.seen_queue s hs),
      fun s c hsc => hinv.perm s (cost_seen_of_find hsc).1, ?_⟩
    intro s p hsp
    exact ⟨hinv.perm s (hps s p hsp).1, hinv.perm p (hps s p hsp).2⟩

/-- Witness of C19: a successor of the board `[1,2,3,4,0,5,6,7,8]` is a permutation. -/
theorem permutation_preserved_witness :
    ([1, 2, 3, 4, 7, 5, 6, 0, 8] : State).Perm (List.range 9) :=
  permutation_preserved.1 [1, 2, 3, 4, 0, 5, 6, 7, 8] (by decide) [1, 2, 3, 4, 7, 5, 6, 0, 8]
    (by decide)

end EightPuzzle
